import Mathlib

/-!
Verification development for the a-maze-ing repository.

The Python sources are shallowly embedded:
* `Mazegen` embeds `src/mazegen/mazegen.py` (boolean-wall `Cell`/`Maze`,
  `MazeGenerator` with Prim-style carving and the loop breaker);
* `MazePkg` embeds `src/mazegen/maze.py` (nibble-valued `Cell`, `Maze`)
  and `src/mazegen/solver.py` (`MazeSolver`);
* `ConfigMod` embeds `src/config.py` (`Config._parse` and friends).

Python's `random.Random` instance is modelled as an abstract deterministic
stream of naturals (`Rng`): each call of `choice`/`shuffle` consumes values
of the stream in order.  All randomized properties are proved for every
stream, hence they hold for the stream produced by CPython's generator.
-/

namespace AMazeIng

/-- Python list-index normalization: a valid non-negative index is kept,
a negative index `i` with `-len ≤ i` wraps to `len + i`, anything else is
an `IndexError` (`none`). -/
def pyIdx (n : Nat) (i : Int) : Option Nat :=
  if 0 ≤ i ∧ i < (n : Int) then some i.toNat
  else if -(n : Int) ≤ i ∧ i < 0 then some (i + n).toNat
  else none

/-- Python `l[i]` (read). -/
def pyGet (l : List α) (i : Int) : Option α :=
  (pyIdx l.length i).bind fun k => l.get? k

/-- Python in-place update of `l[i]` by `f` (no-op on an out-of-range index;
the sources only mutate in-range cells). -/
def pyModify (l : List α) (f : α → α) (i : Int) : List α :=
  match pyIdx l.length i with
  | some k => l.modify f k
  | none => l

end AMazeIng

namespace Mazegen
/-! Embedding of `src/mazegen/mazegen.py`. -/

open AMazeIng

/-- Grid position `(row, col)`, Python ints. -/
abbrev Pos := Int × Int

/-- `Cell` of `mazegen.py`: four walls, `true` = closed. -/
structure Cell where
  north : Bool
  east : Bool
  south : Bool
  west : Bool
deriving DecidableEq, Repr

/-- The all-closed cell `Cell(True, True, True, True)`. -/
def Cell.closedAll : Cell := ⟨true, true, true, true⟩

/-- `Maze` of `mazegen.py`. -/
structure Maze where
  width : Nat
  height : Nat
  entry : Pos
  exit_ : Pos
  grid : List (List Cell)
deriving DecidableEq, Repr

/-- `Maze.__init__`: a `height × width` grid of all-closed cells. -/
def Maze.init (width height : Nat) (entry exit_ : Pos) : Maze :=
  ⟨width, height, entry, exit_,
    List.replicate height (List.replicate width Cell.closedAll)⟩

/-- `Maze.get_cell` with Python indexing semantics (`none` = `IndexError`). -/
def Maze.getCell (m : Maze) (p : Pos) : Option Cell :=
  (pyGet m.grid p.1).bind fun row => pyGet row p.2

/-- Total accessor used to phrase wall state; agrees with `getCell` on
positions where the latter succeeds. -/
def Maze.cellAt (m : Maze) (p : Pos) : Cell :=
  (m.getCell p).getD Cell.closedAll

/-- Update the cell at `p` in place. -/
def Maze.modifyCell (m : Maze) (p : Pos) (f : Cell → Cell) : Maze :=
  { m with grid := pyModify m.grid (fun row => pyModify row f p.2) p.1 }

/-- `Maze.open_wall`: no-op unless the two positions are Manhattan-adjacent;
otherwise clears the shared wall bit on both cells. -/
def Maze.openWall (m : Maze) (p1 p2 : Pos) : Maze :=
  if (p1.1 - p2.1).natAbs + (p1.2 - p2.2).natAbs ≠ 1 then m
  else if p1.2 + 1 = p2.2 then
    (m.modifyCell p1 fun c => { c with east := false }).modifyCell p2
      fun c => { c with west := false }
  else if p1.2 - 1 = p2.2 then
    (m.modifyCell p1 fun c => { c with west := false }).modifyCell p2
      fun c => { c with east := false }
  else if p1.1 + 1 = p2.1 then
    (m.modifyCell p1 fun c => { c with south := false }).modifyCell p2
      fun c => { c with north := false }
  else if p1.1 - 1 = p2.1 then
    (m.modifyCell p1 fun c => { c with north := false }).modifyCell p2
      fun c => { c with south := false }
  else m

/-- Lower-case hex digit for a nibble, as `format(val, "x")` produces. -/
def hexDigit (n : Nat) : Char :=
  "0123456789abcdef".toList.getD n '0'

/-- The wall nibble of a cell: bit 0 = North, bit 1 = East, bit 2 = South,
bit 3 = West. -/
def Cell.nibble (c : Cell) : Nat :=
  (cond c.north 1 0) + (cond c.east 2 0) + (cond c.south 4 0) + (cond c.west 8 0)

/-- `Maze.to_hex_str`: one hex digit per cell, rows joined by newlines. -/
def Maze.toHexStr (m : Maze) : String :=
  String.intercalate "\n" <|
    (List.range m.height).map fun row =>
      String.mk <|
        (List.range m.width).map fun col =>
          hexDigit (m.cellAt ((row : Int), (col : Int))).nibble

/-- Model of a `random.Random` instance: a deterministic stream of naturals
together with the count of values consumed so far.  Each random primitive
consumes stream values in order, so a fixed stream fixes every choice. -/
structure Rng where
  stream : Nat → Nat
  idx : Nat

/-- Draw one value from the stream. -/
def Rng.next (r : Rng) : Nat × Rng :=
  (r.stream r.idx, ⟨r.stream, r.idx + 1⟩)

/-- Model of `Random.choice(seq)`: one draw selects an index into `seq`
(`seq` is nonempty at every call site; the default is never hit then). -/
def pyChoice (dflt : α) (l : List α) (r : Rng) : α × Rng :=
  let (k, r2) := r.next
  (l.getD (k % l.length) dflt, r2)

/-- One selection round of the `Random.shuffle` model: a draw picks the next
element of the permutation, which is removed from the pool. -/
def pyShuffleAux (dflt : α) : Nat → List α → Rng → List α × Rng
  | 0, _, r => ([], r)
  | n + 1, l, r =>
    let (k, r2) := r.next
    let j := k % l.length
    let x := l.getD j dflt
    let (xs, r3) := pyShuffleAux dflt n (l.eraseIdx j) r2
    (x :: xs, r3)

/-- Model of `Random.shuffle`: a stream-determined permutation of the list. -/
def pyShuffle (dflt : α) (l : List α) (r : Rng) : List α × Rng :=
  pyShuffleAux dflt l.length l r

/-- The fixed `'42'` bitmap of `MazeGenerator._make_pattern`. -/
def patternBitmap : List (List Nat) :=
  [[1, 0, 0, 0, 1, 1, 1],
   [1, 0, 0, 0, 0, 0, 1],
   [1, 1, 1, 0, 1, 1, 1],
   [0, 0, 1, 0, 1, 0, 0],
   [0, 0, 1, 0, 1, 1, 1]]

/-- Coordinates of the set bits of the bitmap, shifted by the centering
offsets. -/
def patternCells (offR offC : Nat) : List Pos :=
  (List.range 5).flatMap fun row =>
    (List.range 7).filterMap fun col =>
      if (patternBitmap.getD row []).getD col 0 ≠ 0 then
        some ((offR + row : Int), (offC + col : Int))
      else none

/-- `MazeGenerator._make_pattern`: the `'42'` shape centered in the grid,
omitted (empty set) when the grid is too small or when the shape covers the
entry or the exit. -/
def makePattern (width height : Nat) (entry exit_ : Pos) : Finset Pos :=
  if height < 5 + 1 ∨ width < 7 + 2 then ∅
  else
    let offR := (height - 5) / 2
    let offC := (width - 7) / 2
    let cells := (patternCells offR offC).toFinset
    if entry ∈ cells then ∅
    else if exit_ ∈ cells then ∅
    else cells

/-- `MazeGenerator` fields set by `__init__` (the seeded random source is
threaded explicitly as an `Rng`). -/
structure MazeGenerator where
  width : Nat
  height : Nat
  entry : Pos
  exit_ : Pos
  perfect : Bool
  algo : Option String
  pattern : Finset Pos

/-- `MazeGenerator.__init__` (minus the stored `random.Random`). -/
def MazeGenerator.init (width height : Nat) (entry exit_ : Pos)
    (perfect : Bool) (algo : Option String) : MazeGenerator :=
  ⟨width, height, entry, exit_, perfect, algo, makePattern width height entry exit_⟩

/-- In-bounds predicate `0 <= row < height and 0 <= col < width`. -/
def MazeGenerator.inB (g : MazeGenerator) (p : Pos) : Prop :=
  0 ≤ p.1 ∧ p.1 < (g.height : Int) ∧ 0 ≤ p.2 ∧ p.2 < (g.width : Int)

instance (g : MazeGenerator) (p : Pos) : Decidable (g.inB p) := by
  unfold MazeGenerator.inB
  infer_instance

/-- `MazeGenerator._get_neighbors`: the four candidates in source order,
filtered to the maze bounds. -/
def MazeGenerator.getNeighbors (g : MazeGenerator) (p : Pos) : List Pos :=
  [(p.1 - 1, p.2), (p.1 + 1, p.2), (p.1, p.2 - 1), (p.1, p.2 + 1)].filter
    fun q => decide (g.inB q)

/-- `MazeGenerator._add_options`: append the unvisited non-pattern neighbors
of `pos` to the options list. -/
def MazeGenerator.addOptions (g : MazeGenerator) (p : Pos)
    (visited : Finset Pos) (options : List Pos) : List Pos :=
  options ++ (g.getNeighbors p).filter fun q => decide (q ∉ visited ∧ q ∉ g.pattern)

/-- `MazeGenerator._get_visited_neighbors`. -/
def MazeGenerator.getVisitedNeighbors (g : MazeGenerator) (p : Pos)
    (visited : Finset Pos) : List Pos :=
  (g.getNeighbors p).filter fun q => decide (q ∈ visited ∧ q ∉ g.pattern)

/-- The mutable state of the `while options:` loop in `generate`. -/
structure CarveState where
  maze : Maze
  visited : Finset Pos
  options : List Pos
  rng : Rng

/-- The `while options:` loop of `MazeGenerator.generate`, fueled; the fuel
`carveFuel` is proved sufficient, so the fuel-out branch is never taken. -/
def carveLoop (g : MazeGenerator) : Nat → CarveState → CarveState
  | 0, s => s
  | fuel + 1, s =>
    match s.options with
    | [] => s
    | _ :: _ =>
      let (current, rng1) := pyChoice (0, 0) s.options s.rng
      let options1 := s.options.erase current
      if current ∈ s.visited then
        carveLoop g fuel ⟨s.maze, s.visited, options1, rng1⟩
      else
        match g.getVisitedNeighbors current s.visited with
        | [] => carveLoop g fuel ⟨s.maze, s.visited, options1, rng1⟩
        | nb :: nbs =>
          let (nbr, rng2) := pyChoice (0, 0) (nb :: nbs) rng1
          let m1 := s.maze.openWall current nbr
          let visited1 := insert current s.visited
          let options2 := g.addOptions current visited1 options1
          carveLoop g fuel ⟨m1, visited1, options2, rng2⟩

/-- Fuel that dominates the loop measure (proved sufficient below). -/
def carveFuel (g : MazeGenerator) : Nat :=
  5 * (g.width * g.height) + 5

/-- `MazeGenerator._is_closed`. -/
def MazeGenerator.isClosed (m : Maze) (p1 p2 : Pos) : Bool :=
  if p1.1 < p2.1 then (m.cellAt p1).south
  else if p1.2 < p2.2 then (m.cellAt p1).east
  else false

/-- `MazeGenerator._check_2x2`: `true` when three or more of the four
internal walls of the 2×2 window at top-left `(row, col)` are already open. -/
def MazeGenerator.check2x2 (m : Maze) (row col : Int) : Bool :=
  let lt := m.cellAt (row, col)
  let rt := m.cellAt (row, col + 1)
  let lb := m.cellAt (row + 1, col)
  decide (3 ≤ (cond lt.east 0 1) + (cond lt.south 0 1)
      + (cond rt.south 0 1) + (cond lb.east 0 1))

/-- `MazeGenerator._is_breakable`. -/
def MazeGenerator.isBreakable (g : MazeGenerator) (m : Maze) (p1 p2 : Pos) : Bool :=
  if p1.1 < p2.1 then
    if 0 < p1.2 ∧ MazeGenerator.check2x2 m p1.1 (p1.2 - 1) then false
    else if p1.2 < (g.width : Int) - 1 ∧ MazeGenerator.check2x2 m p1.1 p1.2 then false
    else true
  else
    if 0 < p1.1 ∧ MazeGenerator.check2x2 m (p1.1 - 1) p1.2 then false
    else if p1.1 < (g.height : Int) - 1 ∧ MazeGenerator.check2x2 m p1.1 p1.2 then false
    else true

/-- The adjacent-pairs enumeration of `MazeGenerator._add_loops`: for each
cell in row-major order, its south pair then its east pair. -/
def MazeGenerator.adjacentPairs (g : MazeGenerator) : List (Pos × Pos) :=
  (List.range g.height).flatMap fun row =>
    (List.range g.width).flatMap fun col =>
      (if row < g.height - 1 then
        [(((row : Int), (col : Int)), ((row : Int) + 1, (col : Int)))] else []) ++
      (if col < g.width - 1 then
        [(((row : Int), (col : Int)), ((row : Int), (col : Int) + 1))] else [])

/-- The `for pos1, pos2 in adjacent_pairs:` loop body of `_add_loops`. -/
def addLoopsGo (g : MazeGenerator) (limit : Nat) :
    List (Pos × Pos) → Nat → Maze → Maze
  | [], _, m => m
  | (p1, p2) :: rest, broken, m =>
    if limit ≤ broken then m
    else if p1 ∈ g.pattern ∨ p2 ∈ g.pattern then addLoopsGo g limit rest broken m
    else if MazeGenerator.isClosed m p1 p2 then
      if g.isBreakable m p1 p2 then
        addLoopsGo g limit rest (broken + 1) (m.openWall p1 p2)
      else addLoopsGo g limit rest broken m
    else addLoopsGo g limit rest broken m

/-- `MazeGenerator._add_loops`. -/
def MazeGenerator.addLoops (g : MazeGenerator) (m : Maze) (rng : Rng) : Maze × Rng :=
  let (pairs, rng2) := pyShuffle ((0, 0), (0, 0)) g.adjacentPairs rng
  (addLoopsGo g ((g.width * g.height) / 20) pairs 0 m, rng2)

/-- `MazeGenerator.generate`: the Prim-style carve from `entry`, followed by
the loop breaker when the maze is not perfect. -/
def MazeGenerator.generate (g : MazeGenerator) (rng : Rng) : Maze × Rng :=
  let m0 := Maze.init g.width g.height g.entry g.exit_
  let visited0 : Finset Pos := {g.entry}
  let options0 := g.addOptions g.entry visited0 []
  let s := carveLoop g (carveFuel g) ⟨m0, visited0, options0, rng⟩
  if g.perfect then (s.maze, s.rng) else g.addLoops s.maze s.rng

/-- The state in which the `while options:` loop of `generate` ends (the
`let s := ...` of the embedding of `generate`). -/
def MazeGenerator.carveResult (g : MazeGenerator) (rng : Rng) : CarveState :=
  carveLoop g (carveFuel g)
    ⟨Maze.init g.width g.height g.entry g.exit_, {g.entry},
      g.addOptions g.entry {g.entry} [], rng⟩

/-! Graph-side vocabulary for the generator claims. -/

/-- South neighbor. -/
def southOf (p : Pos) : Pos := (p.1 + 1, p.2)

/-- East neighbor. -/
def eastOf (p : Pos) : Pos := (p.1, p.2 + 1)

/-- The four grid neighbors (Manhattan distance one). -/
def adjacent4 (p q : Pos) : Prop :=
  q = (p.1 - 1, p.2) ∨ q = (p.1 + 1, p.2) ∨ q = (p.1, p.2 - 1) ∨ q = (p.1, p.2 + 1)

instance (p q : Pos) : Decidable (adjacent4 p q) := by
  unfold adjacent4
  infer_instance

/-- In-bounds with respect to a maze's own dimensions. -/
def Maze.inBM (m : Maze) (p : Pos) : Prop :=
  0 ≤ p.1 ∧ p.1 < (m.height : Int) ∧ 0 ≤ p.2 ∧ p.2 < (m.width : Int)

instance (m : Maze) (p : Pos) : Decidable (m.inBM p) := by
  unfold Maze.inBM
  infer_instance

/-- The wall below `p` is open. -/
def Maze.openSouth (m : Maze) (p : Pos) : Prop := (m.cellAt p).south = false

/-- The wall right of `p` is open. -/
def Maze.openEast (m : Maze) (p : Pos) : Prop := (m.cellAt p).east = false

instance (m : Maze) (p : Pos) : Decidable (m.openSouth p) := by
  unfold Maze.openSouth
  infer_instance

instance (m : Maze) (p : Pos) : Decidable (m.openEast p) := by
  unfold Maze.openEast
  infer_instance

/-- Two in-bounds cells joined by an opened wall (each wall-pair is read off
the south/east bit of its top/left cell, the bit `open_wall` clears). -/
def Maze.openAdj (m : Maze) (p q : Pos) : Prop :=
  m.inBM p ∧ m.inBM q ∧
    ((q = southOf p ∧ m.openSouth p) ∨ (q = eastOf p ∧ m.openEast p) ∨
     (p = southOf q ∧ m.openSouth q) ∨ (p = eastOf q ∧ m.openEast q))

/-- The graph of opened wall-pairs of a maze. -/
def openGraph (m : Maze) : SimpleGraph Pos where
  Adj := m.openAdj
  symm := by
    intro p q h
    obtain ⟨hp, hq, hrest⟩ := h
    refine ⟨hq, hp, ?_⟩
    tauto
  loopless := by
    intro p h
    obtain ⟨-, -, h⟩ := h
    rcases h with ⟨h, -⟩ | ⟨h, -⟩ | ⟨h, -⟩ | ⟨h, -⟩ <;>
      (rw [Prod.ext_iff] at h
       simp only [southOf, eastOf] at h
       omega)

/-- The in-bounds cells of a maze, as a finset. -/
def Maze.boundsFinset (m : Maze) : Finset Pos :=
  ((Finset.range m.height) ×ˢ (Finset.range m.width)).image
    fun rc => ((rc.1 : Int), (rc.2 : Int))

/-- The opened wall-pairs of a maze, one canonical `(top/left, bottom/right)`
pair per opened wall. -/
def Maze.openEdges (m : Maze) : Finset (Pos × Pos) :=
  (m.boundsFinset ×ˢ m.boundsFinset).filter fun pq =>
    (pq.2 = southOf pq.1 ∧ m.openSouth pq.1) ∨ (pq.2 = eastOf pq.1 ∧ m.openEast pq.1)

/-- The canonical representative of the wall-pair `{p, q}`. -/
def canonEdge (p q : Pos) : Pos × Pos :=
  if q = southOf p ∨ q = eastOf p then (p, q) else (q, p)

/-- Grid well-formedness: the row list matches the stored dimensions. -/
def Maze.wfGrid (m : Maze) : Prop :=
  m.grid.length = m.height ∧ ∀ row ∈ m.grid, row.length = m.width

/-- One step between in-bounds non-pattern cells. -/
def MazeGenerator.adjNP (g : MazeGenerator) (p q : Pos) : Prop :=
  adjacent4 p q ∧ g.inB p ∧ g.inB q ∧ p ∉ g.pattern ∧ q ∉ g.pattern

/-- `p` is reachable from the entry through in-bounds non-pattern cells
(the vertex set of the claim's spanning-tree statement). -/
def MazeGenerator.reachNP (g : MazeGenerator) (p : Pos) : Prop :=
  Relation.ReflTransGen g.adjNP g.entry p

/-- `open_wall` sequences, for the wall-monotonicity claim. -/
def Maze.openWallSeq (m : Maze) (l : List (Pos × Pos)) : Maze :=
  l.foldl (fun acc pq => acc.openWall pq.1 pq.2) m

/-- Modelled from the spec: §4.4 "Generation Engine — Randomized
Backtracking variant".  The stack-based DFS carve that the `'DFS'` selector
names is absent from `src/` (only the selector parsing and the stored
`_algo` field exist there), so it is reconstructed from the spec's words:
stack starts at the entry, the top cell's unvisited non-pattern in-bounds
neighbors are collected in a fixed canonical order, one is chosen uniformly
at random, its wall is opened and it is pushed; with no candidate the stack
pops.  Used only to exhibit that `generate` does not dispatch on the
selector. -/
def specDFSLoop (g : MazeGenerator) :
    Nat → Maze → Finset Pos → List Pos → Rng → Maze × Rng
  | 0, m, _, _, rng => (m, rng)
  | fuel + 1, m, visited, stack, rng =>
    match stack with
    | [] => (m, rng)
    | top :: rest =>
      match (g.getNeighbors top).filter
          (fun q => decide (q ∉ visited ∧ q ∉ g.pattern)) with
      | [] => specDFSLoop g fuel m visited rest rng
      | c :: cs =>
        let (nxt, rng2) := pyChoice (0, 0) (c :: cs) rng
        specDFSLoop g fuel (m.openWall top nxt) (insert nxt visited)
          (nxt :: top :: rest) rng2

/-- Modelled from the spec (see `specDFSLoop`): the whole DFS carve. -/
def specDFSCarve (g : MazeGenerator) (rng : Rng) : Maze × Rng :=
  let m0 := Maze.init g.width g.height g.entry g.exit_
  specDFSLoop g (2 * (g.width * g.height) + 2) m0 {g.entry} [g.entry] rng

/-- The in-bounds cells of the configured grid, as a finset. -/
def MazeGenerator.cellsFinset (g : MazeGenerator) : Finset Pos :=
  ((Finset.range g.height) ×ˢ (Finset.range g.width)).image
    fun rc => ((rc.1 : Int), (rc.2 : Int))

/-- No 2×2 window of cells has all four of its internal walls open. -/
def noFull2x2 (m : Maze) : Prop :=
  ∀ r c : Int, 0 ≤ r → r + 1 < (m.height : Int) → 0 ≤ c → c + 1 < (m.width : Int) →
    ¬(m.openEast (r, c) ∧ m.openSouth (r, c) ∧
      m.openSouth (r, c + 1) ∧ m.openEast (r + 1, c))

/-- Loop invariant of the Prim-style carve: bookkeeping of the visited set
and the options list, plus the structural facts about the partially carved
maze (opened walls join visited non-pattern cells, form a tree certified by
a parent/rank function, and never complete a 2×2 window or touch a pattern
cell). -/
structure CarveInv (g : MazeGenerator) (s : CarveState) : Prop where
  dims_w : s.maze.width = g.width
  dims_h : s.maze.height = g.height
  wf : s.maze.wfGrid
  entry_vis : g.entry ∈ s.visited
  vis_inB : ∀ p ∈ s.visited, g.inB p
  vis_np : ∀ p ∈ s.visited, p ∉ g.pattern
  opt_inB : ∀ p ∈ s.options, g.inB p
  opt_np : ∀ p ∈ s.options, p ∉ g.pattern
  closure : ∀ p ∈ s.visited, ∀ q, adjacent4 p q → g.inB q → q ∉ g.pattern →
    q ∈ s.visited ∨ q ∈ s.options
  vis_reach : ∀ p ∈ s.visited, g.reachNP p
  open_reach : ∀ p ∈ s.visited, (openGraph s.maze).Reachable g.entry p
  adj_vis : ∀ p q, s.maze.openAdj p q → p ∈ s.visited ∧ q ∈ s.visited
  edge_count : s.maze.openEdges.card + 1 = s.visited.card
  tree_cert : ∃ (f : Pos → Pos) (rk : Pos → Nat),
    ∀ p q, s.maze.openAdj p q →
      (q = f p ∧ rk (f p) < rk p) ∨ (p = f q ∧ rk (f q) < rk q)
  no_full : noFull2x2 s.maze
  pattern_closed : ∀ p ∈ g.pattern, g.inB p → s.maze.cellAt p = Cell.closedAll

end Mazegen

namespace MazePkg
/-! Embedding of `src/mazegen/maze.py` and `src/mazegen/solver.py`.
Positions are `(x, y)` here and the grid is addressed as `grid[y][x]`. -/

open AMazeIng

abbrev Pos := Int × Int

/-- `Cell` of `maze.py`: `value` is the wall nibble plus any marker bits;
bit 0 = North, bit 1 = East, bit 2 = South, bit 3 = West. -/
structure Cell where
  value : Nat
  isEntry : Bool
  isExit : Bool
  isPattern : Bool
deriving DecidableEq, Repr

/-- `Cell.__init__`: all walls closed, no status. -/
def Cell.init : Cell := ⟨0xF, false, false, false⟩

/-- `Cell.WALL_BITS`. -/
def wallBits (d : String) : Option Nat :=
  if d = "N" then some 1
  else if d = "E" then some 2
  else if d = "S" then some 4
  else if d = "W" then some 8
  else none

/-- `Cell.remove_wall`: clear the wall bit of a known direction
(`value &= ~bit`, which on a non-negative int is bitwise difference). -/
def Cell.removeWall (c : Cell) (d : String) : Cell :=
  match wallBits d with
  | some b => { c with value := c.value.ldiff b }
  | none => c

/-- `Cell.set_path`: `value |= bit`. -/
def Cell.setPath (c : Cell) (bit : Nat) : Cell :=
  { c with value := c.value ||| bit }

/-- `Cell.clear_path`: `value &= ~96`. -/
def Cell.clearPath (c : Cell) : Cell :=
  { c with value := c.value.ldiff 96 }

/-- `Maze` of `maze.py`. -/
structure Maze where
  width : Nat
  height : Nat
  entry : Pos
  exit_ : Pos
  grid : List (List Cell)
deriving DecidableEq, Repr

/-- `Maze.get_cell` (`grid[y][x]` with Python indexing; `none` =
`IndexError`). -/
def Maze.getCell (m : Maze) (p : Pos) : Option Cell :=
  (pyGet m.grid p.2).bind fun row => pyGet row p.1

/-- `Maze.__getitem__`: row lookup `maze[y]`. -/
def Maze.getRow (m : Maze) (y : Int) : Option (List Cell) :=
  pyGet m.grid y

/-- Total cell accessor (callers stay in bounds). -/
def Maze.cellAt (m : Maze) (p : Pos) : Cell :=
  (m.getCell p).getD Cell.init

/-- In-place update of the cell at `(x, y)`. -/
def Maze.modifyCell (m : Maze) (p : Pos) (f : Cell → Cell) : Maze :=
  { m with grid := pyModify m.grid (fun row => pyModify row f p.1) p.2 }

/-- Grid well-formedness: the row list matches the stored dimensions. -/
def Maze.wfGrid (m : Maze) : Prop :=
  m.grid.length = m.height ∧ ∀ row ∈ m.grid, row.length = m.width

/-- `Maze.__init__`: fresh all-closed cells, then the entry and exit flags. -/
def Maze.init (width height : Nat) (entry exit_ : Pos) : Maze :=
  let m : Maze := ⟨width, height, entry, exit_,
    List.replicate height (List.replicate width Cell.init)⟩
  (m.modifyCell entry fun c => { c with isEntry := true }).modifyCell exit_
    fun c => { c with isExit := true }

/-- Uppercase hex digits of `n`, as `format(n, "X")` produces (so a value
of 16 or more renders as several digits). -/
def hexStr (n : Nat) : String :=
  String.mk ((Nat.toDigits 16 n).map Char.toUpper)

/-- `Maze.__str__`. -/
def Maze.str (m : Maze) : String :=
  String.intercalate "\n" (m.grid.map fun row =>
    String.join (row.map fun c => hexStr c.value))

/-- `Maze.clear_all_paths`: `clear_path` on every cell. -/
def Maze.clearAllPaths (m : Maze) : Maze :=
  { m with grid := m.grid.map fun row => row.map Cell.clearPath }

/-! The solver (`src/mazegen/solver.py`). -/

/-- `_dirs`: per direction index, `(dx, dy)`. -/
def dirs : List (Int × Int) := [(0, -1), (0, 1), (1, 0), (-1, 0)]

/-- `_dir_names`. -/
def dirNames : List String := ["N", "S", "E", "W"]

/-- `_wall_bits`. -/
def solverWallBits : List Nat := [1, 4, 2, 8]

/-- A queue entry `(x, y, path, visited)` of `MazeSolver.solve`. -/
structure Entry where
  x : Int
  y : Int
  path : List String
  visited : Finset Pos
deriving DecidableEq

/-- The direction-`i` expansion test of the BFS inner loop: target in
bounds, wall of the current cell open, target not on this path. -/
def expandOne (m : Maze) (e : Entry) (i : Nat) : Option Entry :=
  let d := dirs.getD i (0, 0)
  let nx := e.x + d.1
  let ny := e.y + d.2
  if 0 ≤ nx ∧ nx < (m.width : Int) ∧ 0 ≤ ny ∧ ny < (m.height : Int) then
    if (m.cellAt (e.x, e.y)).value &&& solverWallBits.getD i 0 = 0 then
      if (nx, ny) ∉ e.visited then
        some ⟨nx, ny, e.path ++ [dirNames.getD i ""], insert (nx, ny) e.visited⟩
      else none
    else none
  else none

/-- The `for i in range(4)` expansion of one dequeued entry. -/
def expand (m : Maze) (e : Entry) : List Entry :=
  [0, 1, 2, 3].filterMap (expandOne m e)

/-- The `while queue and len(all_paths) < count:` loop of `solve`, fueled;
`solveFuel` is proved sufficient, so the fuel-out branch is never taken. -/
def solveLoop (m : Maze) (count : Nat) :
    Nat → List Entry → List (List String) → List (List String)
  | 0, _, acc => acc
  | fuel + 1, queue, acc =>
    if count ≤ acc.length then acc
    else
      match queue with
      | [] => acc
      | e :: rest =>
        if (e.x, e.y) = m.exit_ then solveLoop m count fuel rest (acc ++ [e.path])
        else solveLoop m count fuel (rest ++ expand m e) acc

/-- Fuel dominating the BFS measure (proved sufficient below). -/
def solveFuel (m : Maze) : Nat :=
  5 ^ (m.width * m.height) + 1

/-- `MazeSolver.solve`. -/
def solve (m : Maze) (count : Nat) : List (List String) :=
  solveLoop m count (solveFuel m)
    [⟨m.entry.1, m.entry.2, [], {m.entry}⟩] []

/-- The coordinate walk of `apply_path_to_maze`. -/
def moveDir (p : Pos) (d : String) : Pos :=
  if d = "N" then (p.1, p.2 - 1)
  else if d = "S" then (p.1, p.2 + 1)
  else if d = "E" then (p.1 + 1, p.2)
  else if d = "W" then (p.1 - 1, p.2)
  else p

/-- Positions visited by walking `path` from `start`, in order
(`start` included). -/
def walkPositions (start : Pos) : List String → List Pos
  | [] => [start]
  | d :: ds => start :: walkPositions (moveDir start d) ds

/-- Endpoint of the walk. -/
def walkEnd (start : Pos) (path : List String) : Pos :=
  path.foldl moveDir start

/-- `MazeSolver.apply_path_to_maze`: set `bit` on every cell along the walk
from the entry. -/
def applyPathToMaze (m : Maze) (path : List String) (bit : Nat) : Maze :=
  (walkPositions m.entry path).foldl
    (fun acc p => acc.modifyCell p fun c => c.setPath bit) m

end MazePkg

namespace ConfigMod
/-! Embedding of the value validation in `src/config.py` (`Config._parse`
and the `_parse_*` helpers).  The raw key/value map read from the file is a
`String → Option String`; the filesystem tests of `_parse_filename`
(`os.path.isdir`, `os.access`) are an abstract environment. -/

/-- Digit-run conversion used by the `int(s)` model. -/
def pyIntCore (ds : List Char) (sign : Int) : Option Int :=
  if ds ≠ [] ∧ ds.all Char.isDigit then
    some (sign * (ds.foldl (fun acc c => acc * 10 + (c.toNat - 48)) 0 : Nat))
  else none

/-- Python `int(s)` on the strings relevant here: optional sign, then a
nonempty run of decimal digits (`none` = `ValueError`). -/
def pyInt (s : String) : Option Int :=
  match s.data with
  | '-' :: rest => pyIntCore rest (-1)
  | '+' :: rest => pyIntCore rest 1
  | l => pyIntCore l 1

/-- Python `str.lower` on the ASCII strings relevant here. -/
def pyLower (s : String) : String := String.mk (s.data.map Char.toLower)

/-- Python `str.upper` on the ASCII strings relevant here. -/
def pyUpper (s : String) : String := String.mk (s.data.map Char.toUpper)

/-- Python `s.endswith(suffix)`. -/
def pyEndsWith (s suffix : String) : Bool := suffix.data.isSuffixOf s.data

/-- Python `value.split(",", 1)` when it yields two parts: the characters
before the first comma and everything after it (`none` when the string has
no comma, in which case the two-target unpacking raises `ValueError`). -/
def breakAtComma : List Char → Option (List Char × List Char)
  | [] => none
  | c :: rest =>
    if c = ',' then some ([], rest)
    else (breakAtComma rest).map fun ab => (c :: ab.1, ab.2)

/-- The os-dependent tests used by `_parse_filename`. -/
structure Env where
  isDir : String → Bool
  writableParent : String → Bool

/-- Parsed configuration values. -/
structure ConfigData where
  width : Nat
  height : Nat
  entry : Int × Int
  exit_ : Int × Int
  outputFile : String
  perfect : Bool
  seed : Option Int
  algo : Option String
deriving DecidableEq, Repr

/-- `Config._parse_int` for the given key name (the `> 100` cap is skipped
exactly for `SEED`). -/
def parseInt (key : String) (raw : String) : Except String Int := do
  match pyInt raw with
  | none => throw (key ++ " must be an integer")
  | some v =>
    if key ≠ "SEED" ∧ 100 < v then throw (key ++ " must be at most 100")
    else if v ≤ 0 then throw (key ++ " must be positive")
    else pure v

/-- `Config._parse_tuple`: split on the first comma, convert both parts with
`int`, then bounds-check against the already-parsed dimensions. -/
def parseTuple (key : String) (raw : String) (width height : Nat) :
    Except String (Int × Int) :=
  match breakAtComma raw.data with
  | none => throw (key ++ " must be in format x,y")
  | some (xs, ys) =>
    match pyInt (String.mk xs), pyInt (String.mk ys) with
    | some xv, some yv =>
      if 0 ≤ xv ∧ xv < (width : Int) ∧ 0 ≤ yv ∧ yv < (height : Int) then
        Except.ok (xv, yv)
      else throw (key ++ " is out of maze's bounds")
    | _, _ => throw (key ++ " must be in format x,y")

/-- `Config._parse_bool`. -/
def parseBool (key : String) (raw : String) : Except String Bool :=
  if pyLower raw = "true" then pure true
  else if pyLower raw = "false" then pure false
  else throw (key ++ " must be True or False")

/-- `Config._parse_algo`. -/
def parseAlgo (key : String) (raw : String) : Except String String :=
  if pyUpper raw = "DFS" ∨ pyUpper raw = "PRIM" then pure (pyUpper raw)
  else throw (key ++ " must be DFS or PRIM")

/-- `Config._parse_filename`. -/
def parseFilename (cfgPath : String) (env : Env) (raw : String) :
    Except String String :=
  if ¬ pyEndsWith raw ".txt" then throw "OUTPUT_FILE must end with .txt"
  else if raw = cfgPath then
    throw "OUTPUT_FILE must be different from the config file"
  else if env.isDir raw then throw "OUTPUT_FILE must be a file, not a directory"
  else if ¬ env.writableParent raw then throw "Cannot write to the directory"
  else pure raw

/-- `Config._parse`, assuming the required keys are present (enforced by
`_validate_required_keys` before `_parse` runs). -/
def parse (cfgPath : String) (env : Env) (data : String → Option String) :
    Except String ConfigData := do
  let width ← parseInt "WIDTH" ((data "WIDTH").getD "")
  let height ← parseInt "HEIGHT" ((data "HEIGHT").getD "")
  let entry ← parseTuple "ENTRY" ((data "ENTRY").getD "") width.toNat height.toNat
  let exit_ ← parseTuple "EXIT" ((data "EXIT").getD "") width.toNat height.toNat
  let outputFile ← parseFilename cfgPath env ((data "OUTPUT_FILE").getD "")
  let perfect ← parseBool "PERFECT" ((data "PERFECT").getD "")
  let seed ← match data "SEED" with
    | some raw => do
        let v ← parseInt "SEED" raw
        pure (some v)
    | none => pure none
  let algo ← match data "ALGO" with
    | some raw => do
        let v ← parseAlgo "ALGO" raw
        pure (some v)
    | none => pure none
  if entry = exit_ then throw "ENTRY and EXIT must be different"
  else pure ⟨width.toNat, height.toNat, entry, exit_, outputFile, perfect, seed, algo⟩

/-- The construction attempt of the application: validate the configuration,
then (and only then) build the generator's fresh `Grid`. -/
def buildMaze (cfgPath : String) (env : Env) (data : String → Option String) :
    Except String Mazegen.Maze := do
  let cfg ← parse cfgPath env data
  pure (Mazegen.Maze.init cfg.width cfg.height
    (cfg.entry.2, cfg.entry.1) (cfg.exit_.2, cfg.exit_.1))

end ConfigMod

namespace MazePkg
/-! Additional vocabulary for the serialization, marker and solver claims. -/

/-- Uppercase hex digit for a nibble. -/
def upperHexDigit (n : Nat) : Char :=
  "0123456789ABCDEF".toList.getD n '0'

/-- The spec's words for the text serialization ("one row per maze row, one
hexadecimal digit per cell, nibble bits in the fixed order …; rows separated
by a single newline"), used as the reference against `Maze.__str__`. -/
def specSerialize (m : Maze) : String :=
  String.intercalate "\n" (m.grid.map fun row =>
    String.mk (row.map fun c => upperHexDigit (c.value % 16)))

/-- The exposed marker operations of the value model. -/
inductive PathOp
  | set (p : Pos) (bit : Nat)
  | applyPath (path : List String) (bit : Nat)
  | clearAll

/-- Marker bit of an operation (`none` for `clear_all_paths`). -/
def PathOp.bit? : PathOp → Option Nat
  | .set _ b => some b
  | .applyPath _ b => some b
  | .clearAll => none

/-- Run one marker operation on the maze. -/
def applyOp (m : Maze) : PathOp → Maze
  | .set p bit => m.modifyCell p fun c => c.setPath bit
  | .applyPath path bit => applyPathToMaze m path bit
  | .clearAll => m.clearAllPaths

/-- Run a sequence of marker operations. -/
def applyOps (m : Maze) (l : List PathOp) : Maze :=
  l.foldl applyOp m

/-- Index of a direction symbol in `_dir_names`. -/
def dirIndex (d : String) : Option Nat :=
  if d = "N" then some 0
  else if d = "S" then some 1
  else if d = "E" then some 2
  else if d = "W" then some 3
  else none

/-- Target of one step in direction index `i`. -/
def stepTarget (p : Pos) (i : Nat) : Pos :=
  (p.1 + (dirs.getD i (0, 0)).1, p.2 + (dirs.getD i (0, 0)).2)

/-- The solver's expansion test, as a predicate on one step from `p`:
the target is in bounds and the wall bit of the current cell is clear. -/
def okStep (m : Maze) (p : Pos) (i : Nat) : Bool :=
  let t := stepTarget p i
  decide (0 ≤ t.1 ∧ t.1 < (m.width : Int) ∧ 0 ≤ t.2 ∧ t.2 < (m.height : Int)) &&
    decide ((m.cellAt (p.1, p.2)).value &&& solverWallBits.getD i 0 = 0)

/-- `isOpenPath m p ds q`: walking `ds` from `p` takes steps that the
solver's wall/bounds tests allow and ends at `q` (the "open walls connect"
relation of the solver claims). -/
def isOpenPath (m : Maze) : Pos → List String → Pos → Bool
  | p, [], q => decide (p = q)
  | p, d :: ds, q =>
    match dirIndex d with
    | none => false
    | some i => okStep m p i && isOpenPath m (stepTarget p i) ds q

/-- The in-bounds cells `(x, y)` of a maze, as a finset. -/
def Maze.allCells (m : Maze) : Finset Pos :=
  ((Finset.range m.width) ×ˢ (Finset.range m.height)).image
    fun xy => ((xy.1 : Int), (xy.2 : Int))

/-- BFS termination measure of one queue entry: exponential in the room the
per-path visited set still has. -/
def entryMeasure (N : Nat) (e : Entry) : Nat := 5 ^ (N - e.visited.card)

/-- BFS termination measure of the whole queue. -/
def queueMeasure (N : Nat) (q : List Entry) : Nat :=
  (q.map (entryMeasure N)).sum

/-- Loop invariant of the solver's BFS queue, relative to a fixed shortest
valid path `P`: every entry's path is an open walk from the entry cell
ending at the entry's coordinates, its visited set is exactly the cells of
that walk (all in bounds, next to the possibly out-of-bounds entry cell),
path lengths are FIFO-sorted and spread over at most two adjacent levels,
and some entry carries a prefix of `P`. -/
structure BfsInv (m : Maze) (P : List String) (queue : List Entry) : Prop where
  sound : ∀ e ∈ queue, isOpenPath m m.entry e.path (e.x, e.y) = true
  vis_eq : ∀ e ∈ queue, e.visited = (walkPositions m.entry e.path).toFinset
  vis_sub : ∀ e ∈ queue, e.visited ⊆ insert m.entry m.allCells
  sorted : List.Sorted (· ≤ ·) (queue.map fun e => e.path.length)
  level : ∀ e1 ∈ queue, ∀ e2 ∈ queue, e1.path.length ≤ e2.path.length + 1
  prefix_ex : ∃ e ∈ queue, ∃ k, k ≤ P.length ∧ e.path = P.take k

end MazePkg

/-! # Proofs -/

namespace AMazeIng

theorem pyIdx_of_nonneg {n : Nat} {i : Int} (h0 : 0 ≤ i) (h1 : i < (n : Int)) :
    pyIdx n i = some i.toNat := by
  simp [pyIdx, h0, h1]

theorem pyIdx_lt {n : Nat} {i : Int} {k : Nat} (h : pyIdx n i = some k) : k < n := by
  unfold pyIdx at h
  split at h
  · rename_i hc
    cases h
    omega
  · split at h
    · rename_i hc
      cases h
      omega
    · exact absurd h (by simp)

theorem pyIdx_none {n : Nat} {i : Int} (h : i < -(n : Int) ∨ (n : Int) ≤ i) :
    pyIdx n i = none := by
  unfold pyIdx
  rw [if_neg, if_neg] <;> omega

theorem pyIdx_neg {n : Nat} {i : Int} (h0 : -(n : Int) ≤ i) (h1 : i < 0) :
    pyIdx n i = some (i + n).toNat := by
  unfold pyIdx
  rw [if_neg (by omega), if_pos ⟨h0, h1⟩]

theorem length_pyModify (l : List α) (f : α → α) (i : Int) :
    (pyModify l f i).length = l.length := by
  unfold pyModify
  cases h : pyIdx l.length i <;> simp

theorem pyGet_pyModify_same {l : List α} {f : α → α} {i j : Int}
    (hij : pyIdx l.length i = pyIdx l.length j) :
    pyGet (pyModify l f i) j = Option.map f (pyGet l j) := by
  unfold pyGet pyModify
  cases h : pyIdx l.length i with
  | none =>
      have hj : pyIdx l.length j = none := hij ▸ h
      simp [hj]
  | some k =>
      have hj : pyIdx l.length j = some k := hij ▸ h
      have hk : k < l.length := pyIdx_lt h
      have hlen : (List.modify f k l).length = l.length := by simp
      simp only [hlen, hj, Option.bind_some, Option.some_bind, List.get?_eq_getElem?]
      rw [List.getElem?_modify]
      simp [List.getElem?_eq_getElem hk]

theorem pyGet_pyModify_ne {l : List α} {f : α → α} {i j : Int}
    (hij : pyIdx l.length i ≠ pyIdx l.length j) :
    pyGet (pyModify l f i) j = pyGet l j := by
  unfold pyGet pyModify
  cases h : pyIdx l.length i with
  | none => simp
  | some k =>
      have hlen : (l.modify f k).length = l.length := by simp
      simp only [hlen]
      cases hj : pyIdx l.length j with
      | none => simp
      | some k2 =>
          have hne : k ≠ k2 := by
            intro hkk
            exact hij (by rw [h, hj, hkk])
          simp only [Option.bind_some, Option.bind]
          rw [List.get?_eq_getElem?, List.get?_eq_getElem?, List.getElem?_modify]
          simp [hne]

theorem pyGet_isSome_of_range {l : List α} {i : Int}
    (h0 : -(l.length : Int) ≤ i) (h1 : i < (l.length : Int)) :
    ∃ a, pyGet l i = some a := by
  unfold pyGet
  by_cases hn : 0 ≤ i
  · rw [pyIdx_of_nonneg hn h1]
    have : i.toNat < l.length := by omega
    exact ⟨l[i.toNat], by simp [List.get?_eq_getElem?, List.getElem?_eq_getElem this]⟩
  · rw [pyIdx_neg h0 (by omega)]
    have : (i + l.length).toNat < l.length := by omega
    exact ⟨l[(i + l.length).toNat], by
      simp [List.get?_eq_getElem?, List.getElem?_eq_getElem this]⟩

theorem pyGet_none_of_oob {l : List α} {i : Int}
    (h : i < -(l.length : Int) ∨ (l.length : Int) ≤ i) :
    pyGet l i = none := by
  unfold pyGet
  rw [pyIdx_none h]
  rfl

theorem pyGet_neg_wrap {l : List α} {i : Int}
    (h0 : -(l.length : Int) ≤ i) (h1 : i < 0) :
    pyGet l i = pyGet l (i + l.length) := by
  unfold pyGet
  rw [pyIdx_neg h0 h1, pyIdx_of_nonneg (by omega) (by omega)]

theorem pyGet_mem {l : List α} {i : Int} {a : α} (h : pyGet l i = some a) : a ∈ l := by
  unfold pyGet at h
  cases hk : pyIdx l.length i with
  | none => rw [hk] at h; cases h
  | some k =>
      rw [hk] at h
      simp only [Option.some_bind] at h
      exact List.get?_mem h

end AMazeIng

open AMazeIng

/-- C2: generation is a deterministic function of the parameter tuple
(width, height, entry, exit, perfect flag, algorithm choice, seed).  The
random source is modelled by an arbitrary seed-to-stream function
`mkStream` (two `random.Random(seed)` instances with the same seed yield
the same stream); the embedded `generate` threads that single stream
through every choice in a fixed order, so equal tuples give byte-identical
serialized wall layouts. -/
theorem generate_deterministic (mkStream : Option Int → Nat → Nat)
    (w1 h1 : Nat) (e1 x1 : Mazegen.Pos) (p1 : Bool) (a1 : Option String) (s1 : Option Int)
    (w2 h2 : Nat) (e2 x2 : Mazegen.Pos) (p2 : Bool) (a2 : Option String) (s2 : Option Int)
    (heq : (w1, h1, e1, x1, p1, a1, s1) = (w2, h2, e2, x2, p2, a2, s2)) :
    ((Mazegen.MazeGenerator.init w1 h1 e1 x1 p1 a1).generate ⟨mkStream s1, 0⟩).1.toHexStr =
      ((Mazegen.MazeGenerator.init w2 h2 e2 x2 p2 a2).generate ⟨mkStream s2, 0⟩).1.toHexStr := by
  simp only [Prod.mk.injEq] at heq
  obtain ⟨rfl, rfl, rfl, rfl, rfl, rfl, rfl⟩ := heq
  rfl

/-- Witness for C2 at a concrete parameter tuple. -/
theorem generate_deterministic_witness :
    ((Mazegen.MazeGenerator.init 4 3 (0, 0) (2, 3) true none).generate
        ⟨fun _ => 0, 0⟩).1.toHexStr =
      ((Mazegen.MazeGenerator.init 4 3 (0, 0) (2, 3) true none).generate
        ⟨fun _ => 0, 0⟩).1.toHexStr :=
  generate_deterministic (fun _ _ => 0) 4 3 (0, 0) (2, 3) true none none
    4 3 (0, 0) (2, 3) true none none rfl

section Indexing

variable {β : Type}

theorem nestedGet_some {grid : List (List β)} {H W : Nat} {i j : Int}
    (hlen : grid.length = H) (hrow : ∀ row ∈ grid, row.length = W)
    (hi0 : -(H : Int) ≤ i) (hi1 : i < H) (hj0 : -(W : Int) ≤ j) (hj1 : j < W) :
    ∃ c, ((pyGet grid i).bind fun row => pyGet row j) = some c := by
  obtain ⟨row, hr⟩ := pyGet_isSome_of_range (l := grid) (i := i)
    (by rw [hlen]; exact hi0) (by rw [hlen]; exact hi1)
  have hrl : row.length = W := hrow row (pyGet_mem hr)
  obtain ⟨c, hc⟩ := pyGet_isSome_of_range (l := row) (i := j)
    (by rw [hrl]; exact hj0) (by rw [hrl]; exact hj1)
  exact ⟨c, by rw [hr, Option.some_bind, hc]⟩

theorem nestedGet_wrap_outer {grid : List (List β)} {H : Nat} {i j : Int}
    (hlen : grid.length = H) (hi0 : -(H : Int) ≤ i) (hi1 : i < 0) :
    ((pyGet grid i).bind fun row => pyGet row j) =
      ((pyGet grid (i + H)).bind fun row => pyGet row j) := by
  rw [show pyGet grid i = pyGet grid (i + H) from
    hlen ▸ pyGet_neg_wrap (by rw [hlen]; exact hi0) hi1]

theorem nestedGet_wrap_inner {grid : List (List β)} {W : Nat} {j j2 : Int}
    (hrow : ∀ row ∈ grid, row.length = W)
    (hj0 : -(W : Int) ≤ j) (hj1 : j < 0) (hj2 : j2 = j + W) {i : Int} :
    ((pyGet grid i).bind fun row => pyGet row j) =
      ((pyGet grid i).bind fun row => pyGet row j2) := by
  cases hr : pyGet grid i with
  | none => rfl
  | some row =>
      have hrl : row.length = W := hrow row (pyGet_mem hr)
      simp only [Option.some_bind]
      rw [pyGet_neg_wrap (by rw [hrl]; exact hj0) hj1, hrl, hj2]

theorem nestedGet_none {grid : List (List β)} {H W : Nat} {i j : Int}
    (hlen : grid.length = H) (hrow : ∀ row ∈ grid, row.length = W)
    (h : i < -(H : Int) ∨ (H : Int) ≤ i ∨ j < -(W : Int) ∨ (W : Int) ≤ j) :
    ((pyGet grid i).bind fun row => pyGet row j) = none := by
  by_cases hi : i < -(H : Int) ∨ (H : Int) ≤ i
  · rw [pyGet_none_of_oob (by rw [hlen]; exact hi.imp id id)]
    rfl
  · have hj : j < -(W : Int) ∨ (W : Int) ≤ j := by tauto
    cases hr : pyGet grid i with
    | none => rfl
    | some row =>
        have hrl : row.length = W := hrow row (pyGet_mem hr)
        simp only [Option.some_bind]
        exact pyGet_none_of_oob (by rw [hrl]; exact hj)

end Indexing

/-- C10: `get_cell` and row indexing do no bounds validation beyond Python
list indexing: components in `[-dim, dim)` always return a cell, negative
components wrap to the opposite edge, and an `IndexError` (`none`) occurs
exactly when a component is `≥` its dimension or `< -dimension`.  Stated for
`maze.py` (`get_cell` and `__getitem__`, `(x, y)` against `grid[y][x]`)
and for `mazegen.py` (`get_cell`, `(row, col)` against `grid[row][col]`). -/
theorem getCell_python_indexing :
    (∀ m : MazePkg.Maze, m.wfGrid → ∀ x y : Int,
      ((-(m.width : Int) ≤ x ∧ x < m.width ∧ -(m.height : Int) ≤ y ∧ y < m.height) →
        ∃ c, m.getCell (x, y) = some c) ∧
      ((-(m.width : Int) ≤ x ∧ x < 0) →
        m.getCell (x, y) = m.getCell (x + m.width, y)) ∧
      ((-(m.height : Int) ≤ y ∧ y < 0) →
        m.getCell (x, y) = m.getCell (x, y + m.height)) ∧
      ((x < -(m.width : Int) ∨ (m.width : Int) ≤ x ∨
          y < -(m.height : Int) ∨ (m.height : Int) ≤ y) →
        m.getCell (x, y) = none) ∧
      ((-(m.height : Int) ≤ y ∧ y < m.height) → ∃ row, m.getRow y = some row) ∧
      ((y < -(m.height : Int) ∨ (m.height : Int) ≤ y) → m.getRow y = none)) ∧
    (∀ m : Mazegen.Maze, m.wfGrid → ∀ r c : Int,
      ((-(m.height : Int) ≤ r ∧ r < m.height ∧ -(m.width : Int) ≤ c ∧ c < m.width) →
        ∃ cl, m.getCell (r, c) = some cl) ∧
      ((-(m.height : Int) ≤ r ∧ r < 0) →
        m.getCell (r, c) = m.getCell (r + m.height, c)) ∧
      ((r < -(m.height : Int) ∨ (m.height : Int) ≤ r ∨
          c < -(m.width : Int) ∨ (m.width : Int) ≤ c) →
        m.getCell (r, c) = none)) := by
  constructor
  · intro m hwf x y
    obtain ⟨hlen, hrow⟩ := hwf
    refine ⟨?_, ?_, ?_, ?_, ?_, ?_⟩
    · intro ⟨hx0, hx1, hy0, hy1⟩
      exact nestedGet_some hlen hrow hy0 hy1 hx0 hx1
    · intro ⟨hx0, hx1⟩
      exact nestedGet_wrap_inner hrow hx0 hx1 rfl
    · intro ⟨hy0, hy1⟩
      exact nestedGet_wrap_outer hlen hy0 hy1
    · intro h
      exact nestedGet_none hlen hrow (by tauto)
    · intro ⟨hy0, hy1⟩
      exact pyGet_isSome_of_range (by rw [hlen]; exact hy0) (by rw [hlen]; exact hy1)
    · intro h
      exact pyGet_none_of_oob (by rw [hlen]; exact h)
  · intro m hwf r c
    obtain ⟨hlen, hrow⟩ := hwf
    refine ⟨?_, ?_, ?_⟩
    · intro ⟨hr0, hr1, hc0, hc1⟩
      exact nestedGet_some hlen hrow hr0 hr1 hc0 hc1
    · intro ⟨hr0, hr1⟩
      exact nestedGet_wrap_outer hlen hr0 hr1
    · intro h
      exact nestedGet_none hlen hrow (by tauto)

/-- Witness for C10: on a concrete 2×2 grid, `(-1, 0)` wraps to `(1, 0)`
and `(2, 0)` raises. -/
theorem getCell_python_indexing_witness :
    ((MazePkg.Maze.init 2 2 (0, 0) (1, 1)).getCell (-1, 0) =
      (MazePkg.Maze.init 2 2 (0, 0) (1, 1)).getCell (-1 + 2, 0)) ∧
    (MazePkg.Maze.init 2 2 (0, 0) (1, 1)).getCell (2, 0) = none :=
  ⟨((getCell_python_indexing.1 (MazePkg.Maze.init 2 2 (0, 0) (1, 1))
      (by constructor <;> decide) (-1) 0).2.1 (by constructor <;> decide)),
   ((getCell_python_indexing.1 (MazePkg.Maze.init 2 2 (0, 0) (1, 1))
      (by constructor <;> decide) 2 0).2.2.2.1 (by decide))⟩

namespace AMazeIng

theorem pyGet_map {β γ : Type} (f : β → γ) (l : List β) (i : Int) :
    pyGet (l.map f) i = (pyGet l i).map f := by
  unfold pyGet
  rw [List.length_map]
  cases hk : pyIdx l.length i with
  | none => rfl
  | some k => simp [List.get?_eq_getElem?, List.getElem?_map]

theorem nested_pyModify_cases {β : Type} (grid : List (List β)) (f : β → β)
    (oi ii oj ij : Int) (dflt : β) :
    ((pyGet (pyModify grid (fun row => pyModify row f ii) oi) oj).bind
        fun row => pyGet row ij).getD dflt =
      ((pyGet grid oj).bind fun row => pyGet row ij).getD dflt ∨
    ((pyGet (pyModify grid (fun row => pyModify row f ii) oi) oj).bind
        fun row => pyGet row ij).getD dflt =
      f (((pyGet grid oj).bind fun row => pyGet row ij).getD dflt) := by
  by_cases ho : pyIdx grid.length oi = pyIdx grid.length oj
  · rw [pyGet_pyModify_same ho]
    cases hg : pyGet grid oj with
    | none => left; simp
    | some row =>
        simp only [Option.map_some', Option.some_bind]
        by_cases hi2 : pyIdx row.length ii = pyIdx row.length ij
        · rw [pyGet_pyModify_same hi2]
          cases hr : pyGet row ij with
          | none => left; simp
          | some c => right; simp
        · rw [pyGet_pyModify_ne hi2]
          left
          rfl
  · rw [pyGet_pyModify_ne ho]
    left
    rfl

end AMazeIng

namespace Mazegen

theorem cellAt_modifyCell_cases (m : Maze) (q : Pos) (f : Cell → Cell) (p : Pos) :
    (m.modifyCell q f).cellAt p = m.cellAt p ∨
      (m.modifyCell q f).cellAt p = f (m.cellAt p) :=
  nested_pyModify_cases m.grid f q.1 q.2 p.1 p.2 Cell.closedAll

/-- Each of the four wall bits can only go from closed to open under a
single `modify` with a wall-clearing function. -/
theorem cellAt_modifyCell_mono (m : Maze) (q : Pos) (f : Cell → Cell)
    (hf : ∀ c : Cell, ((f c).north = true → c.north = true) ∧
      ((f c).east = true → c.east = true) ∧
      ((f c).south = true → c.south = true) ∧
      ((f c).west = true → c.west = true)) (p : Pos) :
    (((m.modifyCell q f).cellAt p).north = true → (m.cellAt p).north = true) ∧
    (((m.modifyCell q f).cellAt p).east = true → (m.cellAt p).east = true) ∧
    (((m.modifyCell q f).cellAt p).south = true → (m.cellAt p).south = true) ∧
    (((m.modifyCell q f).cellAt p).west = true → (m.cellAt p).west = true) := by
  rcases cellAt_modifyCell_cases m q f p with h | h <;> rw [h]
  · exact ⟨id, id, id, id⟩
  · exact hf (m.cellAt p)

/-- `open_wall` never closes a wall bit anywhere. -/
theorem cellAt_openWall_mono (m : Maze) (a b p : Pos) :
    (((m.openWall a b).cellAt p).north = true → (m.cellAt p).north = true) ∧
    (((m.openWall a b).cellAt p).east = true → (m.cellAt p).east = true) ∧
    (((m.openWall a b).cellAt p).south = true → (m.cellAt p).south = true) ∧
    (((m.openWall a b).cellAt p).west = true → (m.cellAt p).west = true) := by
  unfold Maze.openWall
  split
  · exact ⟨id, id, id, id⟩
  · split
    case isTrue =>
      have h2 := cellAt_modifyCell_mono (m.modifyCell a fun c => { c with east := false })
        b (fun c => { c with west := false }) (by intro c; simp) p
      have h1 := cellAt_modifyCell_mono m a (fun c => { c with east := false })
        (by intro c; simp) p
      exact ⟨fun h => h1.1 (h2.1 h), fun h => h1.2.1 (h2.2.1 h),
        fun h => h1.2.2.1 (h2.2.2.1 h), fun h => h1.2.2.2 (h2.2.2.2 h)⟩
    case isFalse =>
      split
      case isTrue =>
        have h2 := cellAt_modifyCell_mono (m.modifyCell a fun c => { c with west := false })
          b (fun c => { c with east := false }) (by intro c; simp) p
        have h1 := cellAt_modifyCell_mono m a (fun c => { c with west := false })
          (by intro c; simp) p
        exact ⟨fun h => h1.1 (h2.1 h), fun h => h1.2.1 (h2.2.1 h),
          fun h => h1.2.2.1 (h2.2.2.1 h), fun h => h1.2.2.2 (h2.2.2.2 h)⟩
      case isFalse =>
        split
        case isTrue =>
          have h2 := cellAt_modifyCell_mono (m.modifyCell a fun c => { c with south := false })
            b (fun c => { c with north := false }) (by intro c; simp) p
          have h1 := cellAt_modifyCell_mono m a (fun c => { c with south := false })
            (by intro c; simp) p
          exact ⟨fun h => h1.1 (h2.1 h), fun h => h1.2.1 (h2.2.1 h),
            fun h => h1.2.2.1 (h2.2.2.1 h), fun h => h1.2.2.2 (h2.2.2.2 h)⟩
        case isFalse =>
          split
          case isTrue =>
            have h2 := cellAt_modifyCell_mono (m.modifyCell a fun c => { c with north := false })
              b (fun c => { c with south := false }) (by intro c; simp) p
            have h1 := cellAt_modifyCell_mono m a (fun c => { c with north := false })
              (by intro c; simp) p
            exact ⟨fun h => h1.1 (h2.1 h), fun h => h1.2.1 (h2.2.1 h),
              fun h => h1.2.2.1 (h2.2.2.1 h), fun h => h1.2.2.2 (h2.2.2.2 h)⟩
          case isFalse =>
            exact ⟨id, id, id, id⟩

/-- Wall-bit monotonicity extended over a whole `open_wall` sequence. -/
theorem cellAt_openWallSeq_mono (ops : List (Pos × Pos)) :
    ∀ (m : Maze) (p : Pos),
      (((m.openWallSeq ops).cellAt p).north = true → (m.cellAt p).north = true) ∧
      (((m.openWallSeq ops).cellAt p).east = true → (m.cellAt p).east = true) ∧
      (((m.openWallSeq ops).cellAt p).south = true → (m.cellAt p).south = true) ∧
      (((m.openWallSeq ops).cellAt p).west = true → (m.cellAt p).west = true) := by
  induction ops with
  | nil => exact fun m p => ⟨id, id, id, id⟩
  | cons op rest ih =>
      intro m p
      have hrest := ih (m.openWall op.1 op.2) p
      have hone := cellAt_openWall_mono m op.1 op.2 p
      exact ⟨fun h => hone.1 (hrest.1 h), fun h => hone.2.1 (hrest.2.1 h),
        fun h => hone.2.2.1 (hrest.2.2.1 h), fun h => hone.2.2.2 (hrest.2.2.2 h)⟩

end Mazegen

namespace MazePkg

theorem lor_and_disjoint (v b mask : Nat) (h : b &&& mask = 0) :
    (v ||| b) &&& mask = v &&& mask := by
  apply Nat.eq_of_testBit_eq
  intro k
  have hbm : (b.testBit k && mask.testBit k) = false := by
    rw [← Nat.testBit_and, h, Nat.zero_testBit]
  simp only [Nat.testBit_and, Nat.testBit_or]
  cases hb : b.testBit k <;> cases hm : mask.testBit k <;> simp_all

theorem ldiff_and_disjoint (v b mask : Nat) (h : b &&& mask = 0) :
    (v.ldiff b) &&& mask = v &&& mask := by
  apply Nat.eq_of_testBit_eq
  intro k
  have hbm : (b.testBit k && mask.testBit k) = false := by
    rw [← Nat.testBit_and, h, Nat.zero_testBit]
  simp only [Nat.testBit_and, Nat.testBit_ldiff]
  cases hb : b.testBit k <;> cases hm : mask.testBit k <;> simp_all

theorem cellAt_modifyCell_cases_value (m : Maze) (q : Pos) (f : Cell → Cell) (p : Pos) :
    (m.modifyCell q f).cellAt p = m.cellAt p ∨
      (m.modifyCell q f).cellAt p = f (m.cellAt p) :=
  nested_pyModify_cases m.grid f q.2 q.1 p.2 p.1 Cell.init

theorem clearPath_init : Cell.init.clearPath = Cell.init := by
  show Cell.mk (Nat.ldiff 15 96) false false false = _
  have h15 : Nat.ldiff 15 96 = 15 := by
    apply Nat.eq_of_testBit_eq
    intro k
    simp only [Nat.testBit_ldiff]
    have hd : (Nat.testBit 15 k && Nat.testBit 96 k) = false := by
      rw [← Nat.testBit_and]
      have : (15 : Nat) &&& 96 = 0 := by decide
      rw [this, Nat.zero_testBit]
    cases h1 : Nat.testBit 15 k <;> cases h2 : Nat.testBit 96 k <;> simp_all
  rw [h15]
  rfl

/-- `clear_all_paths` applies `clear_path` cell-wise. -/
theorem cellAt_clearAllPaths (m : Maze) (p : Pos) :
    (m.clearAllPaths).cellAt p = (m.cellAt p).clearPath := by
  unfold Maze.clearAllPaths Maze.cellAt Maze.getCell
  simp only
  rw [pyGet_map]
  cases hg : pyGet m.grid p.2 with
  | none =>
      simp only [Option.map_none', Option.none_bind, Option.getD_none]
      exact clearPath_init.symm
  | some row =>
      simp only [Option.map_some', Option.some_bind]
      rw [pyGet_map]
      cases hr : pyGet row p.1 with
      | none =>
          simp only [Option.map_none', Option.getD_none]
          exact clearPath_init.symm
      | some c => simp

/-- A single marker operation preserves the wall nibble of every cell. -/
theorem applyOp_nibble (m : Maze) (op : PathOp)
    (hop : op.bit? = some 32 ∨ op.bit? = some 64 ∨ op.bit? = none) (p : Pos) :
    ((applyOp m op).cellAt p).value &&& 15 = (m.cellAt p).value &&& 15 := by
  cases op with
  | set q bit =>
      have hbit : bit = 32 ∨ bit = 64 := by
        rcases hop with h | h | h <;> simp [PathOp.bit?] at h <;> tauto
      have hdisj : bit &&& 15 = 0 := by rcases hbit with rfl | rfl <;> decide
      rcases cellAt_modifyCell_cases_value m q (fun c => c.setPath bit) p with h | h <;>
        rw [applyOp] at * <;> rw [h]
      exact lor_and_disjoint _ _ _ hdisj
  | applyPath path bit =>
      have hbit : bit = 32 ∨ bit = 64 := by
        rcases hop with h | h | h <;> simp [PathOp.bit?] at h <;> tauto
      have hdisj : bit &&& 15 = 0 := by rcases hbit with rfl | rfl <;> decide
      show ((applyPathToMaze m path bit).cellAt p).value &&& 15 = _
      unfold applyPathToMaze
      generalize walkPositions m.entry path = ps
      induction ps generalizing m with
      | nil => rfl
      | cons q qs ih =>
          have hstep : ∀ mm : Maze,
              ((mm.modifyCell q fun c => c.setPath bit).cellAt p).value &&& 15 =
                (mm.cellAt p).value &&& 15 := by
            intro mm
            rcases cellAt_modifyCell_cases_value mm q (fun c => c.setPath bit) p with h | h <;>
              rw [h]
            exact lor_and_disjoint _ _ _ hdisj
          calc ((qs.foldl (fun acc r => acc.modifyCell r fun c => c.setPath bit)
                  (m.modifyCell q fun c => c.setPath bit)).cellAt p).value &&& 15
              = ((m.modifyCell q fun c => c.setPath bit).cellAt p).value &&& 15 :=
                ih (m.modifyCell q fun c => c.setPath bit)
            _ = (m.cellAt p).value &&& 15 := hstep m
  | clearAll =>
      show ((m.clearAllPaths).cellAt p).value &&& 15 = _
      rw [cellAt_clearAllPaths]
      exact ldiff_and_disjoint _ _ _ (by decide)

/-- Marker-operation sequences preserve the wall nibble of every cell. -/
theorem applyOps_nibble (ops : List PathOp)
    (hops : ∀ op ∈ ops, op.bit? = some 32 ∨ op.bit? = some 64 ∨ op.bit? = none) :
    ∀ (m : Maze) (p : Pos),
      ((applyOps m ops).cellAt p).value &&& 15 = (m.cellAt p).value &&& 15 := by
  induction ops with
  | nil => exact fun m p => rfl
  | cons op rest ih =>
      intro m p
      have h1 := applyOp_nibble m op (hops op (by simp)) p
      have h2 := ih (fun o ho => hops o (by simp [ho])) (applyOp m op) p
      exact h2.trans h1

end MazePkg

/-- C9: wall state is monotone.  Any sequence of `open_wall` calls can only
clear wall bits (a closed bit afterwards was closed before, i.e. an opened
wall never closes); `set_path` with a marker bit 32 or 64 leaves the wall
nibble unchanged; `clear_path` leaves the nibble unchanged and clears
exactly the two marker bits; and any sequence of the exposed marker
operations (`set_path`, `apply_path_to_maze`, `clear_all_paths`) leaves the
wall nibble of every cell unchanged. -/
theorem wall_state_monotone :
    (∀ (m : Mazegen.Maze) (ops : List (Mazegen.Pos × Mazegen.Pos)) (p : Mazegen.Pos),
      (((m.openWallSeq ops).cellAt p).north = true → (m.cellAt p).north = true) ∧
      (((m.openWallSeq ops).cellAt p).east = true → (m.cellAt p).east = true) ∧
      (((m.openWallSeq ops).cellAt p).south = true → (m.cellAt p).south = true) ∧
      (((m.openWallSeq ops).cellAt p).west = true → (m.cellAt p).west = true)) ∧
    (∀ (c : MazePkg.Cell) (bit : Nat), bit = 32 ∨ bit = 64 →
      (c.setPath bit).value &&& 15 = c.value &&& 15) ∧
    (∀ c : MazePkg.Cell,
      (c.clearPath).value &&& 15 = c.value &&& 15 ∧
      (c.clearPath).value &&& 96 = 0 ∧
      (∀ k, k ≠ 5 → k ≠ 6 →
        (c.clearPath).value.testBit k = c.value.testBit k)) ∧
    (∀ (m : MazePkg.Maze) (ops : List MazePkg.PathOp),
      (∀ op ∈ ops, op.bit? = some 32 ∨ op.bit? = some 64 ∨ op.bit? = none) →
      ∀ p, ((MazePkg.applyOps m ops).cellAt p).value &&& 15 =
        (m.cellAt p).value &&& 15) := by
  refine ⟨?_, ?_, ?_, ?_⟩
  · exact fun m ops p => Mazegen.cellAt_openWallSeq_mono ops m p
  · intro c bit hbit
    exact MazePkg.lor_and_disjoint _ _ _ (by rcases hbit with rfl | rfl <;> decide)
  · intro c
    refine ⟨MazePkg.ldiff_and_disjoint _ _ _ (by decide), ?_, ?_⟩
    · apply Nat.eq_of_testBit_eq
      intro k
      simp only [MazePkg.Cell.clearPath, Nat.testBit_and, Nat.testBit_ldiff,
        Nat.zero_testBit]
      cases h96 : Nat.testBit 96 k <;> simp [h96]
    · intro k h5 h6
      have h96 : Nat.testBit 96 k = false := by
        rcases Nat.lt_or_ge k 7 with hk | hk
        · interval_cases k <;> first | decide | (exact absurd rfl h5) | (exact absurd rfl h6)
        · have hlt : 96 < 2 ^ k :=
            lt_of_lt_of_le (by norm_num) (Nat.pow_le_pow_right (by norm_num) hk)
          exact Nat.testBit_lt_two_pow hlt
      simp [MazePkg.Cell.clearPath, Nat.testBit_ldiff, h96]
  · exact fun m ops hops p => MazePkg.applyOps_nibble ops hops m p

/-- Witness for C9 at concrete cells, walls and operation sequences. -/
theorem wall_state_monotone_witness :
    ((((Mazegen.Maze.init 2 1 (0, 0) (0, 1)).openWallSeq
        [((0, 0), (0, 1))]).cellAt (0, 0)).north = true →
      (((Mazegen.Maze.init 2 1 (0, 0) (0, 1))).cellAt (0, 0)).north = true) ∧
    ((MazePkg.Cell.init.setPath 32).value &&& 15 = MazePkg.Cell.init.value &&& 15) ∧
    (((MazePkg.Maze.init 2 1 (0, 0) (1, 0)).cellAt (0, 0)).value &&& 15 =
      ((MazePkg.Maze.init 2 1 (0, 0) (1, 0)).cellAt (0, 0)).value &&& 15 →
      ((MazePkg.applyOps (MazePkg.Maze.init 2 1 (0, 0) (1, 0))
          [.set (0, 0) 32, .clearAll]).cellAt (0, 0)).value &&& 15 =
        ((MazePkg.Maze.init 2 1 (0, 0) (1, 0)).cellAt (0, 0)).value &&& 15) :=
  ⟨(wall_state_monotone.1 (Mazegen.Maze.init 2 1 (0, 0) (0, 1))
      [((0, 0), (0, 1))] (0, 0)).1,
   wall_state_monotone.2.1 MazePkg.Cell.init 32 (Or.inl rfl),
   fun _ => wall_state_monotone.2.2.2 (MazePkg.Maze.init 2 1 (0, 0) (1, 0))
     [.set (0, 0) 32, .clearAll] (by intro op hop; fin_cases hop <;> simp [MazePkg.PathOp.bit?])
     (0, 0)⟩

namespace MazePkg

/-- For a pure nibble, `format(value, "X")` is a single hex digit. -/
theorem hexStr_of_lt_16 {v : Nat} (hv : v < 16) :
    hexStr v = String.mk [upperHexDigit v] := by
  interval_cases v <;> decide

theorem join_singleton_chars (d : Cell → Char) (row : List Cell) :
    String.join (row.map fun c => String.mk [d c]) = String.mk (row.map d) := by
  rw [String.join_eq]
  apply String.ext
  show (List.map String.data (row.map fun c => String.mk [d c])).flatten = row.map d
  rw [List.map_map]
  induction row with
  | nil => rfl
  | cons c rest ih => simp_all

end MazePkg

/-- C6 counterexample: the claim includes rows of exactly `width` hex digits
"including after path-marker bits have been set", but marking the single
cell of a 1×1 maze with bit 32 serializes it as the two characters `"2F"`,
not one digit. -/
theorem maze_str_marker_counterexample :
    ((MazePkg.Maze.init 1 1 (0, 0) (0, 0)).modifyCell (0, 0)
        (fun c => c.setPath 32)).str = "2F" ∧
      ((MazePkg.Maze.init 1 1 (0, 0) (0, 0)).modifyCell (0, 0)
        (fun c => c.setPath 32)).width = 1 := by
  constructor <;> decide

/-- C6 (amended): while every cell value is a pure nibble (no marker bits,
value < 16), `Maze.__str__` is exactly the spec's serialization: one row of
text per grid row separated by single newlines, one uppercase hexadecimal
digit per cell, the digit being the cell's 4-bit wall mask (bit 0 = North,
bit 1 = East, bit 2 = South, bit 3 = West, the bit assignment of
`Cell.WALL_BITS` used by `remove_wall`). -/
theorem maze_str_spec_serialization (m : MazePkg.Maze)
    (hv : ∀ row ∈ m.grid, ∀ c ∈ row, c.value < 16) :
    m.str = MazePkg.specSerialize m := by
  unfold MazePkg.Maze.str MazePkg.specSerialize
  congr 1
  apply List.map_congr_left
  intro row hrow
  have hrv := hv row hrow
  calc String.join (row.map fun c => MazePkg.hexStr c.value)
      = String.join (row.map fun c => String.mk [MazePkg.upperHexDigit (c.value % 16)]) := by
        congr 1
        apply List.map_congr_left
        intro c hc
        rw [Nat.mod_eq_of_lt (hrv c hc)]
        exact MazePkg.hexStr_of_lt_16 (hrv c hc)
    _ = String.mk (row.map fun c => MazePkg.upperHexDigit (c.value % 16)) :=
        MazePkg.join_singleton_chars _ row

/-- Witness for the amended C6 on a concrete unmarked 2×1 maze. -/
theorem maze_str_spec_serialization_witness :
    (MazePkg.Maze.init 2 1 (0, 0) (1, 0)).str =
      MazePkg.specSerialize (MazePkg.Maze.init 2 1 (0, 0) (1, 0)) :=
  maze_str_spec_serialization (MazePkg.Maze.init 2 1 (0, 0) (1, 0)) (by decide)

namespace ConfigMod

theorem parseInt_ok {key raw : String} {v : Int}
    (h : parseInt key raw = .ok v) : 0 < v ∧ (key ≠ "SEED" → v ≤ 100) := by
  unfold parseInt at h
  cases hp : pyInt raw with
  | none => rw [hp] at h; cases h
  | some v0 =>
      rw [hp] at h
      simp only [bind, Except.bind] at h
      split at h
      · cases h
      · split at h
        · cases h
        · rename_i h1 h2
          cases h
          constructor
          · omega
          · intro hk
            by_contra hgt
            exact h1 ⟨hk, by omega⟩

theorem parseTuple_ok {key raw : String} {w h : Nat} {x y : Int}
    (hp : parseTuple key raw w h = .ok (x, y)) :
    0 ≤ x ∧ x < (w : Int) ∧ 0 ≤ y ∧ y < (h : Int) := by
  unfold parseTuple at hp
  split at hp
  · cases hp
  · split at hp
    · split at hp
      · rename_i hb
        cases hp
        exact hb
      · cases hp
    · cases hp

theorem parseAlgo_ok {key raw v : String} (h : parseAlgo key raw = .ok v) :
    v = "DFS" ∨ v = "PRIM" := by
  unfold parseAlgo at h
  split at h
  · rename_i hc
    simp only [pure, Except.pure] at h
    cases h
    exact hc
  · cases h

theorem parse_ok_valid {cfgPath : String} {env : Env}
    {data : String → Option String} {cfg : ConfigData}
    (h : parse cfgPath env data = .ok cfg) :
    0 < cfg.width ∧ cfg.width ≤ 100 ∧ 0 < cfg.height ∧ cfg.height ≤ 100 ∧
    0 ≤ cfg.entry.1 ∧ cfg.entry.1 < (cfg.width : Int) ∧
    0 ≤ cfg.entry.2 ∧ cfg.entry.2 < (cfg.height : Int) ∧
    0 ≤ cfg.exit_.1 ∧ cfg.exit_.1 < (cfg.width : Int) ∧
    0 ≤ cfg.exit_.2 ∧ cfg.exit_.2 < (cfg.height : Int) ∧
    cfg.entry ≠ cfg.exit_ ∧
    (cfg.algo = none ∨ cfg.algo = some "DFS" ∨ cfg.algo = some "PRIM") := by
  unfold parse at h
  simp only [bind, Except.bind] at h
  cases hw : parseInt "WIDTH" ((data "WIDTH").getD "") with
  | error e => rw [hw] at h; simp at h
  | ok w =>
  rw [hw] at h
  try dsimp only at h
  cases hh : parseInt "HEIGHT" ((data "HEIGHT").getD "") with
  | error e => rw [hh] at h; simp at h
  | ok ht =>
  rw [hh] at h
  try dsimp only at h
  cases he : parseTuple "ENTRY" ((data "ENTRY").getD "") w.toNat ht.toNat with
  | error e => rw [he] at h; simp at h
  | ok en =>
  rw [he] at h
  try dsimp only at h
  cases hx : parseTuple "EXIT" ((data "EXIT").getD "") w.toNat ht.toNat with
  | error e => rw [hx] at h; simp at h
  | ok ex =>
  rw [hx] at h
  try dsimp only at h
  cases hf : parseFilename cfgPath env ((data "OUTPUT_FILE").getD "") with
  | error e => rw [hf] at h; simp at h
  | ok out =>
  rw [hf] at h
  try dsimp only at h
  cases hb : parseBool "PERFECT" ((data "PERFECT").getD "") with
  | error e => rw [hb] at h; simp at h
  | ok pf =>
  rw [hb] at h
  try dsimp only at h
  obtain ⟨hw1, hw2⟩ := parseInt_ok hw
  obtain ⟨hh1, hh2⟩ := parseInt_ok hh
  obtain ⟨he1, he2, he3, he4⟩ := parseTuple_ok (w := w.toNat) (h := ht.toNat)
    (x := en.1) (y := en.2) (by rw [← he])
  obtain ⟨hx1, hx2, hx3, hx4⟩ := parseTuple_ok (w := w.toNat) (h := ht.toNat)
    (x := ex.1) (y := ex.2) (by rw [← hx])
  have hwn : w ≤ 100 := hw2 (by decide)
  have hhn : ht ≤ 100 := hh2 (by decide)
  -- remaining chain: optional SEED, optional ALGO, entry ≠ exit check
  cases hds : data "SEED" with
  | some raws =>
      rw [hds] at h
      try dsimp only at h
      cases hsv : parseInt "SEED" raws with
      | error e => rw [hsv] at h; simp at h
      | ok sv =>
          rw [hsv] at h
          simp only [pure, Except.pure, bind, Except.bind] at h
          try dsimp only at h
          cases hda : data "ALGO" with
          | some rawa =>
              rw [hda] at h
              try dsimp only at h
              cases hav : parseAlgo "ALGO" rawa with
              | error e => rw [hav] at h; simp at h
              | ok av =>
                  rw [hav] at h
                  simp only [pure, Except.pure] at h
                  try dsimp only at h
                  split at h
                  · cases h
                  · rename_i hne
                    cases h
                    dsimp only
                    refine ⟨by omega, by omega, by omega, by omega, he1, by omega,
                      he3, by omega, hx1, by omega, hx3, by omega, hne, ?_⟩
                    rcases parseAlgo_ok hav with h1 | h1 <;> simp [h1]
          | none =>
              rw [hda] at h
              simp only [pure, Except.pure] at h
              try dsimp only at h
              split at h
              · cases h
              · rename_i hne
                cases h
                dsimp only
                exact ⟨by omega, by omega, by omega, by omega, he1, by omega,
                  he3, by omega, hx1, by omega, hx3, by omega, hne, Or.inl rfl⟩
  | none =>
      rw [hds] at h
      simp only [pure, Except.pure, bind, Except.bind] at h
      try dsimp only at h
      cases hda : data "ALGO" with
      | some rawa =>
          rw [hda] at h
          try dsimp only at h
          cases hav : parseAlgo "ALGO" rawa with
          | error e => rw [hav] at h; simp at h
          | ok av =>
              rw [hav] at h
              simp only [pure, Except.pure] at h
              try dsimp only at h
              split at h
              · cases h
              · rename_i hne
                cases h
                dsimp only
                refine ⟨by omega, by omega, by omega, by omega, he1, by omega,
                  he3, by omega, hx1, by omega, hx3, by omega, hne, ?_⟩
                rcases parseAlgo_ok hav with h1 | h1 <;> simp [h1]
      | none =>
          rw [hda] at h
          simp only [pure, Except.pure] at h
          try dsimp only at h
          split at h
          · cases h
          · rename_i hne
            cases h
            dsimp only
            exact ⟨by omega, by omega, by omega, by omega, he1, by omega,
              he3, by omega, hx1, by omega, hx3, by omega, hne, Or.inl rfl⟩

end ConfigMod

/-- C8: configuration validation is fatal at construction time.  Part 1:
any configuration that `Config._parse` accepts has positive dimensions
(capped at 100), in-bounds entry and exit, distinct entry and exit, and a
recognized algorithm name — so non-positive dimensions, out-of-bounds or
identical entry/exit, or an unrecognized algorithm name can only end in an
`InvalidFormat` error (every failure of the embedded `parse` is an
`InvalidFormat` throw).  Parts 2 and 3: the spec's scenario
entry=(0,0), exit=(0,0) is rejected with a domain error and the
construction attempt produces no grid. -/
theorem config_validation_fatal :
    (∀ (cfgPath : String) (env : ConfigMod.Env) (data : String → Option String)
        (cfg : ConfigMod.ConfigData),
      ConfigMod.parse cfgPath env data = .ok cfg →
      0 < cfg.width ∧ cfg.width ≤ 100 ∧ 0 < cfg.height ∧ cfg.height ≤ 100 ∧
      0 ≤ cfg.entry.1 ∧ cfg.entry.1 < (cfg.width : Int) ∧
      0 ≤ cfg.entry.2 ∧ cfg.entry.2 < (cfg.height : Int) ∧
      0 ≤ cfg.exit_.1 ∧ cfg.exit_.1 < (cfg.width : Int) ∧
      0 ≤ cfg.exit_.2 ∧ cfg.exit_.2 < (cfg.height : Int) ∧
      cfg.entry ≠ cfg.exit_ ∧
      (cfg.algo = none ∨ cfg.algo = some "DFS" ∨ cfg.algo = some "PRIM")) ∧
    ConfigMod.parse "maze.cfg" ⟨fun _ => false, fun _ => true⟩
      (fun k =>
        if k = "WIDTH" then some "5" else if k = "HEIGHT" then some "5"
        else if k = "ENTRY" then some "0,0" else if k = "EXIT" then some "0,0"
        else if k = "OUTPUT_FILE" then some "out.txt"
        else if k = "PERFECT" then some "true" else none) =
      .error "ENTRY and EXIT must be different" ∧
    ConfigMod.buildMaze "maze.cfg" ⟨fun _ => false, fun _ => true⟩
      (fun k =>
        if k = "WIDTH" then some "5" else if k = "HEIGHT" then some "5"
        else if k = "ENTRY" then some "0,0" else if k = "EXIT" then some "0,0"
        else if k = "OUTPUT_FILE" then some "out.txt"
        else if k = "PERFECT" then some "true" else none) =
      .error "ENTRY and EXIT must be different" :=
  ⟨fun _ _ _ _ h => ConfigMod.parse_ok_valid h, rfl, rfl⟩

/-- Witness for C8: the validity consequences hold for the configuration
that a concrete well-formed file produces. -/
theorem config_validation_fatal_witness :
    0 < (5 : Nat) ∧ (5 : Nat) ≤ 100 ∧ 0 < (5 : Nat) ∧ (5 : Nat) ≤ 100 ∧
    (0 : Int) ≤ 0 ∧ (0 : Int) < (5 : Nat) ∧ (0 : Int) ≤ 0 ∧ (0 : Int) < (5 : Nat) ∧
    (0 : Int) ≤ 4 ∧ (4 : Int) < (5 : Nat) ∧ (0 : Int) ≤ 4 ∧ (4 : Int) < (5 : Nat) ∧
    ((0, 0) : Int × Int) ≠ (4, 4) ∧
    ((none : Option String) = none ∨ (none : Option String) = some "DFS" ∨
      (none : Option String) = some "PRIM") := by
  have h := config_validation_fatal.1 "maze.cfg" ⟨fun _ => false, fun _ => true⟩
    (fun k =>
      if k = "WIDTH" then some "5" else if k = "HEIGHT" then some "5"
      else if k = "ENTRY" then some "0,0" else if k = "EXIT" then some "4,4"
      else if k = "OUTPUT_FILE" then some "out.txt"
      else if k = "PERFECT" then some "true" else none)
    ⟨5, 5, (0, 0), (4, 4), "out.txt", true, none, none⟩ rfl
  exact h

namespace Mazegen

theorem adjacent4_symm {p q : Pos} (h : adjacent4 p q) : adjacent4 q p := by
  rcases p with ⟨a, b⟩
  rcases q with ⟨c, d⟩
  unfold adjacent4 at *
  simp only [Prod.mk.injEq] at *
  try omega

theorem mem_getNeighbors {g : MazeGenerator} {p q : Pos} :
    q ∈ g.getNeighbors p ↔ adjacent4 p q ∧ g.inB q := by
  unfold MazeGenerator.getNeighbors adjacent4
  rw [List.mem_filter]
  simp only [List.mem_cons, List.not_mem_nil, or_false, decide_eq_true_eq]

theorem getNeighbors_length_le (g : MazeGenerator) (p : Pos) :
    (g.getNeighbors p).length ≤ 4 := by
  have h := List.length_filter_le (fun q => decide (g.inB q))
    [(p.1 - 1, p.2), (p.1 + 1, p.2), (p.1, p.2 - 1), (p.1, p.2 + 1)]
  simpa [MazeGenerator.getNeighbors] using h

theorem mem_getVisitedNeighbors {g : MazeGenerator} {p q : Pos} {visited : Finset Pos} :
    q ∈ g.getVisitedNeighbors p visited ↔
      adjacent4 p q ∧ g.inB q ∧ q ∈ visited ∧ q ∉ g.pattern := by
  unfold MazeGenerator.getVisitedNeighbors
  rw [List.mem_filter]
  simp only [decide_eq_true_eq, mem_getNeighbors]
  tauto

theorem mem_addOptions {g : MazeGenerator} {p q : Pos} {visited : Finset Pos}
    {options : List Pos} :
    q ∈ g.addOptions p visited options ↔
      q ∈ options ∨ (adjacent4 p q ∧ g.inB q ∧ q ∉ visited ∧ q ∉ g.pattern) := by
  unfold MazeGenerator.addOptions
  rw [List.mem_append, List.mem_filter]
  simp only [decide_eq_true_eq, mem_getNeighbors]
  tauto

theorem pyChoice_fst_mem {α : Type} {l : List α} (h : l ≠ []) (d : α) (r : Rng) :
    (pyChoice d l r).1 ∈ l := by
  unfold pyChoice Rng.next
  have hl : 0 < l.length := List.length_pos.mpr h
  have hm : (r.stream r.idx) % l.length < l.length := Nat.mod_lt _ hl
  simp only
  rw [List.getD_eq_getElem l d hm]
  exact List.getElem_mem hm

theorem pyShuffleAux_subset {α : Type} (dflt : α) :
    ∀ (n : Nat) (l : List α) (r : Rng), n ≤ l.length →
      ∀ x ∈ (pyShuffleAux dflt n l r).1, x ∈ l := by
  intro n
  induction n with
  | zero => intro l r _ x hx; simp [pyShuffleAux] at hx
  | succ n ih =>
      intro l r hn x hx
      have hl : 0 < l.length := by omega
      have hj : (r.stream r.idx) % l.length < l.length := Nat.mod_lt _ hl
      unfold pyShuffleAux at hx
      simp only [Rng.next, List.mem_cons] at hx
      rcases hx with rfl | hx
      · rw [List.getD_eq_getElem l dflt hj]
        exact List.getElem_mem hj
      · have hlen : n ≤ (l.eraseIdx ((r.stream r.idx) % l.length)).length := by
          rw [List.length_eraseIdx_of_lt hj]
          omega
        exact List.mem_of_mem_eraseIdx (ih _ _ hlen x hx)

theorem pyShuffle_subset {α : Type} (dflt : α) (l : List α) (r : Rng) :
    ∀ x ∈ (pyShuffle dflt l r).1, x ∈ l :=
  pyShuffleAux_subset dflt l.length l r le_rfl

theorem mem_cellsFinset {g : MazeGenerator} {p : Pos} :
    p ∈ g.cellsFinset ↔ g.inB p := by
  unfold MazeGenerator.cellsFinset MazeGenerator.inB
  simp only [Finset.mem_image, Finset.mem_product, Finset.mem_range]
  constructor
  · rintro ⟨⟨a, b⟩, ⟨ha, hb⟩, rfl⟩
    refine ⟨by positivity, ?_, by positivity, ?_⟩ <;> push_cast <;> omega
  · rintro ⟨h1, h2, h3, h4⟩
    refine ⟨(p.1.toNat, p.2.toNat), ⟨by omega, by omega⟩, ?_⟩
    simp only [Prod.ext_iff]
    constructor <;> push_cast <;> omega

theorem mem_boundsFinset {m : Maze} {p : Pos} :
    p ∈ m.boundsFinset ↔ m.inBM p := by
  unfold Maze.boundsFinset Maze.inBM
  simp only [Finset.mem_image, Finset.mem_product, Finset.mem_range]
  constructor
  · rintro ⟨⟨a, b⟩, ⟨ha, hb⟩, rfl⟩
    refine ⟨by positivity, ?_, by positivity, ?_⟩ <;> push_cast <;> omega
  · rintro ⟨h1, h2, h3, h4⟩
    refine ⟨(p.1.toNat, p.2.toNat), ⟨by omega, by omega⟩, ?_⟩
    simp only [Prod.ext_iff]
    constructor <;> push_cast <;> omega

theorem cellAt_init (w h : Nat) (e x p : Pos) :
    (Maze.init w h e x).cellAt p = Cell.closedAll := by
  unfold Maze.init Maze.cellAt Maze.getCell
  simp only
  cases hg : pyGet (List.replicate h (List.replicate w Cell.closedAll)) p.1 with
  | none => rfl
  | some row =>
      have hrow : row = List.replicate w Cell.closedAll :=
        List.eq_of_mem_replicate (pyGet_mem hg)
      subst hrow
      simp only [Option.some_bind]
      cases hc : pyGet (List.replicate w Cell.closedAll) p.2 with
      | none => rfl
      | some c =>
          have : c = Cell.closedAll := List.eq_of_mem_replicate (pyGet_mem hc)
          subst this
          rfl

theorem init_wfGrid (w h : Nat) (e x : Pos) : (Maze.init w h e x).wfGrid := by
  constructor
  · simp [Maze.init]
  · intro row hrow
    have := List.eq_of_mem_replicate hrow
    subst this
    simp [Maze.init]

theorem mem_modify_cases {α : Type} {l : List α} {f : α → α} {k : Nat} {row : α}
    (h : row ∈ l.modify f k) : (∃ r0 ∈ l, row = f r0) ∨ row ∈ l := by
  obtain ⟨i, hi, hrow⟩ := List.mem_iff_getElem.mp h
  have hi2 : i < l.length := by simpa using hi
  rw [List.getElem_modify] at hrow
  split at hrow
  · exact Or.inl ⟨l[i], List.getElem_mem hi2, hrow.symm⟩
  · exact Or.inr (hrow ▸ List.getElem_mem hi2)

theorem wfGrid_modifyCell {m : Maze} (hwf : m.wfGrid) (q : Pos) (f : Cell → Cell) :
    (m.modifyCell q f).wfGrid := by
  obtain ⟨h1, h2⟩ := hwf
  constructor
  · show (pyModify m.grid _ q.1).length = m.height
    rw [length_pyModify]
    exact h1
  · intro row hrow
    show row.length = m.width
    have hrow2 : row ∈ pyModify m.grid (fun r => pyModify r f q.2) q.1 := hrow
    unfold pyModify at hrow2
    cases hk : pyIdx m.grid.length q.1 with
    | none =>
        rw [hk] at hrow2
        try dsimp only at hrow2
        exact h2 row hrow2
    | some k =>
        rw [hk] at hrow2
        try dsimp only at hrow2
        rcases mem_modify_cases hrow2 with ⟨r0, hr0, rfl⟩ | hmem
        · show (pyModify r0 f q.2).length = m.width
          rw [length_pyModify]
          exact h2 r0 hr0
        · exact h2 row hmem

theorem openWall_width (m : Maze) (a b : Pos) : (m.openWall a b).width = m.width := by
  unfold Maze.openWall
  split
  · rfl
  · split
    · rfl
    · split
      · rfl
      · split
        · rfl
        · split <;> rfl

theorem openWall_height (m : Maze) (a b : Pos) : (m.openWall a b).height = m.height := by
  unfold Maze.openWall
  split
  · rfl
  · split
    · rfl
    · split
      · rfl
      · split
        · rfl
        · split <;> rfl

theorem wfGrid_openWall {m : Maze} (hwf : m.wfGrid) (a b : Pos) :
    (m.openWall a b).wfGrid := by
  unfold Maze.openWall
  split
  · exact hwf
  · split
    · exact wfGrid_modifyCell (wfGrid_modifyCell hwf _ _) _ _
    · split
      · exact wfGrid_modifyCell (wfGrid_modifyCell hwf _ _) _ _
      · split
        · exact wfGrid_modifyCell (wfGrid_modifyCell hwf _ _) _ _
        · split
          · exact wfGrid_modifyCell (wfGrid_modifyCell hwf _ _) _ _
          · exact hwf

end Mazegen

namespace Mazegen

theorem cellAt_modifyCell_self {m : Maze} (hwf : m.wfGrid) {q : Pos}
    (hq : m.inBM q) (f : Cell → Cell) :
    (m.modifyCell q f).cellAt q = f (m.cellAt q) := by
  obtain ⟨h1, h2⟩ := hwf
  obtain ⟨hq1, hq2, hq3, hq4⟩ := hq
  unfold Maze.modifyCell Maze.cellAt Maze.getCell
  simp only
  rw [pyGet_pyModify_same rfl]
  have hlen1 : -(m.grid.length : Int) ≤ q.1 := by rw [h1]; omega
  have hlen2 : q.1 < (m.grid.length : Int) := by rw [h1]; exact hq2
  obtain ⟨row, hr⟩ := pyGet_isSome_of_range hlen1 hlen2
  rw [hr]
  simp only [Option.map_some', Option.some_bind]
  rw [pyGet_pyModify_same rfl]
  have hrl : row.length = m.width := h2 row (pyGet_mem hr)
  have hlen3 : -(row.length : Int) ≤ q.2 := by rw [hrl]; omega
  have hlen4 : q.2 < (row.length : Int) := by rw [hrl]; exact hq4
  obtain ⟨c, hc⟩ := pyGet_isSome_of_range hlen3 hlen4
  rw [hc]
  rfl

theorem cellAt_modifyCell_ne {m : Maze} (hwf : m.wfGrid) {q p : Pos}
    (hq : m.inBM q) (hp : m.inBM p) (hne : p ≠ q) (f : Cell → Cell) :
    (m.modifyCell q f).cellAt p = m.cellAt p := by
  obtain ⟨h1, h2⟩ := hwf
  obtain ⟨hq1, hq2, hq3, hq4⟩ := hq
  obtain ⟨hp1, hp2, hp3, hp4⟩ := hp
  unfold Maze.modifyCell Maze.cellAt Maze.getCell
  simp only
  by_cases hrow : p.1 = q.1
  · have hcol : p.2 ≠ q.2 := fun hc => hne (Prod.ext hrow hc)
    rw [pyGet_pyModify_same (by rw [hrow])]
    cases hr : pyGet m.grid p.1 with
    | none => rfl
    | some row =>
        simp only [Option.map_some', Option.some_bind]
        have hrl : row.length = m.width := h2 row (pyGet_mem hr)
        have hneq : pyIdx row.length q.2 ≠ pyIdx row.length p.2 := by
          rw [pyIdx_of_nonneg hq3 (by rw [hrl]; exact hq4),
              pyIdx_of_nonneg hp3 (by rw [hrl]; exact hp4)]
          intro hcontra
          injection hcontra with hk
          apply hcol
          omega
        rw [pyGet_pyModify_ne hneq]
  · have hneq : pyIdx m.grid.length q.1 ≠ pyIdx m.grid.length p.1 := by
      rw [pyIdx_of_nonneg hq1 (by rw [h1]; exact hq2),
          pyIdx_of_nonneg hp1 (by rw [h1]; exact hp2)]
      intro hcontra
      injection hcontra with hk
      apply hrow
      omega
    rw [pyGet_pyModify_ne hneq]

/-- What one `open_wall` call does to the south/east wall bits of every
in-bounds cell: exactly the shared wall of the adjacent pair opens.  (The
south bit of a wall-pair lives in its top cell, the east bit in its left
cell.) -/
theorem openWall_open_iff {m : Maze} (hwf : m.wfGrid) {p q : Pos}
    (hp : m.inBM p) (hq : m.inBM q) (hadj : adjacent4 p q) {r : Pos} (hr : m.inBM r) :
    ((m.openWall p q).openSouth r ↔
      (m.openSouth r ∨ (r = p ∧ q = southOf p) ∨ (r = q ∧ p = southOf q))) ∧
    ((m.openWall p q).openEast r ↔
      (m.openEast r ∨ (r = p ∧ q = eastOf p) ∨ (r = q ∧ p = eastOf q))) := by
  rcases hadj with hc | hc | hc | hc <;> subst hc
  · -- q = (p.1 - 1, p.2), the north neighbor: clears north(p) and south(q)
    have heq : m.openWall p (p.1 - 1, p.2) =
        (m.modifyCell p fun c => { c with north := false }).modifyCell (p.1 - 1, p.2)
          fun c => { c with south := false } := by
      unfold Maze.openWall
      rw [if_neg (show ¬((p.1 - (p.1 - 1)).natAbs + (p.2 - p.2).natAbs ≠ 1) by omega),
          if_neg (show ¬(p.2 + 1 = p.2) by omega),
          if_neg (show ¬(p.2 - 1 = p.2) by omega),
          if_neg (show ¬(p.1 + 1 = p.1 - 1) by omega),
          if_pos (show p.1 - 1 = p.1 - 1 from rfl)]
    have hpq : p ≠ ((p.1 - 1, p.2) : Pos) := by
      intro hh
      rw [Prod.ext_iff] at hh
      have := hh.1
      simp only at this
      omega
    have hwf1 := wfGrid_modifyCell hwf p (fun c => { c with north := false })
    have hS : p = southOf ((p.1 - 1, p.2) : Pos) :=
      Prod.ext_iff.mpr ⟨show p.1 = p.1 - 1 + 1 by omega, rfl⟩
    have hnS : ((p.1 - 1, p.2) : Pos) ≠ southOf p := by
      intro hh
      rw [Prod.ext_iff] at hh
      have := hh.1
      simp only [southOf] at this
      omega
    have hnE : ((p.1 - 1, p.2) : Pos) ≠ eastOf p := by
      intro hh
      rw [Prod.ext_iff] at hh
      have := hh.1
      simp only [eastOf] at this
      omega
    have hnE2 : p ≠ eastOf ((p.1 - 1, p.2) : Pos) := by
      intro hh
      rw [Prod.ext_iff] at hh
      have := hh.1
      simp only [eastOf] at this
      omega
    rw [heq]
    unfold Maze.openSouth Maze.openEast
    by_cases hrq : r = ((p.1 - 1, p.2) : Pos)
    · subst hrq
      rw [cellAt_modifyCell_self hwf1 hq, cellAt_modifyCell_ne hwf hp hq hpq.symm]
      constructor
      · simp only
        constructor
        · intro _
          exact Or.inr (Or.inr ⟨by trivial, hS⟩)
        · intro _
          trivial
      · simp only
        constructor
        · exact fun hh => Or.inl hh
        · intro hh
          rcases hh with hh | ⟨hh, -⟩ | ⟨-, hh⟩
          · exact hh
          · exact absurd hh.symm hpq
          · exact absurd hh hnE2
    · by_cases hrp : r = p
      · subst hrp
        rw [cellAt_modifyCell_ne hwf1 hq hr hrq, cellAt_modifyCell_self hwf hp]
        constructor
        · simp only
          constructor
          · exact fun hh => Or.inl hh
          · intro hh
            rcases hh with hh | ⟨-, hh⟩ | ⟨hh, -⟩
            · exact hh
            · exact absurd hh hnS
            · exact absurd hh hrq
        · simp only
          constructor
          · exact fun hh => Or.inl hh
          · intro hh
            rcases hh with hh | ⟨-, hh⟩ | ⟨hh, -⟩
            · exact hh
            · exact absurd hh hnE
            · exact absurd hh hrq
      · rw [cellAt_modifyCell_ne hwf1 hq hr hrq, cellAt_modifyCell_ne hwf hp hr hrp]
        constructor <;>
          (constructor
           · exact fun hh => Or.inl hh
           · intro hh
             rcases hh with hh | ⟨hh, -⟩ | ⟨hh, -⟩
             · exact hh
             · exact absurd hh hrp
             · exact absurd hh hrq)
  · -- q = (p.1 + 1, p.2), the south neighbor: clears south(p) and north(q)
    have heq : m.openWall p (p.1 + 1, p.2) =
        (m.modifyCell p fun c => { c with south := false }).modifyCell (p.1 + 1, p.2)
          fun c => { c with north := false } := by
      unfold Maze.openWall
      rw [if_neg (show ¬((p.1 - (p.1 + 1)).natAbs + (p.2 - p.2).natAbs ≠ 1) by omega),
          if_neg (show ¬(p.2 + 1 = p.2) by omega),
          if_neg (show ¬(p.2 - 1 = p.2) by omega),
          if_pos (show p.1 + 1 = p.1 + 1 from rfl)]
    have hpq : p ≠ ((p.1 + 1, p.2) : Pos) := by
      intro hh
      rw [Prod.ext_iff] at hh
      have := hh.1
      simp only at this
      omega
    have hwf1 := wfGrid_modifyCell hwf p (fun c => { c with south := false })
    have hS : ((p.1 + 1, p.2) : Pos) = southOf p := rfl
    have hnS2 : p ≠ southOf ((p.1 + 1, p.2) : Pos) := by
      intro hh
      rw [Prod.ext_iff] at hh
      have := hh.1
      simp only [southOf] at this
      omega
    have hnE : ((p.1 + 1, p.2) : Pos) ≠ eastOf p := by
      intro hh
      rw [Prod.ext_iff] at hh
      have := hh.1
      simp only [eastOf] at this
      omega
    have hnE2 : p ≠ eastOf ((p.1 + 1, p.2) : Pos) := by
      intro hh
      rw [Prod.ext_iff] at hh
      have := hh.1
      simp only [eastOf] at this
      omega
    rw [heq]
    unfold Maze.openSouth Maze.openEast
    by_cases hrq : r = ((p.1 + 1, p.2) : Pos)
    · subst hrq
      rw [cellAt_modifyCell_self hwf1 hq, cellAt_modifyCell_ne hwf hp hq hpq.symm]
      constructor
      · simp only
        constructor
        · exact fun hh => Or.inl hh
        · intro hh
          rcases hh with hh | ⟨hh, -⟩ | ⟨-, hh⟩
          · exact hh
          · exact absurd hh.symm hpq
          · exact absurd hh hnS2
      · simp only
        constructor
        · exact fun hh => Or.inl hh
        · intro hh
          rcases hh with hh | ⟨hh, -⟩ | ⟨-, hh⟩
          · exact hh
          · exact absurd hh.symm hpq
          · exact absurd hh hnE2
    · by_cases hrp : r = p
      · subst hrp
        rw [cellAt_modifyCell_ne hwf1 hq hr hrq, cellAt_modifyCell_self hwf hp]
        constructor
        · simp only
          constructor
          · intro _
            exact Or.inr (Or.inl ⟨by trivial, hS.symm⟩)
          · intro _
            trivial
        · simp only
          constructor
          · exact fun hh => Or.inl hh
          · intro hh
            rcases hh with hh | ⟨-, hh⟩ | ⟨hh, -⟩
            · exact hh
            · exact absurd hh hnE
            · exact absurd hh hrq
      · rw [cellAt_modifyCell_ne hwf1 hq hr hrq, cellAt_modifyCell_ne hwf hp hr hrp]
        constructor <;>
          (constructor
           · exact fun hh => Or.inl hh
           · intro hh
             rcases hh with hh | ⟨hh, -⟩ | ⟨hh, -⟩
             · exact hh
             · exact absurd hh hrp
             · exact absurd hh hrq)
  · -- q = (p.1, p.2 - 1), the west neighbor: clears west(p) and east(q)
    have heq : m.openWall p (p.1, p.2 - 1) =
        (m.modifyCell p fun c => { c with west := false }).modifyCell (p.1, p.2 - 1)
          fun c => { c with east := false } := by
      unfold Maze.openWall
      rw [if_neg (show ¬((p.1 - p.1).natAbs + (p.2 - (p.2 - 1)).natAbs ≠ 1) by omega),
          if_neg (show ¬(p.2 + 1 = p.2 - 1) by omega),
          if_pos (show p.2 - 1 = p.2 - 1 from rfl)]
    have hpq : p ≠ ((p.1, p.2 - 1) : Pos) := by
      intro hh
      rw [Prod.ext_iff] at hh
      have := hh.2
      simp only at this
      omega
    have hwf1 := wfGrid_modifyCell hwf p (fun c => { c with west := false })
    have hE : p = eastOf ((p.1, p.2 - 1) : Pos) :=
      Prod.ext_iff.mpr ⟨rfl, show p.2 = p.2 - 1 + 1 by omega⟩
    have hnS : ((p.1, p.2 - 1) : Pos) ≠ southOf p := by
      intro hh
      rw [Prod.ext_iff] at hh
      have := hh.1
      simp only [southOf] at this
      omega
    have hnS2 : p ≠ southOf ((p.1, p.2 - 1) : Pos) := by
      intro hh
      rw [Prod.ext_iff] at hh
      have := hh.1
      simp only [southOf] at this
      omega
    have hnE : ((p.1, p.2 - 1) : Pos) ≠ eastOf p := by
      intro hh
      rw [Prod.ext_iff] at hh
      have := hh.2
      simp only [eastOf] at this
      omega
    rw [heq]
    unfold Maze.openSouth Maze.openEast
    by_cases hrq : r = ((p.1, p.2 - 1) : Pos)
    · subst hrq
      rw [cellAt_modifyCell_self hwf1 hq, cellAt_modifyCell_ne hwf hp hq hpq.symm]
      constructor
      · simp only
        constructor
        · exact fun hh => Or.inl hh
        · intro hh
          rcases hh with hh | ⟨hh, -⟩ | ⟨-, hh⟩
          · exact hh
          · exact absurd hh.symm hpq
          · exact absurd hh hnS2
      · simp only
        constructor
        · intro _
          exact Or.inr (Or.inr ⟨by trivial, hE⟩)
        · intro _
          trivial
    · by_cases hrp : r = p
      · subst hrp
        rw [cellAt_modifyCell_ne hwf1 hq hr hrq, cellAt_modifyCell_self hwf hp]
        constructor
        · simp only
          constructor
          · exact fun hh => Or.inl hh
          · intro hh
            rcases hh with hh | ⟨-, hh⟩ | ⟨hh, -⟩
            · exact hh
            · exact absurd hh hnS
            · exact absurd hh hrq
        · simp only
          constructor
          · exact fun hh => Or.inl hh
          · intro hh
            rcases hh with hh | ⟨-, hh⟩ | ⟨hh, -⟩
            · exact hh
            · exact absurd hh hnE
            · exact absurd hh hrq
      · rw [cellAt_modifyCell_ne hwf1 hq hr hrq, cellAt_modifyCell_ne hwf hp hr hrp]
        constructor <;>
          (constructor
           · exact fun hh => Or.inl hh
           · intro hh
             rcases hh with hh | ⟨hh, -⟩ | ⟨hh, -⟩
             · exact hh
             · exact absurd hh hrp
             · exact absurd hh hrq)
  · -- q = (p.1, p.2 + 1), the east neighbor: clears east(p) and west(q)
    have heq : m.openWall p (p.1, p.2 + 1) =
        (m.modifyCell p fun c => { c with east := false }).modifyCell (p.1, p.2 + 1)
          fun c => { c with west := false } := by
      unfold Maze.openWall
      rw [if_neg (show ¬((p.1 - p.1).natAbs + (p.2 - (p.2 + 1)).natAbs ≠ 1) by omega),
          if_pos (show p.2 + 1 = p.2 + 1 from rfl)]
    have hpq : p ≠ ((p.1, p.2 + 1) : Pos) := by
      intro hh
      rw [Prod.ext_iff] at hh
      have := hh.2
      simp only at this
      omega
    have hwf1 := wfGrid_modifyCell hwf p (fun c => { c with east := false })
    have hE : ((p.1, p.2 + 1) : Pos) = eastOf p := rfl
    have hnS : ((p.1, p.2 + 1) : Pos) ≠ southOf p := by
      intro hh
      rw [Prod.ext_iff] at hh
      have := hh.1
      simp only [southOf] at this
      omega
    have hnS2 : p ≠ southOf ((p.1, p.2 + 1) : Pos) := by
      intro hh
      rw [Prod.ext_iff] at hh
      have := hh.1
      simp only [southOf] at this
      omega
    have hnE2 : p ≠ eastOf ((p.1, p.2 + 1) : Pos) := by
      intro hh
      rw [Prod.ext_iff] at hh
      have := hh.2
      simp only [eastOf] at this
      omega
    rw [heq]
    unfold Maze.openSouth Maze.openEast
    by_cases hrq : r = ((p.1, p.2 + 1) : Pos)
    · subst hrq
      rw [cellAt_modifyCell_self hwf1 hq, cellAt_modifyCell_ne hwf hp hq hpq.symm]
      constructor
      · simp only
        constructor
        · exact fun hh => Or.inl hh
        · intro hh
          rcases hh with hh | ⟨hh, -⟩ | ⟨-, hh⟩
          · exact hh
          · exact absurd hh.symm hpq
          · exact absurd hh hnS2
      · simp only
        constructor
        · exact fun hh => Or.inl hh
        · intro hh
          rcases hh with hh | ⟨hh, -⟩ | ⟨-, hh⟩
          · exact hh
          · exact absurd hh.symm hpq
          · exact absurd hh hnE2
    · by_cases hrp : r = p
      · subst hrp
        rw [cellAt_modifyCell_ne hwf1 hq hr hrq, cellAt_modifyCell_self hwf hp]
        constructor
        · simp only
          constructor
          · exact fun hh => Or.inl hh
          · intro hh
            rcases hh with hh | ⟨-, hh⟩ | ⟨hh, -⟩
            · exact hh
            · exact absurd hh hnS
            · exact absurd hh hrq
        · simp only
          constructor
          · intro _
            exact Or.inr (Or.inl ⟨by trivial, hE.symm⟩)
          · intro _
            trivial
      · rw [cellAt_modifyCell_ne hwf1 hq hr hrq, cellAt_modifyCell_ne hwf hp hr hrp]
        constructor <;>
          (constructor
           · exact fun hh => Or.inl hh
           · intro hh
             rcases hh with hh | ⟨hh, -⟩ | ⟨hh, -⟩
             · exact hh
             · exact absurd hh hrp
             · exact absurd hh hrq)

end Mazegen

namespace Mazegen

theorem inBM_openWall {m : Maze} {a b r : Pos} :
    (m.openWall a b).inBM r ↔ m.inBM r := by
  unfold Maze.inBM
  rw [openWall_width, openWall_height]

theorem openAdj_openWall_mono {m : Maze} {p q a b : Pos} (h : m.openAdj a b) :
    (m.openWall p q).openAdj a b := by
  obtain ⟨ha, hb, hrest⟩ := h
  have hsouth : ∀ x, m.openSouth x → (m.openWall p q).openSouth x := by
    intro x hx
    unfold Maze.openSouth at *
    cases hcc : ((m.openWall p q).cellAt x).south
    · rfl
    · exact absurd ((cellAt_openWall_mono m p q x).2.2.1 hcc) (by rw [hx]; simp)
  have heast : ∀ x, m.openEast x → (m.openWall p q).openEast x := by
    intro x hx
    unfold Maze.openEast at *
    cases hcc : ((m.openWall p q).cellAt x).east
    · rfl
    · exact absurd ((cellAt_openWall_mono m p q x).2.1 hcc) (by rw [hx]; simp)
  refine ⟨inBM_openWall.mpr ha, inBM_openWall.mpr hb, ?_⟩
  rcases hrest with ⟨h1, h2⟩ | ⟨h1, h2⟩ | ⟨h1, h2⟩ | ⟨h1, h2⟩
  · exact Or.inl ⟨h1, hsouth _ h2⟩
  · exact Or.inr (Or.inl ⟨h1, heast _ h2⟩)
  · exact Or.inr (Or.inr (Or.inl ⟨h1, hsouth _ h2⟩))
  · exact Or.inr (Or.inr (Or.inr ⟨h1, heast _ h2⟩))

theorem openAdj_openWall_self {m : Maze} (hwf : m.wfGrid) {p q : Pos}
    (hp : m.inBM p) (hq : m.inBM q) (hadj : adjacent4 p q) :
    (m.openWall p q).openAdj p q := by
  refine ⟨inBM_openWall.mpr hp, inBM_openWall.mpr hq, ?_⟩
  rcases hadj with hc | hc | hc | hc
  · right; right; left
    subst hc
    have hS : p = southOf ((p.1 - 1, p.2) : Pos) :=
      Prod.ext_iff.mpr ⟨show p.1 = p.1 - 1 + 1 by omega, rfl⟩
    refine ⟨hS, ?_⟩
    rw [(openWall_open_iff hwf hp hq (Or.inl rfl) hq).1]
    exact Or.inr (Or.inr ⟨rfl, hS⟩)
  · left
    subst hc
    have hS : ((p.1 + 1, p.2) : Pos) = southOf p := rfl
    refine ⟨hS, ?_⟩
    rw [(openWall_open_iff hwf hp hq (Or.inr (Or.inl rfl)) hp).1]
    exact Or.inr (Or.inl ⟨rfl, hS⟩)
  · right; right; right
    subst hc
    have hE : p = eastOf ((p.1, p.2 - 1) : Pos) :=
      Prod.ext_iff.mpr ⟨rfl, show p.2 = p.2 - 1 + 1 by omega⟩
    refine ⟨hE, ?_⟩
    rw [(openWall_open_iff hwf hp hq (Or.inr (Or.inr (Or.inl rfl))) hq).2]
    exact Or.inr (Or.inr ⟨rfl, hE⟩)
  · right; left
    subst hc
    have hE : ((p.1, p.2 + 1) : Pos) = eastOf p := rfl
    refine ⟨hE, ?_⟩
    rw [(openWall_open_iff hwf hp hq (Or.inr (Or.inr (Or.inr rfl))) hp).2]
    exact Or.inr (Or.inl ⟨rfl, hE⟩)

theorem openAdj_openWall_inv {m : Maze} (hwf : m.wfGrid) {p q : Pos}
    (hp : m.inBM p) (hq : m.inBM q) (hadj : adjacent4 p q) {a b : Pos}
    (h : (m.openWall p q).openAdj a b) :
    m.openAdj a b ∨ (a = p ∧ b = q) ∨ (a = q ∧ b = p) := by
  obtain ⟨ha, hb, hrest⟩ := h
  rw [inBM_openWall] at ha hb
  rcases hrest with ⟨hba, hopen⟩ | ⟨hba, hopen⟩ | ⟨hba, hopen⟩ | ⟨hba, hopen⟩
  · rcases ((openWall_open_iff hwf hp hq hadj ha).1).mp hopen with h | ⟨rfl, h2⟩ | ⟨rfl, h2⟩
    · exact Or.inl ⟨ha, hb, Or.inl ⟨hba, h⟩⟩
    · exact Or.inr (Or.inl ⟨rfl, by rw [hba, h2]⟩)
    · exact Or.inr (Or.inr ⟨rfl, by rw [hba, h2]⟩)
  · rcases ((openWall_open_iff hwf hp hq hadj ha).2).mp hopen with h | ⟨rfl, h2⟩ | ⟨rfl, h2⟩
    · exact Or.inl ⟨ha, hb, Or.inr (Or.inl ⟨hba, h⟩)⟩
    · exact Or.inr (Or.inl ⟨rfl, by rw [hba, h2]⟩)
    · exact Or.inr (Or.inr ⟨rfl, by rw [hba, h2]⟩)
  · rcases ((openWall_open_iff hwf hp hq hadj hb).1).mp hopen with h | ⟨rfl, h2⟩ | ⟨rfl, h2⟩
    · exact Or.inl ⟨ha, hb, Or.inr (Or.inr (Or.inl ⟨hba, h⟩))⟩
    · exact Or.inr (Or.inr ⟨by rw [hba, h2], rfl⟩)
    · exact Or.inr (Or.inl ⟨by rw [hba, h2], rfl⟩)
  · rcases ((openWall_open_iff hwf hp hq hadj hb).2).mp hopen with h | ⟨rfl, h2⟩ | ⟨rfl, h2⟩
    · exact Or.inl ⟨ha, hb, Or.inr (Or.inr (Or.inr ⟨hba, h⟩))⟩
    · exact Or.inr (Or.inr ⟨by rw [hba, h2], rfl⟩)
    · exact Or.inr (Or.inl ⟨by rw [hba, h2], rfl⟩)

theorem mem_openEdges {m : Maze} {a b : Pos} :
    (a, b) ∈ m.openEdges ↔ m.inBM a ∧ m.inBM b ∧
      ((b = southOf a ∧ m.openSouth a) ∨ (b = eastOf a ∧ m.openEast a)) := by
  unfold Maze.openEdges
  rw [Finset.mem_filter, Finset.mem_product]
  simp only [mem_boundsFinset]
  tauto

end Mazegen

namespace Mazegen

theorem canonEdge_mem_openEdges_openWall {m : Maze} (hwf : m.wfGrid) {p q : Pos}
    (hp : m.inBM p) (hq : m.inBM q) (hadj : adjacent4 p q) :
    canonEdge p q ∈ (m.openWall p q).openEdges := by
  have hself := openAdj_openWall_self hwf hp hq hadj
  obtain ⟨-, -, hrest⟩ := hself
  unfold canonEdge
  rcases hrest with ⟨h1, h2⟩ | ⟨h1, h2⟩ | ⟨h1, h2⟩ | ⟨h1, h2⟩
  · rw [if_pos (Or.inl h1)]
    exact mem_openEdges.mpr ⟨inBM_openWall.mpr hp, inBM_openWall.mpr hq, Or.inl ⟨h1, h2⟩⟩
  · rw [if_pos (Or.inr h1)]
    exact mem_openEdges.mpr ⟨inBM_openWall.mpr hp, inBM_openWall.mpr hq,
      Or.inr ⟨h1, h2⟩⟩
  · rw [if_neg ?_]
    · exact mem_openEdges.mpr ⟨inBM_openWall.mpr hq, inBM_openWall.mpr hp,
        Or.inl ⟨h1, h2⟩⟩
    · intro hcon
      rcases hcon with hcon | hcon
      · rw [h1] at hcon
        rw [Prod.ext_iff] at hcon
        have := hcon.1
        simp only [southOf] at this
        omega
      · rw [h1] at hcon
        rw [Prod.ext_iff] at hcon
        have h1' := hcon.1
        have h2' := hcon.2
        simp only [southOf, eastOf] at h1' h2'
        omega
  · rw [if_neg ?_]
    · exact mem_openEdges.mpr ⟨inBM_openWall.mpr hq, inBM_openWall.mpr hp,
        Or.inr ⟨h1, h2⟩⟩
    · intro hcon
      rcases hcon with hcon | hcon
      · rw [h1] at hcon
        rw [Prod.ext_iff] at hcon
        have h1' := hcon.1
        have h2' := hcon.2
        simp only [southOf, eastOf] at h1' h2'
        omega
      · rw [h1] at hcon
        rw [Prod.ext_iff] at hcon
        have := hcon.2
        simp only [eastOf] at this
        omega

theorem mem_openEdges_openAdj {m : Maze} {a b : Pos} (h : (a, b) ∈ m.openEdges) :
    m.openAdj a b := by
  obtain ⟨ha, hb, hrest⟩ := mem_openEdges.mp h
  exact ⟨ha, hb, by tauto⟩

theorem openEdges_openWall {m : Maze} (hwf : m.wfGrid) {p q : Pos}
    (hp : m.inBM p) (hq : m.inBM q) (hadj : adjacent4 p q) :
    (m.openWall p q).openEdges = insert (canonEdge p q) m.openEdges := by
  apply Finset.ext
  rintro ⟨a, b⟩
  rw [Finset.mem_insert]
  constructor
  · intro hmem
    have hadj2 := mem_openEdges_openAdj hmem
    obtain ⟨ha, hb, hrest⟩ := hadj2
    rw [inBM_openWall] at ha hb
    obtain ⟨-, -, hcanon⟩ := mem_openEdges.mp hmem
    rcases hcanon with ⟨hba, hopen⟩ | ⟨hba, hopen⟩
    · rcases ((openWall_open_iff hwf hp hq hadj ha).1).mp hopen with h | ⟨rfl, h2⟩ | ⟨rfl, h2⟩
      · exact Or.inr (mem_openEdges.mpr ⟨ha, hb, Or.inl ⟨hba, h⟩⟩)
      · left
        unfold canonEdge
        rw [if_pos (Or.inl h2)]
        rw [hba, h2]
      · left
        unfold canonEdge
        rw [if_neg ?_]
        · rw [hba, h2]
        · intro hcon
          rcases hcon with hcon | hcon
          · rw [h2] at hcon
            rw [Prod.ext_iff] at hcon
            have := hcon.1
            simp only [southOf] at this
            omega
          · rw [h2] at hcon
            rw [Prod.ext_iff] at hcon
            have h1' := hcon.1
            have h2' := hcon.2
            simp only [southOf, eastOf] at h1' h2'
            omega
    · rcases ((openWall_open_iff hwf hp hq hadj ha).2).mp hopen with h | ⟨rfl, h2⟩ | ⟨rfl, h2⟩
      · exact Or.inr (mem_openEdges.mpr ⟨ha, hb, Or.inr ⟨hba, h⟩⟩)
      · left
        unfold canonEdge
        rw [if_pos (Or.inr h2)]
        rw [hba, h2]
      · left
        unfold canonEdge
        rw [if_neg ?_]
        · rw [hba, h2]
        · intro hcon
          rcases hcon with hcon | hcon
          · rw [h2] at hcon
            rw [Prod.ext_iff] at hcon
            have h1' := hcon.1
            have h2' := hcon.2
            simp only [southOf, eastOf] at h1' h2'
            omega
          · rw [h2] at hcon
            rw [Prod.ext_iff] at hcon
            have := hcon.2
            simp only [eastOf] at this
            omega
  · intro hmem
    rcases hmem with heq | hmem
    · have := canonEdge_mem_openEdges_openWall hwf hp hq hadj
      rw [← heq] at this
      exact this
    · obtain ⟨ha, hb, hrest⟩ := mem_openEdges.mp hmem
      apply mem_openEdges.mpr
      refine ⟨inBM_openWall.mpr ha, inBM_openWall.mpr hb, ?_⟩
      rcases hrest with ⟨hba, hopen⟩ | ⟨hba, hopen⟩
      · exact Or.inl ⟨hba, ((openWall_open_iff hwf hp hq hadj ha).1).mpr (Or.inl hopen)⟩
      · exact Or.inr ⟨hba, ((openWall_open_iff hwf hp hq hadj ha).2).mpr (Or.inl hopen)⟩

theorem canonEdge_not_mem {m : Maze} {p q : Pos} (hadj : adjacent4 p q)
    (hclosed : ¬ m.openAdj p q) : canonEdge p q ∉ m.openEdges := by
  intro hmem
  unfold canonEdge at hmem
  split at hmem
  · have h := mem_openEdges_openAdj hmem
    exact hclosed h
  · have h := mem_openEdges_openAdj hmem
    obtain ⟨ha, hb, hrest⟩ := h
    exact hclosed ⟨hb, ha, by tauto⟩

end Mazegen

namespace Mazegen

theorem inB_to_inBM {g : MazeGenerator} {s : CarveState} (hinv : CarveInv g s)
    {x : Pos} (hx : g.inB x) : s.maze.inBM x := by
  unfold MazeGenerator.inB at hx
  unfold Maze.inBM
  rw [hinv.dims_w, hinv.dims_h]
  exact hx

theorem carveInv_rng (g : MazeGenerator) {m : Maze} {v : Finset Pos} {o : List Pos}
    {r : Rng} (hinv : CarveInv g ⟨m, v, o, r⟩) (o2 : List Pos)
    (hsub : ∀ p ∈ o2, p ∈ o)
    (hclo : ∀ p ∈ v, ∀ q, adjacent4 p q → g.inB q → q ∉ g.pattern →
      q ∈ v ∨ q ∈ o2) (r2 : Rng) :
    CarveInv g ⟨m, v, o2, r2⟩ where
  dims_w := hinv.dims_w
  dims_h := hinv.dims_h
  wf := hinv.wf
  entry_vis := hinv.entry_vis
  vis_inB := hinv.vis_inB
  vis_np := hinv.vis_np
  opt_inB := fun p hp => hinv.opt_inB p (hsub p hp)
  opt_np := fun p hp => hinv.opt_np p (hsub p hp)
  closure := hclo
  vis_reach := hinv.vis_reach
  open_reach := hinv.open_reach
  adj_vis := hinv.adj_vis
  edge_count := hinv.edge_count
  tree_cert := hinv.tree_cert
  no_full := hinv.no_full
  pattern_closed := hinv.pattern_closed

theorem carveInv_erase_of_visited (g : MazeGenerator) {m : Maze} {v : Finset Pos}
    {o : List Pos} {r : Rng} (hinv : CarveInv g ⟨m, v, o, r⟩) {c : Pos}
    (hc : c ∈ v) (r2 : Rng) : CarveInv g ⟨m, v, o.erase c, r2⟩ := by
  apply carveInv_rng g hinv _ (fun p hp => List.mem_of_mem_erase hp) _ r2
  intro p hp q hadj hqb hqnp
  rcases hinv.closure p hp q hadj hqb hqnp with hq | hq
  · exact Or.inl hq
  · by_cases hqc : q = c
    · exact Or.inl (hqc ▸ hc)
    · exact Or.inr ((List.mem_erase_of_ne hqc).mpr hq)

theorem carveInv_erase_of_no_nbrs (g : MazeGenerator) {m : Maze} {v : Finset Pos}
    {o : List Pos} {r : Rng} (hinv : CarveInv g ⟨m, v, o, r⟩) {c : Pos}
    (hcv : c ∉ v) (hn : g.getVisitedNeighbors c v = []) (r2 : Rng) :
    CarveInv g ⟨m, v, o.erase c, r2⟩ := by
  apply carveInv_rng g hinv _ (fun p hp => List.mem_of_mem_erase hp) _ r2
  intro p hp q hadj hqb hqnp
  rcases hinv.closure p hp q hadj hqb hqnp with hq | hq
  · exact Or.inl hq
  · by_cases hqc : q = c
    · exfalso
      subst hqc
      have hpmem : p ∈ g.getVisitedNeighbors q v :=
        mem_getVisitedNeighbors.mpr
          ⟨adjacent4_symm hadj, hinv.vis_inB p hp, hp, hinv.vis_np p hp⟩
      rw [hn] at hpmem
      cases hpmem
    · exact Or.inr ((List.mem_erase_of_ne hqc).mpr hq)

end Mazegen

namespace Mazegen

/-- Opening a wall at a cell that has no open wall yet cannot complete a
2×2 window. -/
theorem noFull_openWall_of_isolated {m : Maze} (hwf : m.wfGrid) {c nbr : Pos}
    (hc : m.inBM c) (hnbr : m.inBM nbr) (hadj : adjacent4 c nbr)
    (hiso : ∀ z, ¬ m.openAdj c z) (hnf : noFull2x2 m) :
    noFull2x2 (m.openWall c nbr) := by
  intro wr wc h0 h1 h2 h3
  rw [openWall_height] at h1
  rw [openWall_width] at h3
  rintro ⟨hE1, hS1, hS2, hE2⟩
  have hLT : m.inBM (wr, wc) := ⟨h0, by omega, h2, by omega⟩
  have hRT : m.inBM (wr, wc + 1) := ⟨h0, by omega, by omega, by omega⟩
  have hLB : m.inBM (wr + 1, wc) := ⟨by omega, by omega, h2, by omega⟩
  have hRB : m.inBM (wr + 1, wc + 1) := ⟨by omega, by omega, by omega, by omega⟩
  have hpair : ∀ {x1 y1 x2 y2 : Int}, ((x1, y1) : Pos) = (x2, y2) → x1 = x2 ∧ y1 = y2 := by
    intro x1 y1 x2 y2 hh
    rwa [Prod.mk.injEq] at hh
  rcases ((openWall_open_iff hwf hc hnbr hadj hLT).2).mp hE1 with e1 | ⟨hrc, hne⟩ | ⟨hrn, hce⟩
  rotate_left
  · -- new wall is LT–RT with c = LT: the LT–LB wall gives c an open wall in m
    subst hrc
    subst hne
    rcases ((openWall_open_iff hwf hc hnbr hadj hLT).1).mp hS1 with s1 | ⟨h1', h2'⟩ | ⟨h1', h2'⟩
    · exact hiso _ ⟨hLT, hLB, Or.inl ⟨rfl, s1⟩⟩
    · simp only [southOf, eastOf, Prod.mk.injEq] at h1' h2'
      omega
    · simp only [southOf, eastOf, Prod.mk.injEq] at h1' h2'
      omega
  · -- new wall is LT–RT with c = RT: the RT–RB wall gives c an open wall in m
    subst hrn
    subst hce
    rcases ((openWall_open_iff hwf hc hnbr hadj hRT).1).mp hS2 with s2 | ⟨h1', h2'⟩ | ⟨h1', h2'⟩
    · exact hiso _ ⟨hRT, hRB, Or.inl ⟨rfl, s2⟩⟩
    · simp only [southOf, eastOf, Prod.mk.injEq] at h1' h2'
      omega
    · simp only [southOf, eastOf, Prod.mk.injEq] at h1' h2'
      omega
  rcases ((openWall_open_iff hwf hc hnbr hadj hLT).1).mp hS1 with s1 | ⟨hrc, hne⟩ | ⟨hrn, hce⟩
  rotate_left
  · -- new wall is LT–LB with c = LT: use the open LT–RT wall
    subst hrc
    subst hne
    exact hiso _ ⟨hLT, hRT, Or.inr (Or.inl ⟨rfl, e1⟩)⟩
  · -- new wall is LT–LB with c = LB: use the LB–RB wall
    subst hrn
    subst hce
    rcases ((openWall_open_iff hwf hc hnbr hadj hLB).2).mp hE2 with e2 | ⟨h1', h2'⟩ | ⟨h1', h2'⟩
    · exact hiso _ ⟨hLB, hRB, Or.inr (Or.inl ⟨rfl, e2⟩)⟩
    · simp only [southOf, eastOf, Prod.mk.injEq] at h1' h2'
      omega
    · simp only [southOf, eastOf, Prod.mk.injEq] at h1' h2'
      omega
  rcases ((openWall_open_iff hwf hc hnbr hadj hRT).1).mp hS2 with s2 | ⟨hrc, hne⟩ | ⟨hrn, hce⟩
  rotate_left
  · -- new wall is RT–RB with c = RT: use the open LT–RT wall
    subst hrc
    subst hne
    exact hiso _ ⟨hRT, hLT, Or.inr (Or.inr (Or.inr ⟨rfl, e1⟩))⟩
  · -- new wall is RT–RB with c = RB: use the LB–RB wall
    subst hrn
    subst hce
    rcases ((openWall_open_iff hwf hc hnbr hadj hLB).2).mp hE2 with e2 | ⟨h1', h2'⟩ | ⟨h1', h2'⟩
    · exact hiso _ ⟨hRB, hLB, Or.inr (Or.inr (Or.inr ⟨rfl, e2⟩))⟩
    · simp only [southOf, eastOf, Prod.mk.injEq] at h1' h2'
      omega
    · simp only [southOf, eastOf, Prod.mk.injEq] at h1' h2'
      omega
  rcases ((openWall_open_iff hwf hc hnbr hadj hLB).2).mp hE2 with e2 | ⟨hrc, hne⟩ | ⟨hrn, hce⟩
  rotate_left
  · -- new wall is LB–RB with c = LB: use the open LT–LB wall
    subst hrc
    subst hne
    exact hiso _ ⟨hLB, hLT, Or.inr (Or.inr (Or.inl ⟨rfl, s1⟩))⟩
  · -- new wall is LB–RB with c = RB: use the open RT–RB wall
    subst hrn
    subst hce
    exact hiso _ ⟨hRB, hRT, Or.inr (Or.inr (Or.inl ⟨rfl, s2⟩))⟩
  -- no wall of the window is the newly opened one: the window was full before
  exact hnf wr wc h0 h1 h2 h3 ⟨e1, s1, s2, e2⟩

end Mazegen

namespace Mazegen

theorem cellAt_openWall_ne {m : Maze} (hwf : m.wfGrid) {p q r : Pos}
    (hp : m.inBM p) (hq : m.inBM q) (hr : m.inBM r) (hrp : r ≠ p) (hrq : r ≠ q) :
    (m.openWall p q).cellAt r = m.cellAt r := by
  unfold Maze.openWall
  split
  · rfl
  · split
    · rw [cellAt_modifyCell_ne (wfGrid_modifyCell hwf _ _) hq hr hrq,
          cellAt_modifyCell_ne hwf hp hr hrp]
    · split
      · rw [cellAt_modifyCell_ne (wfGrid_modifyCell hwf _ _) hq hr hrq,
            cellAt_modifyCell_ne hwf hp hr hrp]
      · split
        · rw [cellAt_modifyCell_ne (wfGrid_modifyCell hwf _ _) hq hr hrq,
              cellAt_modifyCell_ne hwf hp hr hrp]
        · split
          · rw [cellAt_modifyCell_ne (wfGrid_modifyCell hwf _ _) hq hr hrq,
                cellAt_modifyCell_ne hwf hp hr hrp]
          · rfl

/-- The visiting branch of the carve loop preserves the invariant. -/
theorem carveInv_visit (g : MazeGenerator) {m : Maze} {v : Finset Pos}
    {o : List Pos} {r : Rng} (hinv : CarveInv g ⟨m, v, o, r⟩) {c nbr : Pos}
    (hc : c ∈ o) (hcv : c ∉ v)
    (hnbr : nbr ∈ g.getVisitedNeighbors c v) (r2 : Rng) :
    CarveInv g ⟨m.openWall c nbr, insert c v,
      g.addOptions c (insert c v) (o.erase c), r2⟩ := by
  obtain ⟨hadj, hnbrB, hnbrV, hnbrNP⟩ := mem_getVisitedNeighbors.mp hnbr
  have hcB : g.inB c := hinv.opt_inB c hc
  have hcNP : c ∉ g.pattern := hinv.opt_np c hc
  have hcBM : m.inBM c := inB_to_inBM hinv hcB
  have hnbrBM : m.inBM nbr := inB_to_inBM hinv hnbrB
  have hwfm : m.wfGrid := hinv.wf
  have hclosed : ¬ m.openAdj c nbr := fun h => hcv (hinv.adj_vis c nbr h).1
  have hiso : ∀ z, ¬ m.openAdj c z := fun z h => hcv (hinv.adj_vis c z h).1
  have hmono : openGraph m ≤ openGraph (m.openWall c nbr) := by
    intro a b h
    exact openAdj_openWall_mono h
  refine ⟨?_, ?_, ?_, ?_, ?_, ?_, ?_, ?_, ?_, ?_, ?_, ?_, ?_, ?_, ?_, ?_⟩
  · rw [openWall_width]
    exact hinv.dims_w
  · rw [openWall_height]
    exact hinv.dims_h
  · exact wfGrid_openWall hwfm c nbr
  · exact Finset.mem_insert_of_mem hinv.entry_vis
  · intro p hp
    rcases Finset.mem_insert.mp hp with rfl | hp
    · exact hcB
    · exact hinv.vis_inB p hp
  · intro p hp
    rcases Finset.mem_insert.mp hp with rfl | hp
    · exact hcNP
    · exact hinv.vis_np p hp
  · intro p hp
    rcases mem_addOptions.mp hp with hp | ⟨-, hp, -, -⟩
    · exact hinv.opt_inB p (List.mem_of_mem_erase hp)
    · exact hp
  · intro p hp
    rcases mem_addOptions.mp hp with hp | ⟨-, -, -, hp⟩
    · exact hinv.opt_np p (List.mem_of_mem_erase hp)
    · exact hp
  · intro p hp q hadjq hqB hqNP
    rcases Finset.mem_insert.mp hp with rfl | hp
    · by_cases hqv : q ∈ insert p v
      · exact Or.inl hqv
      · refine Or.inr (mem_addOptions.mpr (Or.inr ⟨hadjq, hqB, hqv, hqNP⟩))
    · rcases hinv.closure p hp q hadjq hqB hqNP with hq | hq
      · exact Or.inl (Finset.mem_insert_of_mem hq)
      · by_cases hqc : q = c
        · exact Or.inl (hqc ▸ Finset.mem_insert_self c v)
        · exact Or.inr (mem_addOptions.mpr
            (Or.inl ((List.mem_erase_of_ne hqc).mpr hq)))
  · intro p hp
    rcases Finset.mem_insert.mp hp with rfl | hp
    · exact Relation.ReflTransGen.tail (hinv.vis_reach nbr hnbrV)
        ⟨adjacent4_symm hadj, hnbrB, hcB, hnbrNP, hcNP⟩
    · exact hinv.vis_reach p hp
  · intro p hp
    rcases Finset.mem_insert.mp hp with rfl | hp
    · have hre : (openGraph (m.openWall p nbr)).Reachable g.entry nbr :=
        (hinv.open_reach nbr hnbrV).mono hmono
      have hadj2 : (openGraph (m.openWall p nbr)).Adj nbr p :=
        (openGraph (m.openWall p nbr)).symm (openAdj_openWall_self hwfm hcBM hnbrBM hadj)
      exact hre.trans hadj2.reachable
    · exact (hinv.open_reach p hp).mono hmono
  · intro a b hab
    rcases openAdj_openWall_inv hwfm hcBM hnbrBM hadj hab with h | ⟨rfl, rfl⟩ | ⟨rfl, rfl⟩
    · obtain ⟨h1, h2⟩ := hinv.adj_vis a b h
      exact ⟨Finset.mem_insert_of_mem h1, Finset.mem_insert_of_mem h2⟩
    · exact ⟨Finset.mem_insert_self _ _, Finset.mem_insert_of_mem hnbrV⟩
    · exact ⟨Finset.mem_insert_of_mem hnbrV, Finset.mem_insert_self _ _⟩
  · rw [openEdges_openWall hwfm hcBM hnbrBM hadj,
      Finset.card_insert_of_not_mem (canonEdge_not_mem hadj hclosed),
      Finset.card_insert_of_not_mem hcv]
    have hec : m.openEdges.card + 1 = v.card := hinv.edge_count
    omega
  · obtain ⟨f, rk, hcert⟩ := hinv.tree_cert
    refine ⟨Function.update f c nbr, Function.update rk c (rk nbr + 1), ?_⟩
    intro p q hpq
    have hnbrc : nbr ≠ c := fun h => hcv (h ▸ hnbrV)
    rcases openAdj_openWall_inv hwfm hcBM hnbrBM hadj hpq with h | ⟨rfl, rfl⟩ | ⟨rfl, rfl⟩
    · obtain ⟨hp1, hq1⟩ := hinv.adj_vis p q h
      have hpc : p ≠ c := fun hh => hcv (hh ▸ hp1)
      have hqc : q ≠ c := fun hh => hcv (hh ▸ hq1)
      rcases hcert p q h with ⟨hqf, hlt⟩ | ⟨hpf, hlt⟩
      · left
        have hfpc : f p ≠ c := hqf ▸ hqc
        rw [Function.update_noteq hpc, Function.update_noteq hfpc,
          Function.update_noteq hpc]
        exact ⟨hqf, hlt⟩
      · right
        have hfqc : f q ≠ c := hpf ▸ hpc
        rw [Function.update_noteq hqc, Function.update_noteq hfqc,
          Function.update_noteq hqc]
        exact ⟨hpf, hlt⟩
    · left
      rw [Function.update_same, Function.update_noteq hnbrc, Function.update_same]
      exact ⟨rfl, by omega⟩
    · right
      rw [Function.update_same, Function.update_noteq hnbrc, Function.update_same]
      exact ⟨rfl, by omega⟩
  · exact noFull_openWall_of_isolated hwfm hcBM hnbrBM hadj hiso hinv.no_full
  · intro p hp hpB
    have hpc : p ≠ c := fun hh => hcNP (hh ▸ hp)
    have hpn : p ≠ nbr := fun hh => hnbrNP (hh ▸ hp)
    rw [cellAt_openWall_ne hwfm hcBM hnbrBM (inB_to_inBM hinv hpB) hpc hpn]
    exact hinv.pattern_closed p hp hpB

end Mazegen

namespace Mazegen

/-- With enough fuel the carve loop ends with an exhausted options list and
an invariant-satisfying state. -/
theorem carveLoop_complete (g : MazeGenerator) :
    ∀ (fuel : Nat) (s : CarveState),
      s.options.length + 5 * ((g.cellsFinset \ s.visited).card) < fuel →
      CarveInv g s →
      CarveInv g (carveLoop g fuel s) ∧ (carveLoop g fuel s).options = [] := by
  intro fuel
  induction fuel with
  | zero =>
      intro s hm _
      omega
  | succ fuel ih =>
      rintro ⟨m, v, o, r⟩ hm hinv
      simp only at hm
      cases o with
      | nil =>
          simp only [carveLoop]
          exact ⟨hinv, trivial⟩
      | cons c0 rest =>
          simp only [carveLoop]
          have hne : (c0 :: rest : List Pos) ≠ [] := by simp
          have hcur : (pyChoice ((0 : Int), (0 : Int)) (c0 :: rest) r).1 ∈ c0 :: rest :=
            pyChoice_fst_mem hne _ _
          by_cases hcv : (pyChoice ((0 : Int), (0 : Int)) (c0 :: rest) r).1 ∈ v
          · rw [if_pos hcv]
            apply ih
            · simp only
              have : ((c0 :: rest).erase
                  (pyChoice ((0 : Int), (0 : Int)) (c0 :: rest) r).1).length =
                  (c0 :: rest).length - 1 := List.length_erase_of_mem hcur
              simp only [List.length_cons] at *
              omega
            · exact carveInv_erase_of_visited g hinv hcv _
          · rw [if_neg hcv]
            cases hn : g.getVisitedNeighbors (pyChoice ((0 : Int), (0 : Int)) (c0 :: rest) r).1 v with
            | nil =>
                apply ih
                · simp only
                  have : ((c0 :: rest).erase
                      (pyChoice ((0 : Int), (0 : Int)) (c0 :: rest) r).1).length =
                      (c0 :: rest).length - 1 := List.length_erase_of_mem hcur
                  simp only [List.length_cons] at *
                  omega
                · exact carveInv_erase_of_no_nbrs g hinv hcv hn _
            | cons nb nbs =>
                have hnbr : (pyChoice ((0 : Int), (0 : Int)) (nb :: nbs)
                    (pyChoice ((0 : Int), (0 : Int)) (c0 :: rest) r).2).1 ∈
                    g.getVisitedNeighbors (pyChoice ((0 : Int), (0 : Int)) (c0 :: rest) r).1 v := by
                  rw [hn]
                  exact pyChoice_fst_mem (by simp) _ _
                apply ih
                · simp only
                  -- measure decreases by at least two
                  have hlen1 : ((c0 :: rest).erase
                      (pyChoice ((0 : Int), (0 : Int)) (c0 :: rest) r).1).length =
                      (c0 :: rest).length - 1 := List.length_erase_of_mem hcur
                  have hlen2 : ∀ (vv : Finset Pos) (oo : List Pos),
                      (g.addOptions (pyChoice ((0 : Int), (0 : Int)) (c0 :: rest) r).1 vv oo).length ≤
                        oo.length + 4 := by
                    intro vv oo
                    unfold MazeGenerator.addOptions
                    rw [List.length_append]
                    have h1 := List.length_filter_le
                      (fun q => decide (q ∉ vv ∧ q ∉ g.pattern))
                      (g.getNeighbors (pyChoice ((0 : Int), (0 : Int)) (c0 :: rest) r).1)
                    have h2 := getNeighbors_length_le g
                      (pyChoice ((0 : Int), (0 : Int)) (c0 :: rest) r).1
                    omega
                  have hcell : (pyChoice ((0 : Int), (0 : Int)) (c0 :: rest) r).1 ∈
                      g.cellsFinset \ v :=
                    Finset.mem_sdiff.mpr
                      ⟨mem_cellsFinset.mpr (hinv.opt_inB _ hcur), hcv⟩
                  have hcard : (g.cellsFinset \
                      insert (pyChoice ((0 : Int), (0 : Int)) (c0 :: rest) r).1 v).card =
                      (g.cellsFinset \ v).card - 1 := by
                    rw [Finset.sdiff_insert]
                    exact Finset.card_erase_of_mem hcell
                  have hpos : 0 < (g.cellsFinset \ v).card :=
                    Finset.card_pos.mpr ⟨_, hcell⟩
                  have := hlen2 (insert (pyChoice ((0 : Int), (0 : Int)) (c0 :: rest) r).1 v)
                    ((c0 :: rest).erase (pyChoice ((0 : Int), (0 : Int)) (c0 :: rest) r).1)
                  simp only [List.length_cons] at *
                  omega
                · exact carveInv_visit g hinv hcur hcv hnbr _

end Mazegen

namespace Mazegen

/-- A graph all of whose edges step from a vertex to its image under a
rank-decreasing parent function is acyclic. -/
theorem isAcyclic_of_parent {V : Type} [DecidableEq V] (G : SimpleGraph V)
    (f : V → V) (rk : V → Nat)
    (hP : ∀ a b, G.Adj a b → (b = f a ∧ rk (f a) < rk a) ∨ (a = f b ∧ rk (f b) < rk b)) :
    G.IsAcyclic := by
  intro v c hc
  have hlen3 : 3 ≤ c.length := hc.three_le_length
  have htail_len : c.support.tail.length = c.length := by
    have h1 := c.length_support
    rw [c.support_eq_cons] at h1
    simp only [List.length_cons] at h1
    omega
  have hv_tail : v ∈ c.support.tail := by
    cases c with
    | nil => simp at hlen3
    | cons h p =>
        rw [SimpleGraph.Walk.support_cons]
        simp only [List.tail_cons]
        exact SimpleGraph.Walk.end_mem_support p
  have hmem_tail : ∀ x ∈ c.support, x ∈ c.support.tail := by
    intro x hx
    rw [c.support_eq_cons] at hx
    rcases List.mem_cons.mp hx with rfl | hx2
    · exact hv_tail
    · exact hx2
  have hProp : ∀ e ∈ c.edges, ∃ p, e = s(p, f p) ∧ rk (f p) < rk p ∧
      p ∈ c.support ∧ f p ∈ c.support := by
    intro e
    induction e using Sym2.ind with
    | _ a b =>
      intro he
      have hadj : G.Adj a b := (G.mem_edgeSet).mp (c.edges_subset_edgeSet he)
      rcases hP a b hadj with ⟨hb, hlt⟩ | ⟨ha, hlt⟩
      · refine ⟨a, by rw [hb], hlt,
          SimpleGraph.Walk.fst_mem_support_of_mem_edges c he, ?_⟩
        rw [← hb]
        exact SimpleGraph.Walk.snd_mem_support_of_mem_edges c he
      · refine ⟨b, ?_, hlt,
          SimpleGraph.Walk.snd_mem_support_of_mem_edges c he, ?_⟩
        · rw [ha]
          exact Sym2.eq_swap
        · rw [← ha]
          exact SimpleGraph.Walk.fst_mem_support_of_mem_edges c he
  choose ch hch1 hch2 hch3 hch4 using hProp
  have hScard : c.support.tail.toFinset.card = c.length := by
    rw [List.toFinset_card_of_nodup hc.support_nodup, htail_len]
  have hEcard : c.edges.toFinset.card = c.length := by
    rw [List.toFinset_card_of_nodup hc.edges_nodup, c.length_edges]
  have hmaps : ∀ (e : Sym2 V) (he : e ∈ c.edges.toFinset),
      ch e (List.mem_toFinset.mp he) ∈ c.support.tail.toFinset := by
    intro e he
    exact List.mem_toFinset.mpr (hmem_tail _ (hch3 e (List.mem_toFinset.mp he)))
  have hinj : ∀ (e₁ e₂ : Sym2 V) (h₁ : e₁ ∈ c.edges.toFinset)
      (h₂ : e₂ ∈ c.edges.toFinset),
      ch e₁ (List.mem_toFinset.mp h₁) = ch e₂ (List.mem_toFinset.mp h₂) → e₁ = e₂ := by
    intro e₁ e₂ h₁ h₂ heq
    rw [hch1 e₁ (List.mem_toFinset.mp h₁), hch1 e₂ (List.mem_toFinset.mp h₂), heq]
  have hcard : c.support.tail.toFinset.card ≤ c.edges.toFinset.card := by
    rw [hScard, hEcard]
  have hsurj := Finset.surj_on_of_inj_on_of_card_le
    (fun e he => ch e (List.mem_toFinset.mp he)) hmaps hinj hcard
  have hSne : c.support.tail.toFinset.Nonempty := ⟨v, List.mem_toFinset.mpr hv_tail⟩
  obtain ⟨m, hmS, hmin⟩ := Finset.exists_min_image c.support.tail.toFinset rk hSne
  obtain ⟨e, he, hme⟩ := hsurj m hmS
  have hlt : rk (f m) < rk m := by
    rw [hme]
    exact hch2 e (List.mem_toFinset.mp he)
  have hfmS : f m ∈ c.support.tail.toFinset := by
    rw [hme]
    exact List.mem_toFinset.mpr (hmem_tail _ (hch4 e (List.mem_toFinset.mp he)))
  have := hmin (f m) hfmS
  omega

end Mazegen

namespace Mazegen

/-- `_get_visited_neighbors` reads no generator field besides the grid
bounds and the pattern: the stored `_algo` string is irrelevant. -/
theorem getVisitedNeighbors_algo (w h : Nat) (e x : Pos) (pf : Bool)
    (a1 a2 : Option String) (pat : Finset Pos) (p : Pos) (v : Finset Pos) :
    MazeGenerator.getVisitedNeighbors ⟨w, h, e, x, pf, a1, pat⟩ p v =
      MazeGenerator.getVisitedNeighbors ⟨w, h, e, x, pf, a2, pat⟩ p v := rfl

/-- `_add_options` ignores the stored `_algo` string. -/
theorem addOptions_algo (w h : Nat) (e x : Pos) (pf : Bool)
    (a1 a2 : Option String) (pat : Finset Pos) (p : Pos) (v : Finset Pos)
    (o : List Pos) :
    MazeGenerator.addOptions ⟨w, h, e, x, pf, a1, pat⟩ p v o =
      MazeGenerator.addOptions ⟨w, h, e, x, pf, a2, pat⟩ p v o := rfl

/-- The adjacent-pair enumeration ignores the stored `_algo` string. -/
theorem adjacentPairs_algo (w h : Nat) (e x : Pos) (pf : Bool)
    (a1 a2 : Option String) (pat : Finset Pos) :
    MazeGenerator.adjacentPairs ⟨w, h, e, x, pf, a1, pat⟩ =
      MazeGenerator.adjacentPairs ⟨w, h, e, x, pf, a2, pat⟩ := rfl

/-- `_is_breakable` ignores the stored `_algo` string. -/
theorem isBreakable_algo (w h : Nat) (e x : Pos) (pf : Bool)
    (a1 a2 : Option String) (pat : Finset Pos) (m : Maze) (p1 p2 : Pos) :
    MazeGenerator.isBreakable ⟨w, h, e, x, pf, a1, pat⟩ m p1 p2 =
      MazeGenerator.isBreakable ⟨w, h, e, x, pf, a2, pat⟩ m p1 p2 := rfl

/-- The carve loop ignores the stored `_algo` string. -/
theorem carveLoop_algo (w h : Nat) (e x : Pos) (pf : Bool)
    (a1 a2 : Option String) (pat : Finset Pos) :
    ∀ (fuel : Nat) (s : CarveState),
      carveLoop ⟨w, h, e, x, pf, a1, pat⟩ fuel s =
        carveLoop ⟨w, h, e, x, pf, a2, pat⟩ fuel s := by
  intro fuel
  induction fuel with
  | zero => intro s; rfl
  | succ n ih =>
      rintro ⟨m, v, o, r⟩
      cases o with
      | nil => rfl
      | cons c0 rest =>
          simp only [carveLoop]
          by_cases hcv : (pyChoice ((0 : Int), (0 : Int)) (c0 :: rest) r).1 ∈ v
          · rw [if_pos hcv, if_pos hcv]
            exact ih _
          · rw [if_neg hcv, if_neg hcv]
            rw [getVisitedNeighbors_algo w h e x pf a1 a2 pat]
            cases hn : MazeGenerator.getVisitedNeighbors ⟨w, h, e, x, pf, a2, pat⟩
                (pyChoice ((0 : Int), (0 : Int)) (c0 :: rest) r).1 v with
            | nil => exact ih _
            | cons nb nbs =>
                rw [addOptions_algo w h e x pf a1 a2 pat]
                exact ih _

/-- The loop-breaker walk ignores the stored `_algo` string. -/
theorem addLoopsGo_algo (w h : Nat) (e x : Pos) (pf : Bool)
    (a1 a2 : Option String) (pat : Finset Pos) (limit : Nat) :
    ∀ (pairs : List (Pos × Pos)) (broken : Nat) (m : Maze),
      addLoopsGo ⟨w, h, e, x, pf, a1, pat⟩ limit pairs broken m =
        addLoopsGo ⟨w, h, e, x, pf, a2, pat⟩ limit pairs broken m := by
  intro pairs
  induction pairs with
  | nil => intro broken m; rfl
  | cons pr rest ih =>
      intro broken m
      obtain ⟨p1, p2⟩ := pr
      simp only [addLoopsGo]
      by_cases hlim : limit ≤ broken
      · rw [if_pos hlim, if_pos hlim]
      · rw [if_neg hlim, if_neg hlim]
        by_cases hpat : p1 ∈ pat ∨ p2 ∈ pat
        · rw [if_pos hpat, if_pos hpat]
          exact ih _ _
        · rw [if_neg hpat, if_neg hpat]
          by_cases hcl : MazeGenerator.isClosed m p1 p2 = true
          · rw [if_pos hcl, if_pos hcl]
            rw [isBreakable_algo w h e x pf a1 a2 pat]
            by_cases hbr : MazeGenerator.isBreakable ⟨w, h, e, x, pf, a2, pat⟩ m p1 p2 = true
            · rw [if_pos hbr, if_pos hbr]
              exact ih _ _
            · rw [if_neg hbr, if_neg hbr]
              exact ih _ _
          · rw [if_neg hcl, if_neg hcl]
            exact ih _ _

/-- `_add_loops` ignores the stored `_algo` string. -/
theorem addLoops_algo (w h : Nat) (e x : Pos) (pf : Bool)
    (a1 a2 : Option String) (pat : Finset Pos) (m : Maze) (rng : Rng) :
    MazeGenerator.addLoops ⟨w, h, e, x, pf, a1, pat⟩ m rng =
      MazeGenerator.addLoops ⟨w, h, e, x, pf, a2, pat⟩ m rng := by
  simp only [MazeGenerator.addLoops]
  rw [adjacentPairs_algo w h e x pf a1 a2 pat,
    addLoopsGo_algo w h e x pf a1 a2 pat]

/-- `generate` never reads the stored `_algo` string: two generators that
differ only in the algorithm selector produce identical output on every
random stream. -/
theorem generate_algo (w h : Nat) (e x : Pos) (pf : Bool)
    (a1 a2 : Option String) (rng : Rng) :
    (MazeGenerator.init w h e x pf a1).generate rng =
      (MazeGenerator.init w h e x pf a2).generate rng := by
  show MazeGenerator.generate ⟨w, h, e, x, pf, a1, makePattern w h e x⟩ rng =
    MazeGenerator.generate ⟨w, h, e, x, pf, a2, makePattern w h e x⟩ rng
  simp only [MazeGenerator.generate]
  rw [addOptions_algo w h e x pf a1 a2 (makePattern w h e x),
    carveLoop_algo w h e x pf a1 a2 (makePattern w h e x)]
  by_cases hpf : pf = true
  · rw [if_pos hpf, if_pos hpf]
    rfl
  · rw [if_neg hpf, if_neg hpf]
    rw [addLoops_algo w h e x pf a1 a2 (makePattern w h e x)]
    rfl

end Mazegen

namespace Mazegen

/-- The freshly initialised grid has no open wall below any cell. -/
theorem openSouth_init_false (w h : Nat) (e x z : Pos) :
    ¬ (Maze.init w h e x).openSouth z := by
  intro hz
  rw [Maze.openSouth, cellAt_init] at hz
  simp [Cell.closedAll] at hz

/-- The freshly initialised grid has no open wall right of any cell. -/
theorem openEast_init_false (w h : Nat) (e x z : Pos) :
    ¬ (Maze.init w h e x).openEast z := by
  intro hz
  rw [Maze.openEast, cellAt_init] at hz
  simp [Cell.closedAll] at hz

/-- The freshly initialised grid admits no opened wall-pair at all. -/
theorem openAdj_init_false (w h : Nat) (e x : Pos) {p q : Pos} :
    ¬ (Maze.init w h e x).openAdj p q := by
  rintro ⟨-, -, hor⟩
  rcases hor with ⟨-, hs⟩ | ⟨-, hs⟩ | ⟨-, hs⟩ | ⟨-, hs⟩
  · exact openSouth_init_false w h e x _ hs
  · exact openEast_init_false w h e x _ hs
  · exact openSouth_init_false w h e x _ hs
  · exact openEast_init_false w h e x _ hs

/-- The freshly initialised grid has an empty opened-wall edge set. -/
theorem openEdges_init (w h : Nat) (e x : Pos) :
    (Maze.init w h e x).openEdges = ∅ := by
  rw [Finset.eq_empty_iff_forall_not_mem]
  rintro ⟨a, b⟩ hab
  obtain ⟨-, -, hor⟩ := mem_openEdges.mp hab
  rcases hor with ⟨-, hs⟩ | ⟨-, hs⟩
  · exact openSouth_init_false w h e x _ hs
  · exact openEast_init_false w h e x _ hs

/-- The starting state of `generate`'s carve loop satisfies the invariant
whenever the entry is in bounds and off the pattern. -/
theorem carveInv_start (g : MazeGenerator) (rng : Rng)
    (hE : g.inB g.entry) (hNP : g.entry ∉ g.pattern) :
    CarveInv g ⟨Maze.init g.width g.height g.entry g.exit_, {g.entry},
      g.addOptions g.entry {g.entry} [], rng⟩ := by
  refine ⟨rfl, rfl, init_wfGrid _ _ _ _, Finset.mem_singleton_self _, ?_, ?_, ?_, ?_,
    ?_, ?_, ?_, ?_, ?_, ?_, ?_, ?_⟩
  · intro p hp
    rw [Finset.mem_singleton] at hp
    subst hp
    exact hE
  · intro p hp
    rw [Finset.mem_singleton] at hp
    subst hp
    exact hNP
  · intro p hp
    rcases mem_addOptions.mp hp with hmem | ⟨-, hB, -, -⟩
    · exact absurd hmem (List.not_mem_nil p)
    · exact hB
  · intro p hp
    rcases mem_addOptions.mp hp with hmem | ⟨-, -, -, hNPq⟩
    · exact absurd hmem (List.not_mem_nil p)
    · exact hNPq
  · intro p hp q hadj hqB hqNP
    rw [Finset.mem_singleton] at hp
    subst hp
    by_cases hqv : q ∈ ({g.entry} : Finset Pos)
    · exact Or.inl hqv
    · exact Or.inr (mem_addOptions.mpr (Or.inr ⟨hadj, hqB, hqv, hqNP⟩))
  · intro p hp
    rw [Finset.mem_singleton] at hp
    subst hp
    exact Relation.ReflTransGen.refl
  · intro p hp
    rw [Finset.mem_singleton] at hp
    subst hp
    exact ⟨SimpleGraph.Walk.nil⟩
  · intro p q hpq
    exact absurd hpq (openAdj_init_false _ _ _ _)
  · rw [openEdges_init, Finset.card_empty, Finset.card_singleton]
  · exact ⟨id, fun _ => 0, fun p q hpq => absurd hpq (openAdj_init_false _ _ _ _)⟩
  · intro r c h0 h1 h2 h3 hfull
    exact openEast_init_false _ _ _ _ _ hfull.1
  · intro p hp hpB
    exact cellAt_init _ _ _ _ _

/-- The options list that `generate` seeds the loop with has at most four
entries. -/
theorem startOptions_length_le (g : MazeGenerator) :
    (g.addOptions g.entry {g.entry} []).length ≤ 4 := by
  unfold MazeGenerator.addOptions
  rw [List.length_append]
  have h1 := List.length_filter_le
    (fun q => decide (q ∉ ({g.entry} : Finset Pos) ∧ q ∉ g.pattern))
    (g.getNeighbors g.entry)
  have h2 := getNeighbors_length_le g g.entry
  simp only [List.length_nil]
  omega

/-- The grid has at most `width * height` in-bounds cells. -/
theorem cellsFinset_card_le (g : MazeGenerator) :
    g.cellsFinset.card ≤ g.width * g.height := by
  unfold MazeGenerator.cellsFinset
  have h1 := Finset.card_image_le
    (s := (Finset.range g.height) ×ˢ (Finset.range g.width))
    (f := fun rc => ((rc.1 : Int), (rc.2 : Int)))
  rw [Finset.card_product, Finset.card_range, Finset.card_range] at h1
  have h3 : g.height * g.width = g.width * g.height := Nat.mul_comm _ _
  omega

/-- `generate`'s carve loop ends in an invariant state with no options
left. -/
theorem carveResult_spec (g : MazeGenerator) (rng : Rng)
    (hE : g.inB g.entry) (hNP : g.entry ∉ g.pattern) :
    CarveInv g (g.carveResult rng) ∧ (g.carveResult rng).options = [] := by
  unfold MazeGenerator.carveResult
  apply carveLoop_complete
  · simp only
    have h1 := startOptions_length_le g
    have h2 : (g.cellsFinset \ ({g.entry} : Finset Pos)).card ≤ g.width * g.height :=
      le_trans (Finset.card_le_card (Finset.sdiff_subset)) (cellsFinset_card_le g)
    unfold carveFuel
    omega
  · exact carveInv_start g rng hE hNP

/-- In an invariant state with an exhausted options list, the visited set
is exactly the set of non-pattern cells reachable from the entry. -/
theorem visited_iff_reach {g : MazeGenerator} {s : CarveState}
    (hinv : CarveInv g s) (hopt : s.options = []) :
    ∀ p, p ∈ s.visited ↔ g.reachNP p := by
  intro p
  constructor
  · exact hinv.vis_reach p
  · intro h
    unfold MazeGenerator.reachNP at h
    induction h with
    | refl => exact hinv.entry_vis
    | tail hab hbc ih =>
        obtain ⟨hadj, hbB, hcB, hbNP, hcNP⟩ := hbc
        rcases hinv.closure _ ih _ hadj hcB hcNP with hv | ho
        · exact hv
        · rw [hopt] at ho
          exact absurd ho (List.not_mem_nil _)

/-- On a perfect request `generate` returns the carve-loop result as is. -/
theorem generate_perfect_eq (g : MazeGenerator) (rng : Rng)
    (hperf : g.perfect = true) :
    g.generate rng = ((g.carveResult rng).maze, (g.carveResult rng).rng) := by
  simp only [MazeGenerator.generate, MazeGenerator.carveResult]
  rw [if_pos hperf]

/-- On a non-perfect request `generate` post-processes the carve-loop result
with the loop breaker. -/
theorem generate_imperfect_eq (g : MazeGenerator) (rng : Rng)
    (hperf : g.perfect = false) :
    g.generate rng = g.addLoops (g.carveResult rng).maze (g.carveResult rng).rng := by
  simp only [MazeGenerator.generate, MazeGenerator.carveResult]
  rw [if_neg (by rw [hperf]; exact Bool.false_ne_true)]

end Mazegen

namespace Mazegen

/-- After a perfect run the carved maze's opened wall-pairs form a spanning
tree of the non-pattern cells reachable from the entry. -/
theorem generate_spanning (g : MazeGenerator) (rng : Rng)
    (hE : g.inB g.entry) (hNP : g.entry ∉ g.pattern) (hperf : g.perfect = true) :
    ∃ S : Finset Pos,
      (∀ q, q ∈ S ↔ g.reachNP q) ∧
      (g.generate rng).1.openEdges.card + 1 = S.card ∧
      (∀ a b, (g.generate rng).1.openAdj a b → a ∈ S ∧ b ∈ S) ∧
      (∀ q ∈ S, (openGraph (g.generate rng).1).Reachable g.entry q) ∧
      (openGraph (g.generate rng).1).IsAcyclic := by
  obtain ⟨hinv, hopt⟩ := carveResult_spec g rng hE hNP
  rw [generate_perfect_eq g rng hperf]
  refine ⟨(g.carveResult rng).visited, visited_iff_reach hinv hopt,
    hinv.edge_count, hinv.adj_vis, hinv.open_reach, ?_⟩
  obtain ⟨f, rk, hcert⟩ := hinv.tree_cert
  exact isAcyclic_of_parent _ f rk hcert

end Mazegen

/-- C1: for every perfect-mode run whose entry is in bounds and off the
pattern, the opened wall-pairs of `MazeGenerator.generate` form a spanning
tree of the non-pattern cells reachable from the entry: the vertex set `S`
is exactly the reachable non-pattern cells, the number of opened wall-pairs
is `S.card - 1`, every opened wall-pair joins two cells of `S`, every cell
of `S` is connected to the entry through opened walls, and the opened-wall
graph is acyclic. -/
theorem perfect_maze_spanning_tree (g : Mazegen.MazeGenerator)
    (rng : Mazegen.Rng) (hE : g.inB g.entry) (hNP : g.entry ∉ g.pattern)
    (hperf : g.perfect = true) :
    ∃ S : Finset Mazegen.Pos,
      (∀ q, q ∈ S ↔ g.reachNP q) ∧
      (g.generate rng).1.openEdges.card + 1 = S.card ∧
      (∀ a b, (g.generate rng).1.openAdj a b → a ∈ S ∧ b ∈ S) ∧
      (∀ q ∈ S, (Mazegen.openGraph (g.generate rng).1).Reachable g.entry q) ∧
      (Mazegen.openGraph (g.generate rng).1).IsAcyclic :=
  Mazegen.generate_spanning g rng hE hNP hperf

/-- Witness for C1 at a concrete 2×2 perfect configuration. -/
theorem perfect_maze_spanning_tree_witness :
    (Mazegen.MazeGenerator.init 2 2 (0, 0) (1, 1) true none).inB
        (Mazegen.MazeGenerator.init 2 2 (0, 0) (1, 1) true none).entry ∧
    (Mazegen.MazeGenerator.init 2 2 (0, 0) (1, 1) true none).entry ∉
        (Mazegen.MazeGenerator.init 2 2 (0, 0) (1, 1) true none).pattern ∧
    (Mazegen.MazeGenerator.init 2 2 (0, 0) (1, 1) true none).perfect = true ∧
    ∃ S : Finset Mazegen.Pos,
      (∀ q, q ∈ S ↔
        (Mazegen.MazeGenerator.init 2 2 (0, 0) (1, 1) true none).reachNP q) ∧
      ((Mazegen.MazeGenerator.init 2 2 (0, 0) (1, 1) true none).generate
          ⟨fun _ => 0, 0⟩).1.openEdges.card + 1 = S.card ∧
      (∀ a b, ((Mazegen.MazeGenerator.init 2 2 (0, 0) (1, 1) true none).generate
          ⟨fun _ => 0, 0⟩).1.openAdj a b → a ∈ S ∧ b ∈ S) ∧
      (∀ q ∈ S, (Mazegen.openGraph
          ((Mazegen.MazeGenerator.init 2 2 (0, 0) (1, 1) true none).generate
            ⟨fun _ => 0, 0⟩).1).Reachable
          (Mazegen.MazeGenerator.init 2 2 (0, 0) (1, 1) true none).entry q) ∧
      (Mazegen.openGraph
          ((Mazegen.MazeGenerator.init 2 2 (0, 0) (1, 1) true none).generate
            ⟨fun _ => 0, 0⟩).1).IsAcyclic :=
  ⟨by decide, by decide, rfl,
    perfect_maze_spanning_tree (Mazegen.MazeGenerator.init 2 2 (0, 0) (1, 1) true none)
      ⟨fun _ => 0, 0⟩ (by decide) (by decide) rfl⟩

namespace Mazegen

/-- Membership in `_add_loops`' adjacent-pair enumeration: the in-bounds
south and east pairs. -/
theorem mem_adjacentPairs {g : MazeGenerator} {p1 p2 : Pos} :
    (p1, p2) ∈ g.adjacentPairs ↔
      g.inB p1 ∧ g.inB p2 ∧ (p2 = southOf p1 ∨ p2 = eastOf p1) := by
  obtain ⟨a, b⟩ := p1
  obtain ⟨c, d⟩ := p2
  unfold MazeGenerator.adjacentPairs
  simp only [List.mem_flatMap, List.mem_range, List.mem_append]
  constructor
  · rintro ⟨row, hrow, col, hcol, hm | hm⟩
    · by_cases hc : row < g.height - 1
      · rw [if_pos hc] at hm
        simp only [List.mem_singleton, Prod.mk.injEq] at hm
        obtain ⟨⟨h1, h2⟩, h3, h4⟩ := hm
        subst h1
        subst h2
        subst h3
        subst h4
        exact ⟨⟨by omega, by omega, by omega, by omega⟩,
          ⟨by omega, by omega, by omega, by omega⟩, Or.inl rfl⟩
      · rw [if_neg hc] at hm
        exact absurd hm (List.not_mem_nil _)
    · by_cases hc : col < g.width - 1
      · rw [if_pos hc] at hm
        simp only [List.mem_singleton, Prod.mk.injEq] at hm
        obtain ⟨⟨h1, h2⟩, h3, h4⟩ := hm
        subst h1
        subst h2
        subst h3
        subst h4
        exact ⟨⟨by omega, by omega, by omega, by omega⟩,
          ⟨by omega, by omega, by omega, by omega⟩, Or.inr rfl⟩
      · rw [if_neg hc] at hm
        exact absurd hm (List.not_mem_nil _)
  · rintro ⟨⟨h1, h2, h3, h4⟩, ⟨k1, k2, k3, k4⟩, hse | hse⟩
    · simp only [southOf, Prod.mk.injEq] at hse
      obtain ⟨hc, hd⟩ := hse
      simp only at k1 k2 k3 k4
      refine ⟨a.toNat, by omega, b.toNat, by omega, Or.inl ?_⟩
      rw [if_pos (show a.toNat < g.height - 1 by omega)]
      simp only [List.mem_singleton, Prod.mk.injEq]
      exact ⟨⟨by omega, by omega⟩, by omega, by omega⟩
    · simp only [eastOf, Prod.mk.injEq] at hse
      obtain ⟨hc, hd⟩ := hse
      simp only at k1 k2 k3 k4
      refine ⟨a.toNat, by omega, b.toNat, by omega, Or.inr ?_⟩
      rw [if_pos (show b.toNat < g.width - 1 by omega)]
      simp only [List.mem_singleton, Prod.mk.injEq]
      exact ⟨⟨by omega, by omega⟩, by omega, by omega⟩

/-- If three of a window's internal walls are open, `_check_2x2` fires. -/
theorem check2x2_true_of {m : Maze} {row col : Int}
    (h : (m.openSouth (row, col) ∧ m.openSouth (row, col + 1) ∧
            m.openEast (row + 1, col)) ∨
         (m.openEast (row, col) ∧ m.openSouth (row, col + 1) ∧
            m.openEast (row + 1, col)) ∨
         (m.openEast (row, col) ∧ m.openSouth (row, col) ∧
            m.openEast (row + 1, col)) ∨
         (m.openEast (row, col) ∧ m.openSouth (row, col) ∧
            m.openSouth (row, col + 1))) :
    MazeGenerator.check2x2 m row col = true := by
  unfold MazeGenerator.check2x2
  rw [decide_eq_true_eq]
  unfold Maze.openSouth Maze.openEast at h
  rcases h with ⟨h1, h2, h3⟩ | ⟨h1, h2, h3⟩ | ⟨h1, h2, h3⟩ | ⟨h1, h2, h3⟩
  · rw [h1, h2, h3]
    cases hx : (m.cellAt (row, col)).east <;> simp
  · rw [h1, h2, h3]
    cases hx : (m.cellAt (row, col)).south <;> simp
  · rw [h1, h2, h3]
    cases hx : (m.cellAt (row, col + 1)).south <;> simp
  · rw [h1, h2, h3]
    cases hx : (m.cellAt (row + 1, col)).east <;> simp

end Mazegen

namespace Mazegen

/-- Opening a wall that `_is_breakable` accepted cannot complete a 2×2
window: the guard checked exactly the windows the new wall belongs to. -/
theorem noFull_openWall_of_breakable {g : MazeGenerator} {m : Maze}
    (hwf : m.wfGrid) (hdh : m.height = g.height) (hdw : m.width = g.width)
    {p1 p2 : Pos} (hp1 : m.inBM p1) (hp2 : m.inBM p2)
    (hse : p2 = southOf p1 ∨ p2 = eastOf p1)
    (hbrk : g.isBreakable m p1 p2 = true) (hnf : noFull2x2 m) :
    noFull2x2 (m.openWall p1 p2) := by
  have hadj : adjacent4 p1 p2 := by
    rcases hse with h | h <;> subst h
    · exact Or.inr (Or.inl rfl)
    · exact Or.inr (Or.inr (Or.inr rfl))
  intro wr wc h0 h1 h2 h3
  rw [openWall_height] at h1
  rw [openWall_width] at h3
  rintro ⟨hE1, hS1, hS2, hE2⟩
  have hLT : m.inBM (wr, wc) := ⟨h0, by omega, h2, by omega⟩
  have hRT : m.inBM (wr, wc + 1) := ⟨h0, by omega, by omega, by omega⟩
  have hLB : m.inBM (wr + 1, wc) := ⟨by omega, by omega, h2, by omega⟩
  rcases ((openWall_open_iff hwf hp1 hp2 hadj hLT).2).mp hE1 with e1 | ⟨hrc, hne⟩ | ⟨hrn, hce⟩
  rotate_left
  · -- the new wall is the east wall of the top-left cell
    subst hrc
    subst hne
    have hS1' : m.openSouth (wr, wc) := by
      rcases ((openWall_open_iff hwf hp1 hp2 hadj hLT).1).mp hS1 with s | ⟨h1', h2'⟩ | ⟨h1', h2'⟩
      · exact s
      · simp only [southOf, eastOf, Prod.mk.injEq] at h2'
        omega
      · simp only [southOf, eastOf, Prod.mk.injEq] at h1'
        omega
    have hS2' : m.openSouth (wr, wc + 1) := by
      rcases ((openWall_open_iff hwf hp1 hp2 hadj hRT).1).mp hS2 with s | ⟨h1', h2'⟩ | ⟨h1', h2'⟩
      · exact s
      · simp only [southOf, eastOf, Prod.mk.injEq] at h1'
        omega
      · simp only [southOf, eastOf, Prod.mk.injEq] at h2'
        omega
    have hE2' : m.openEast (wr + 1, wc) := by
      rcases ((openWall_open_iff hwf hp1 hp2 hadj hLB).2).mp hE2 with s | ⟨h1', h2'⟩ | ⟨h1', h2'⟩
      · exact s
      · simp only [southOf, eastOf, Prod.mk.injEq] at h1'
        omega
      · simp only [southOf, eastOf, Prod.mk.injEq] at h1'
        omega
    have hcheck : MazeGenerator.check2x2 m wr wc = true :=
      check2x2_true_of (Or.inl ⟨hS1', hS2', hE2'⟩)
    simp only [MazeGenerator.isBreakable, eastOf] at hbrk
    rw [if_neg (show ¬((wr : Int) < wr) from by omega)] at hbrk
    by_cases hg1 : 0 < wr ∧ MazeGenerator.check2x2 m (wr - 1) wc = true
    · rw [if_pos hg1] at hbrk
      exact Bool.noConfusion hbrk
    · rw [if_neg hg1,
        if_pos ⟨show wr < (g.height : Int) - 1 from by omega, hcheck⟩] at hbrk
      exact Bool.noConfusion hbrk
  · -- dead case: the top-left cell is `p2` with `p1` east of it
    subst hrn
    subst hce
    rcases hse with hx | hx <;>
      (simp only [southOf, eastOf, Prod.mk.injEq] at hx
       omega)
  rcases ((openWall_open_iff hwf hp1 hp2 hadj hLT).1).mp hS1 with s1 | ⟨hrc, hne⟩ | ⟨hrn, hce⟩
  rotate_left
  · -- the new wall is the south wall of the top-left cell
    subst hrc
    subst hne
    have hS2' : m.openSouth (wr, wc + 1) := by
      rcases ((openWall_open_iff hwf hp1 hp2 hadj hRT).1).mp hS2 with s | ⟨h1', h2'⟩ | ⟨h1', h2'⟩
      · exact s
      · simp only [southOf, eastOf, Prod.mk.injEq] at h1'
        omega
      · simp only [southOf, eastOf, Prod.mk.injEq] at h1' h2'
        omega
    have hE2' : m.openEast (wr + 1, wc) := by
      rcases ((openWall_open_iff hwf hp1 hp2 hadj hLB).2).mp hE2 with s | ⟨h1', h2'⟩ | ⟨h1', h2'⟩
      · exact s
      · simp only [southOf, eastOf, Prod.mk.injEq] at h1'
        omega
      · simp only [southOf, eastOf, Prod.mk.injEq] at h2'
        omega
    have hcheck : MazeGenerator.check2x2 m wr wc = true :=
      check2x2_true_of (Or.inr (Or.inl ⟨e1, hS2', hE2'⟩))
    simp only [MazeGenerator.isBreakable, southOf] at hbrk
    rw [if_pos (show (wr : Int) < wr + 1 from by omega)] at hbrk
    by_cases hg1 : 0 < wc ∧ MazeGenerator.check2x2 m wr (wc - 1) = true
    · rw [if_pos hg1] at hbrk
      exact Bool.noConfusion hbrk
    · rw [if_neg hg1,
        if_pos ⟨show wc < (g.width : Int) - 1 from by omega, hcheck⟩] at hbrk
      exact Bool.noConfusion hbrk
  · -- dead case: the top-left cell is `p2` with `p1` south of it
    subst hrn
    subst hce
    rcases hse with hx | hx <;>
      (simp only [southOf, eastOf, Prod.mk.injEq] at hx
       omega)
  rcases ((openWall_open_iff hwf hp1 hp2 hadj hRT).1).mp hS2 with s2 | ⟨hrc, hne⟩ | ⟨hrn, hce⟩
  rotate_left
  · -- the new wall is the south wall of the top-right cell
    subst hrc
    subst hne
    have hE2' : m.openEast (wr + 1, wc) := by
      rcases ((openWall_open_iff hwf hp1 hp2 hadj hLB).2).mp hE2 with s | ⟨h1', h2'⟩ | ⟨h1', h2'⟩
      · exact s
      · simp only [southOf, eastOf, Prod.mk.injEq] at h1'
        omega
      · simp only [southOf, eastOf, Prod.mk.injEq] at h1' h2'
        omega
    have hcheck : MazeGenerator.check2x2 m wr wc = true :=
      check2x2_true_of (Or.inr (Or.inr (Or.inl ⟨e1, s1, hE2'⟩)))
    simp only [MazeGenerator.isBreakable, southOf] at hbrk
    rw [if_pos (show (wr : Int) < wr + 1 from by omega)] at hbrk
    by_cases hg1 : 0 < wc + 1 ∧ MazeGenerator.check2x2 m wr (wc + 1 - 1) = true
    · rw [if_pos hg1] at hbrk
      exact Bool.noConfusion hbrk
    · exact absurd ⟨by omega,
        by rw [show wc + 1 - 1 = wc from by omega]; exact hcheck⟩ hg1
  · -- dead case: the top-right cell is `p2` with `p1` south of it
    subst hrn
    subst hce
    rcases hse with hx | hx <;>
      (simp only [southOf, eastOf, Prod.mk.injEq] at hx
       omega)
  rcases ((openWall_open_iff hwf hp1 hp2 hadj hLB).2).mp hE2 with e2 | ⟨hrc, hne⟩ | ⟨hrn, hce⟩
  rotate_left
  · -- the new wall is the east wall of the bottom-left cell
    subst hrc
    subst hne
    have hcheck : MazeGenerator.check2x2 m wr wc = true :=
      check2x2_true_of (Or.inr (Or.inr (Or.inr ⟨e1, s1, s2⟩)))
    simp only [MazeGenerator.isBreakable, eastOf] at hbrk
    rw [if_neg (show ¬((wr : Int) + 1 < wr + 1) from by omega)] at hbrk
    by_cases hg1 : 0 < wr + 1 ∧ MazeGenerator.check2x2 m (wr + 1 - 1) wc = true
    · rw [if_pos hg1] at hbrk
      exact Bool.noConfusion hbrk
    · exact absurd ⟨by omega,
        by rw [show wr + 1 - 1 = wr from by omega]; exact hcheck⟩ hg1
  · -- dead case: the bottom-left cell is `p2` with `p1` east of it
    subst hrn
    subst hce
    rcases hse with hx | hx <;>
      (simp only [southOf, eastOf, Prod.mk.injEq] at hx
       omega)
  -- no window wall is the new one: the window was already full
  exact hnf wr wc h0 h1 h2 h3 ⟨e1, s1, s2, e2⟩

end Mazegen

namespace Mazegen

/-- The loop breaker preserves grid well-formedness, the dimensions, the
2×2 guard property and the closedness of pattern cells. -/
theorem addLoopsGo_preserve {g : MazeGenerator} (limit : Nat) :
    ∀ (pairs : List (Pos × Pos)) (broken : Nat) (m : Maze),
      m.wfGrid → m.height = g.height → m.width = g.width →
      (∀ pr ∈ pairs, pr ∈ g.adjacentPairs) →
      noFull2x2 m →
      (∀ p ∈ g.pattern, g.inB p → m.cellAt p = Cell.closedAll) →
      (addLoopsGo g limit pairs broken m).wfGrid ∧
      (addLoopsGo g limit pairs broken m).height = g.height ∧
      (addLoopsGo g limit pairs broken m).width = g.width ∧
      noFull2x2 (addLoopsGo g limit pairs broken m) ∧
      (∀ p ∈ g.pattern, g.inB p →
        (addLoopsGo g limit pairs broken m).cellAt p = Cell.closedAll) := by
  intro pairs
  induction pairs with
  | nil =>
      intro broken m hwf hdh hdw _ hnf hpc
      simp only [addLoopsGo]
      exact ⟨hwf, hdh, hdw, hnf, hpc⟩
  | cons pr rest ih =>
      intro broken m hwf hdh hdw hmem hnf hpc
      obtain ⟨p1, p2⟩ := pr
      obtain ⟨hB1, hB2, hse⟩ :=
        mem_adjacentPairs.mp (hmem (p1, p2) (List.mem_cons_self _ _))
      have hmem' : ∀ pr ∈ rest, pr ∈ g.adjacentPairs :=
        fun pr h => hmem pr (List.mem_cons_of_mem _ h)
      simp only [addLoopsGo]
      by_cases hlim : limit ≤ broken
      · rw [if_pos hlim]
        exact ⟨hwf, hdh, hdw, hnf, hpc⟩
      · rw [if_neg hlim]
        by_cases hpat : p1 ∈ g.pattern ∨ p2 ∈ g.pattern
        · rw [if_pos hpat]
          exact ih _ _ hwf hdh hdw hmem' hnf hpc
        · rw [if_neg hpat]
          by_cases hcl : MazeGenerator.isClosed m p1 p2 = true
          · rw [if_pos hcl]
            by_cases hbr : g.isBreakable m p1 p2 = true
            · rw [if_pos hbr]
              have hp1M : m.inBM p1 :=
                ⟨hB1.1, by rw [hdh]; exact hB1.2.1, hB1.2.2.1,
                  by rw [hdw]; exact hB1.2.2.2⟩
              have hp2M : m.inBM p2 :=
                ⟨hB2.1, by rw [hdh]; exact hB2.2.1, hB2.2.2.1,
                  by rw [hdw]; exact hB2.2.2.2⟩
              refine ih _ _ (wfGrid_openWall hwf _ _)
                (by rw [openWall_height]; exact hdh)
                (by rw [openWall_width]; exact hdw) hmem'
                (noFull_openWall_of_breakable hwf hdh hdw hp1M hp2M hse hbr hnf)
                ?_
              intro p hp hpB
              have hpM : m.inBM p :=
                ⟨hpB.1, by rw [hdh]; exact hpB.2.1, hpB.2.2.1,
                  by rw [hdw]; exact hpB.2.2.2⟩
              have hne1 : p ≠ p1 := by
                intro hh
                exact hpat (Or.inl (hh ▸ hp))
              have hne2 : p ≠ p2 := by
                intro hh
                exact hpat (Or.inr (hh ▸ hp))
              rw [cellAt_openWall_ne hwf hp1M hp2M hpM hne1 hne2]
              exact hpc p hp hpB
            · rw [if_neg hbr]
              exact ih _ _ hwf hdh hdw hmem' hnf hpc
          · rw [if_neg hcl]
            exact ih _ _ hwf hdh hdw hmem' hnf hpc

end Mazegen

namespace Mazegen

/-- Whatever the perfect flag, the maze `generate` returns satisfies the
2×2 guard property and keeps every in-bounds pattern cell fully closed. -/
theorem generate_guard_pattern (g : MazeGenerator) (rng : Rng)
    (hE : g.inB g.entry) (hNP : g.entry ∉ g.pattern) :
    noFull2x2 (g.generate rng).1 ∧
    (∀ p ∈ g.pattern, g.inB p → ((g.generate rng).1).cellAt p = Cell.closedAll) := by
  obtain ⟨hinv, -⟩ := carveResult_spec g rng hE hNP
  cases hperf : g.perfect with
  | true =>
      rw [generate_perfect_eq g rng hperf]
      exact ⟨hinv.no_full, hinv.pattern_closed⟩
  | false =>
      rw [generate_imperfect_eq g rng hperf]
      simp only [MazeGenerator.addLoops]
      have hres := addLoopsGo_preserve ((g.width * g.height) / 20)
        (pyShuffle ((((0 : Int), (0 : Int)), ((0 : Int), (0 : Int))))
          g.adjacentPairs (g.carveResult rng).rng).1
        0 (g.carveResult rng).maze hinv.wf hinv.dims_h hinv.dims_w
        (fun pr h => pyShuffle_subset _ _ _ pr h)
        hinv.no_full hinv.pattern_closed
      exact ⟨hres.2.2.2.1, hres.2.2.2.2⟩

end Mazegen

/-- C3: after a non-perfect generation run (`generate()` with
`perfect=False`, which runs the loop breaker after the spanning carve), no
2×2 window of cells of the resulting grid has all four of its internal
walls open. -/
theorem no_full_2x2_after_generate (g : Mazegen.MazeGenerator)
    (rng : Mazegen.Rng) (hE : g.inB g.entry) (hNP : g.entry ∉ g.pattern)
    (hperf : g.perfect = false) :
    Mazegen.noFull2x2 (g.generate rng).1 :=
  (Mazegen.generate_guard_pattern g rng hE hNP).1

/-- Witness for C3 at a concrete 4×4 non-perfect configuration. -/
theorem no_full_2x2_after_generate_witness :
    (Mazegen.MazeGenerator.init 4 4 (0, 0) (3, 3) false none).inB
        (Mazegen.MazeGenerator.init 4 4 (0, 0) (3, 3) false none).entry ∧
    (Mazegen.MazeGenerator.init 4 4 (0, 0) (3, 3) false none).entry ∉
        (Mazegen.MazeGenerator.init 4 4 (0, 0) (3, 3) false none).pattern ∧
    (Mazegen.MazeGenerator.init 4 4 (0, 0) (3, 3) false none).perfect = false ∧
    Mazegen.noFull2x2
      ((Mazegen.MazeGenerator.init 4 4 (0, 0) (3, 3) false none).generate
        ⟨fun _ => 0, 0⟩).1 :=
  ⟨by decide, by decide, rfl,
    no_full_2x2_after_generate (Mazegen.MazeGenerator.init 4 4 (0, 0) (3, 3) false none)
      ⟨fun _ => 0, 0⟩ (by decide) (by decide) rfl⟩

/-- C7: every in-bounds pattern cell keeps all four walls closed after
generation and loop-breaking: neither the carve (which filters pattern
cells out of candidates and visited-neighbor choices) nor the loop breaker
(which skips any pair touching a pattern cell) opens a wall incident to a
pattern cell. -/
theorem pattern_cells_stay_closed (g : Mazegen.MazeGenerator)
    (rng : Mazegen.Rng) (hE : g.inB g.entry) (hNP : g.entry ∉ g.pattern) :
    ∀ p ∈ g.pattern, g.inB p →
      ((g.generate rng).1).cellAt p = Mazegen.Cell.closedAll :=
  (Mazegen.generate_guard_pattern g rng hE hNP).2

/-- Witness for C7 at a concrete 9×6 configuration whose pattern is
nonempty; the cell `(0, 1)` belongs to the pattern. -/
theorem pattern_cells_stay_closed_witness :
    (Mazegen.MazeGenerator.init 9 6 (0, 0) (5, 8) false none).inB
        (Mazegen.MazeGenerator.init 9 6 (0, 0) (5, 8) false none).entry ∧
    (Mazegen.MazeGenerator.init 9 6 (0, 0) (5, 8) false none).entry ∉
        (Mazegen.MazeGenerator.init 9 6 (0, 0) (5, 8) false none).pattern ∧
    ((0 : Int), (1 : Int)) ∈
        (Mazegen.MazeGenerator.init 9 6 (0, 0) (5, 8) false none).pattern ∧
    (Mazegen.MazeGenerator.init 9 6 (0, 0) (5, 8) false none).inB (0, 1) ∧
    (((Mazegen.MazeGenerator.init 9 6 (0, 0) (5, 8) false none).generate
        ⟨fun _ => 0, 0⟩).1).cellAt (0, 1) = Mazegen.Cell.closedAll :=
  ⟨by decide, by decide, by decide, by decide,
    pattern_cells_stay_closed (Mazegen.MazeGenerator.init 9 6 (0, 0) (5, 8) false none)
      ⟨fun _ => 0, 0⟩ (by decide) (by decide) (0, 1) (by decide) (by decide)⟩

/-- C5 (corrected): `generate` never dispatches on the configured algorithm
selector: for every parameter tuple and random stream, the `'DFS'` and
`'PRIM'` selectors produce identical output (the frontier-growth carve is
always run), and on a perfect request that common output is a spanning tree
of the non-pattern cells reachable from the entry. -/
theorem generate_selector_irrelevant (w h : Nat) (e x : Mazegen.Pos)
    (pf : Bool) (a1 a2 : Option String) (rng : Mazegen.Rng)
    (hE : (Mazegen.MazeGenerator.init w h e x pf a1).inB e)
    (hNP : e ∉ Mazegen.makePattern w h e x) (hperf : pf = true) :
    (Mazegen.MazeGenerator.init w h e x pf a1).generate rng =
      (Mazegen.MazeGenerator.init w h e x pf a2).generate rng ∧
    ∃ S : Finset Mazegen.Pos,
      (∀ q, q ∈ S ↔ (Mazegen.MazeGenerator.init w h e x pf a1).reachNP q) ∧
      ((Mazegen.MazeGenerator.init w h e x pf a1).generate rng).1.openEdges.card + 1
          = S.card ∧
      (∀ a b, ((Mazegen.MazeGenerator.init w h e x pf a1).generate rng).1.openAdj a b →
        a ∈ S ∧ b ∈ S) ∧
      (∀ q ∈ S, (Mazegen.openGraph
          ((Mazegen.MazeGenerator.init w h e x pf a1).generate rng).1).Reachable e q) ∧
      (Mazegen.openGraph
          ((Mazegen.MazeGenerator.init w h e x pf a1).generate rng).1).IsAcyclic :=
  ⟨Mazegen.generate_algo w h e x pf a1 a2 rng,
    Mazegen.generate_spanning (Mazegen.MazeGenerator.init w h e x pf a1) rng hE hNP hperf⟩

/-- Witness for C5's corrected statement at a concrete 2×2 configuration
under the two selectors. -/
theorem generate_selector_irrelevant_witness :
    (Mazegen.MazeGenerator.init 2 2 (0, 0) (1, 1) true (some "DFS")).inB (0, 0) ∧
    ((0, 0) : Mazegen.Pos) ∉ Mazegen.makePattern 2 2 (0, 0) (1, 1) ∧
    ((Mazegen.MazeGenerator.init 2 2 (0, 0) (1, 1) true (some "DFS")).generate
        ⟨fun _ => 0, 0⟩ =
      (Mazegen.MazeGenerator.init 2 2 (0, 0) (1, 1) true (some "PRIM")).generate
        ⟨fun _ => 0, 0⟩ ∧
    ∃ S : Finset Mazegen.Pos,
      (∀ q, q ∈ S ↔
        (Mazegen.MazeGenerator.init 2 2 (0, 0) (1, 1) true (some "DFS")).reachNP q) ∧
      ((Mazegen.MazeGenerator.init 2 2 (0, 0) (1, 1) true
          (some "DFS")).generate ⟨fun _ => 0, 0⟩).1.openEdges.card + 1 = S.card ∧
      (∀ a b, ((Mazegen.MazeGenerator.init 2 2 (0, 0) (1, 1) true
          (some "DFS")).generate ⟨fun _ => 0, 0⟩).1.openAdj a b → a ∈ S ∧ b ∈ S) ∧
      (∀ q ∈ S, (Mazegen.openGraph
          ((Mazegen.MazeGenerator.init 2 2 (0, 0) (1, 1) true
            (some "DFS")).generate ⟨fun _ => 0, 0⟩).1).Reachable (0, 0) q) ∧
      (Mazegen.openGraph
          ((Mazegen.MazeGenerator.init 2 2 (0, 0) (1, 1) true
            (some "DFS")).generate ⟨fun _ => 0, 0⟩).1).IsAcyclic) :=
  ⟨by decide, by decide,
    generate_selector_irrelevant 2 2 (0, 0) (1, 1) true (some "DFS") (some "PRIM")
      ⟨fun _ => 0, 0⟩ (by decide) (by decide) rfl⟩

/-- C5 counterexample: on the 2×2 grid with the zero stream, `generate`
under the `'DFS'` selector equals `generate` under the `'PRIM'` selector,
and its wall layout differs from the spec's stack-based backtracking carve:
the selector does not dispatch to a different algorithm. -/
theorem generate_no_dispatch_counterexample :
    (Mazegen.MazeGenerator.init 2 2 (0, 0) (1, 1) true (some "DFS")).generate
        ⟨fun _ => 0, 0⟩ =
      (Mazegen.MazeGenerator.init 2 2 (0, 0) (1, 1) true (some "PRIM")).generate
        ⟨fun _ => 0, 0⟩ ∧
    ((Mazegen.MazeGenerator.init 2 2 (0, 0) (1, 1) true (some "DFS")).generate
        ⟨fun _ => 0, 0⟩).1.toHexStr ≠
      (Mazegen.specDFSCarve (Mazegen.MazeGenerator.init 2 2 (0, 0) (1, 1) true
        (some "DFS")) ⟨fun _ => 0, 0⟩).1.toHexStr :=
  ⟨Mazegen.generate_algo 2 2 (0, 0) (1, 1) true (some "DFS") (some "PRIM")
      ⟨fun _ => 0, 0⟩,
    by decide⟩

namespace MazePkg

/-- `walkEnd` through a cons step. -/
theorem walkEnd_cons (p : Pos) (d : String) (l : List String) :
    walkEnd p (d :: l) = walkEnd (moveDir p d) l := rfl

/-- `walkEnd` through an append. -/
theorem walkEnd_append (p : Pos) (l1 l2 : List String) :
    walkEnd p (l1 ++ l2) = walkEnd (walkEnd p l1) l2 := by
  unfold walkEnd
  rw [List.foldl_append]

/-- `walkEnd` through a final step. -/
theorem walkEnd_snoc (p : Pos) (l : List String) (d : String) :
    walkEnd p (l ++ [d]) = moveDir (walkEnd p l) d := by
  rw [walkEnd_append]
  rfl

/-- A direction with a known `_dir_names` index moves by the matching
`_dirs` offset. -/
theorem moveDir_dirIndex {d : String} {i : Nat} (h : dirIndex d = some i)
    (p : Pos) : moveDir p d = stepTarget p i := by
  unfold dirIndex at h
  split_ifs at h with h1 h2 h3 h4 <;>
    first
    | (injection h with hh
       subst hh
       first
       | subst h1
       | subst h2
       | subst h3
       | subst h4
       simp [moveDir, stepTarget, dirs, Prod.ext_iff]
       try omega)
    | exact Option.noConfusion h

/-- The direction symbol of a known index round-trips. -/
theorem dirNames_getD_dirIndex {d : String} {i : Nat}
    (h : dirIndex d = some i) : dirNames.getD i "" = d := by
  unfold dirIndex at h
  split_ifs at h with h1 h2 h3 h4 <;>
    first
    | (injection h with hh
       subst hh
       first
       | subst h1
       | subst h2
       | subst h3
       | subst h4
       rfl)
    | exact Option.noConfusion h

/-- Indices 0–3 name the four directions. -/
theorem dirIndex_dirNames : ∀ i ∈ [0, 1, 2, 3], dirIndex (dirNames.getD i "") = some i := by
  decide

/-- `walkPositions` through a final step. -/
theorem walkPositions_snoc (p : Pos) (l : List String) (d : String) :
    walkPositions p (l ++ [d]) =
      walkPositions p l ++ [moveDir (walkEnd p l) d] := by
  induction l generalizing p with
  | nil => rfl
  | cons e l ih =>
      simp only [List.cons_append, walkPositions, List.append_eq, ih, walkEnd_cons]

/-- The positions of a walk are exactly the endpoints of its prefixes. -/
theorem mem_walkPositions {p x : Pos} {ds : List String} :
    x ∈ walkPositions p ds ↔ ∃ j, j ≤ ds.length ∧ x = walkEnd p (ds.take j) := by
  induction ds generalizing p with
  | nil =>
      simp only [walkPositions, List.mem_singleton, List.length_nil]
      constructor
      · rintro rfl
        exact ⟨0, le_rfl, rfl⟩
      · rintro ⟨j, hj, rfl⟩
        interval_cases j
        rfl
  | cons d ds ih =>
      simp only [walkPositions, List.mem_cons, ih, List.length_cons]
      constructor
      · rintro (rfl | ⟨j, hj, rfl⟩)
        · exact ⟨0, by omega, rfl⟩
        · exact ⟨j + 1, by omega, rfl⟩
      · rintro ⟨j, hj, rfl⟩
        cases j with
        | zero => exact Or.inl rfl
        | succ j => exact Or.inr ⟨j, by omega, rfl⟩

/-- A path the solver's tests accept ends where the coordinate walk ends. -/
theorem isOpenPath_walkEnd {m : Maze} {p q : Pos} {ds : List String}
    (h : isOpenPath m p ds q = true) : walkEnd p ds = q := by
  induction ds generalizing p with
  | nil =>
      simp only [isOpenPath, decide_eq_true_eq] at h
      exact h
  | cons d ds ih =>
      unfold isOpenPath at h
      cases hd : dirIndex d with
      | none =>
          rw [hd] at h
          exact Bool.noConfusion h
      | some i =>
          rw [hd] at h
          rw [Bool.and_eq_true] at h
          rw [walkEnd_cons, moveDir_dirIndex hd]
          exact ih h.2

/-- Splitting an open path at an intermediate point. -/
theorem isOpenPath_append (m : Maze) (p q : Pos) (l1 l2 : List String) :
    isOpenPath m p (l1 ++ l2) q = true ↔
      isOpenPath m p l1 (walkEnd p l1) = true ∧
      isOpenPath m (walkEnd p l1) l2 q = true := by
  induction l1 generalizing p with
  | nil =>
      simp only [List.nil_append, walkEnd, List.foldl_nil, isOpenPath,
        decide_eq_true_eq]
      simp
  | cons d l1 ih =>
      cases hd : dirIndex d with
      | none =>
          simp only [List.cons_append, isOpenPath, hd]
          simp
      | some i =>
          simp only [List.cons_append, List.append_eq, isOpenPath, hd,
            Bool.and_eq_true, ih, walkEnd_cons, moveDir_dirIndex hd]
          tauto

/-- Any prefix of an open path is an open path to its own endpoint. -/
theorem isOpenPath_take {m : Maze} {p q : Pos} {ds : List String}
    (h : isOpenPath m p ds q = true) (k : Nat) :
    isOpenPath m p (ds.take k) (walkEnd p (ds.take k)) = true := by
  have h2 : isOpenPath m p (ds.take k ++ ds.drop k) q = true := by
    rw [List.take_append_drop]
    exact h
  exact ((isOpenPath_append m p q _ _).mp h2).1

/-- The tail of an open path past a prefix is an open path to the exit. -/
theorem isOpenPath_drop {m : Maze} {p q : Pos} {ds : List String}
    (h : isOpenPath m p ds q = true) (k : Nat) :
    isOpenPath m (walkEnd p (ds.take k)) (ds.drop k) q = true := by
  have h2 : isOpenPath m p (ds.take k ++ ds.drop k) q = true := by
    rw [List.take_append_drop]
    exact h
  exact ((isOpenPath_append m p q _ _).mp h2).2

/-- Extending an open path by one accepted step. -/
theorem isOpenPath_snoc {m : Maze} {p r : Pos} {ds : List String} {d : String}
    {i : Nat} (h : isOpenPath m p ds r = true) (hd : dirIndex d = some i)
    (hok : okStep m r i = true) :
    isOpenPath m p (ds ++ [d]) (stepTarget r i) = true := by
  have hwe : walkEnd p ds = r := isOpenPath_walkEnd h
  rw [isOpenPath_append, hwe]
  refine ⟨h, ?_⟩
  unfold isOpenPath
  rw [hd]
  simp only [Bool.and_eq_true, hok, true_and, isOpenPath, decide_eq_true_eq]

/-- Reading off one step of an open path. -/
theorem isOpenPath_step {m : Maze} {p q : Pos} {ds : List String}
    (h : isOpenPath m p ds q = true) {k : Nat} (hk : k < ds.length) :
    ∃ i, dirIndex (ds.getD k "") = some i ∧
      okStep m (walkEnd p (ds.take k)) i = true ∧
      walkEnd p (ds.take (k + 1)) = stepTarget (walkEnd p (ds.take k)) i := by
  have hdrop := isOpenPath_drop h k
  have hsplit : ds.drop k = ds.getD k "" :: ds.drop (k + 1) := by
    rw [List.getD_eq_getElem ds "" hk]
    exact List.drop_eq_getElem_cons hk
  rw [hsplit] at hdrop
  unfold isOpenPath at hdrop
  cases hd : dirIndex (ds.getD k "") with
  | none =>
      rw [hd] at hdrop
      exact Bool.noConfusion hdrop
  | some i =>
      rw [hd] at hdrop
      rw [Bool.and_eq_true] at hdrop
      refine ⟨i, rfl, hdrop.1, ?_⟩
      have hopt : ds[k]? = some (ds.getD k "") := by
        rw [List.getElem?_eq_getElem hk, List.getD_eq_getElem ds "" hk]
      rw [List.take_succ, hopt]
      simp only [Option.toList_some]
      rw [walkEnd_snoc, moveDir_dirIndex hd]

end MazePkg

namespace MazePkg

/-- A shortest open path from entry to exit never returns to an earlier
position: otherwise splicing out the loop would give a shorter path. -/
theorem shortest_no_revisit {m : Maze} {P : List String}
    (hPv : isOpenPath m m.entry P m.exit_ = true)
    (hPmin : ∀ q, isOpenPath m m.entry q m.exit_ = true → P.length ≤ q.length)
    {k : Nat} (hk : k < P.length) :
    walkEnd m.entry (P.take (k + 1)) ∉ walkPositions m.entry (P.take k) := by
  intro hmem
  rw [mem_walkPositions] at hmem
  obtain ⟨j, hj, hje⟩ := hmem
  have hjk : j ≤ k := by
    rw [List.length_take] at hj
    omega
  have htt : (P.take k).take j = P.take j := by
    rw [List.take_take]
    congr 1
    omega
  rw [htt] at hje
  have hleft : isOpenPath m m.entry (P.take j) (walkEnd m.entry (P.take j)) = true :=
    isOpenPath_take hPv j
  have hright : isOpenPath m (walkEnd m.entry (P.take (k + 1)))
      (P.drop (k + 1)) m.exit_ = true :=
    isOpenPath_drop hPv (k + 1)
  have hQ : isOpenPath m m.entry (P.take j ++ P.drop (k + 1)) m.exit_ = true := by
    rw [isOpenPath_append]
    refine ⟨hleft, ?_⟩
    rw [← hje]
    exact hright
  have hlen := hPmin _ hQ
  rw [List.length_append, List.length_take, List.length_drop] at hlen
  omega

/-- The inner loop expands a dequeued entry into at most four children. -/
theorem length_expand_le (m : Maze) (e : Entry) : (expand m e).length ≤ 4 := by
  unfold expand
  have h := List.length_filterMap_le (expandOne m e) [0, 1, 2, 3]
  simpa using h

/-- Membership in the expansion list. -/
theorem mem_expand {m : Maze} {e c : Entry} :
    c ∈ expand m e ↔ ∃ i ∈ [0, 1, 2, 3], expandOne m e i = some c := by
  unfold expand
  exact List.mem_filterMap

/-- What a successful one-direction expansion looks like. -/
theorem expandOne_some {m : Maze} {e : Entry} {i : Nat} {c : Entry}
    (h : expandOne m e i = some c) :
    okStep m (e.x, e.y) i = true ∧
    stepTarget (e.x, e.y) i ∉ e.visited ∧
    c.path = e.path ++ [dirNames.getD i ""] ∧
    c.visited = insert (stepTarget (e.x, e.y) i) e.visited ∧
    (c.x, c.y) = stepTarget (e.x, e.y) i := by
  unfold expandOne at h
  dsimp only at h
  split at h
  · split at h
    · split at h
      · rename_i hb hw hnv
        injection h with hc
        subst hc
        refine ⟨?_, ?_, rfl, ?_, ?_⟩
        · unfold okStep stepTarget
          dsimp only
          rw [Bool.and_eq_true, decide_eq_true_eq, decide_eq_true_eq]
          exact ⟨hb, hw⟩
        · unfold stepTarget
          dsimp only
          exact hnv
        · unfold stepTarget
          dsimp only
        · unfold stepTarget
          dsimp only
      · exact Option.noConfusion h
    · exact Option.noConfusion h
  · exact Option.noConfusion h

/-- A step that passes the wall/bounds tests into an unvisited cell does
expand. -/
theorem expandOne_mpr {m : Maze} {e : Entry} {i : Nat}
    (hok : okStep m (e.x, e.y) i = true)
    (hnv : stepTarget (e.x, e.y) i ∉ e.visited) :
    expandOne m e i = some
      ⟨(stepTarget (e.x, e.y) i).1, (stepTarget (e.x, e.y) i).2,
        e.path ++ [dirNames.getD i ""], insert (stepTarget (e.x, e.y) i) e.visited⟩ := by
  unfold okStep at hok
  dsimp only at hok
  rw [Bool.and_eq_true, decide_eq_true_eq, decide_eq_true_eq] at hok
  unfold stepTarget at hok hnv ⊢
  dsimp only at hok hnv ⊢
  unfold expandOne
  dsimp only
  rw [if_pos hok.1, if_pos hok.2, if_pos hnv]

end MazePkg

namespace MazePkg

/-- Membership in the in-bounds cell finset. -/
theorem mem_allCells {m : Maze} {p : Pos} :
    p ∈ m.allCells ↔
      0 ≤ p.1 ∧ p.1 < (m.width : Int) ∧ 0 ≤ p.2 ∧ p.2 < (m.height : Int) := by
  unfold Maze.allCells
  simp only [Finset.mem_image, Finset.mem_product, Finset.mem_range]
  constructor
  · rintro ⟨⟨a, b⟩, ⟨ha, hb⟩, rfl⟩
    refine ⟨by positivity, ?_, by positivity, ?_⟩ <;> push_cast <;> omega
  · rintro ⟨h1, h2, h3, h4⟩
    refine ⟨(p.1.toNat, p.2.toNat), ⟨by omega, by omega⟩, ?_⟩
    simp only [Prod.ext_iff]
    constructor <;> push_cast <;> omega

/-- At most `width * height` in-bounds cells. -/
theorem allCells_card_le (m : Maze) : m.allCells.card ≤ m.width * m.height := by
  unfold Maze.allCells
  have h1 := Finset.card_image_le
    (s := (Finset.range m.width) ×ˢ (Finset.range m.height))
    (f := fun xy => ((xy.1 : Int), (xy.2 : Int)))
  rw [Finset.card_product, Finset.card_range, Finset.card_range] at h1
  exact h1

/-- A visited set inside `insert entry allCells` has at most
`width * height + 1` cells. -/
theorem visited_card_le {m : Maze} {v : Finset Pos}
    (h : v ⊆ insert m.entry m.allCells) :
    v.card ≤ m.width * m.height + 1 := by
  have h1 := Finset.card_le_card h
  have h2 := Finset.card_insert_le m.entry m.allCells
  have h3 := allCells_card_le m
  omega

/-- Queue measure of a cons. -/
theorem queueMeasure_cons (N : Nat) (e : Entry) (q : List Entry) :
    queueMeasure N (e :: q) = entryMeasure N e + queueMeasure N q := by
  simp [queueMeasure]

/-- Queue measure of an append. -/
theorem queueMeasure_append (N : Nat) (q1 q2 : List Entry) :
    queueMeasure N (q1 ++ q2) = queueMeasure N q1 + queueMeasure N q2 := by
  simp [queueMeasure]

/-- Entry measures are positive. -/
theorem entryMeasure_pos (N : Nat) (e : Entry) : 0 < entryMeasure N e :=
  pow_pos (by norm_num) _

/-- A direction index is one of 0–3. -/
theorem dirIndex_mem {d : String} {i : Nat} (h : dirIndex d = some i) :
    i ∈ [0, 1, 2, 3] := by
  unfold dirIndex at h
  split_ifs at h <;>
    first
    | (injection h with hh
       subst hh
       decide)
    | exact Option.noConfusion h

/-- The expansion of an entry weighs strictly less than the entry when every
child's visited set has grown by one and stays within the global bound. -/
theorem queueMeasure_expand_lt (N : Nat) (m : Maze) (e : Entry)
    (h : ∀ c ∈ expand m e, c.visited.card = e.visited.card + 1 ∧ c.visited.card ≤ N) :
    queueMeasure N (expand m e) < entryMeasure N e := by
  cases hx : expand m e with
  | nil =>
      simp only [queueMeasure, List.map_nil, List.sum_nil]
      exact entryMeasure_pos N e
  | cons c cs =>
      have hc := h c (by rw [hx]; exact List.mem_cons_self _ _)
      have hkN : e.visited.card + 1 ≤ N := by omega
      have hEbound : ∀ x ∈ (expand m e).map (entryMeasure N),
          x ≤ 5 ^ (N - e.visited.card - 1) := by
        intro x hxm
        rw [List.mem_map] at hxm
        obtain ⟨c', hc', rfl⟩ := hxm
        have hcc := h c' hc'
        unfold entryMeasure
        rw [hcc.1, show N - (e.visited.card + 1) = N - e.visited.card - 1 from by omega]
      have hsum := List.sum_le_card_nsmul ((expand m e).map (entryMeasure N))
        (5 ^ (N - e.visited.card - 1)) hEbound
      rw [List.length_map, smul_eq_mul] at hsum
      have hlen := length_expand_le m e
      have hpos : 0 < 5 ^ (N - e.visited.card - 1) := pow_pos (by norm_num) _
      have h5 : entryMeasure N e = 5 * 5 ^ (N - e.visited.card - 1) := by
        unfold entryMeasure
        conv_lhs => rw [show N - e.visited.card = (N - e.visited.card - 1) + 1 from by omega]
        rw [pow_succ, Nat.mul_comm]
      rw [← hx] at *
      calc queueMeasure N (expand m e)
          ≤ (expand m e).length * 5 ^ (N - e.visited.card - 1) := hsum
        _ ≤ 4 * 5 ^ (N - e.visited.card - 1) :=
            Nat.mul_le_mul_right _ hlen
        _ < 5 * 5 ^ (N - e.visited.card - 1) := by
            have := hpos
            omega
        _ = entryMeasure N e := h5.symm

end MazePkg

namespace MazePkg

/-- Dequeuing a non-exit entry and enqueuing its expansions preserves the
BFS invariant. -/
theorem bfsInv_step {m : Maze} {P : List String} {e : Entry} {rest : List Entry}
    (hPv : isOpenPath m m.entry P m.exit_ = true)
    (hPmin : ∀ q, isOpenPath m m.entry q m.exit_ = true → P.length ≤ q.length)
    (hinv : BfsInv m P (e :: rest)) (hnex : (e.x, e.y) ≠ m.exit_) :
    BfsInv m P (rest ++ expand m e) := by
  have hse := hinv.sound e (List.mem_cons_self _ _)
  have hwe : walkEnd m.entry e.path = (e.x, e.y) := isOpenPath_walkEnd hse
  have hve := hinv.vis_eq e (List.mem_cons_self _ _)
  have hchild : ∀ c ∈ expand m e,
      ∃ i, dirIndex (dirNames.getD i "") = some i ∧
        okStep m (e.x, e.y) i = true ∧
        stepTarget (e.x, e.y) i ∉ e.visited ∧
        c.path = e.path ++ [dirNames.getD i ""] ∧
        c.visited = insert (stepTarget (e.x, e.y) i) e.visited ∧
        (c.x, c.y) = stepTarget (e.x, e.y) i := by
    intro c hc
    obtain ⟨i, hi4, hsome⟩ := mem_expand.mp hc
    obtain ⟨hok, hnv, hp, hv, hxy⟩ := expandOne_some hsome
    exact ⟨i, dirIndex_dirNames i hi4, hok, hnv, hp, hv, hxy⟩
  refine ⟨?_, ?_, ?_, ?_, ?_, ?_⟩
  · intro c hc
    rcases List.mem_append.mp hc with hr | hx
    · exact hinv.sound c (List.mem_cons_of_mem _ hr)
    · obtain ⟨i, hdi, hok, hnv, hp, hv, hxy⟩ := hchild c hx
      rw [hp, hxy]
      exact isOpenPath_snoc hse hdi hok
  · intro c hc
    rcases List.mem_append.mp hc with hr | hx
    · exact hinv.vis_eq c (List.mem_cons_of_mem _ hr)
    · obtain ⟨i, hdi, hok, hnv, hp, hv, hxy⟩ := hchild c hx
      rw [hv, hp, walkPositions_snoc, hwe, moveDir_dirIndex hdi, hve]
      rw [List.toFinset_append]
      ext z
      simp only [List.toFinset_cons, List.toFinset_nil, Finset.mem_union,
        Finset.mem_insert, Finset.not_mem_empty, or_false]
      tauto
  · intro c hc
    rcases List.mem_append.mp hc with hr | hx
    · exact hinv.vis_sub c (List.mem_cons_of_mem _ hr)
    · obtain ⟨i, hdi, hok, hnv, hp, hv, hxy⟩ := hchild c hx
      rw [hv]
      refine Finset.insert_subset_iff.mpr
        ⟨?_, hinv.vis_sub e (List.mem_cons_self _ _)⟩
      refine Finset.mem_insert.mpr (Or.inr ?_)
      rw [mem_allCells]
      unfold okStep at hok
      rw [Bool.and_eq_true, decide_eq_true_eq, decide_eq_true_eq] at hok
      exact hok.1
  · have hs := hinv.sorted
    rw [List.map_cons, List.sorted_cons] at hs
    obtain ⟨hhead, hrest⟩ := hs
    rw [List.map_append]
    refine (List.pairwise_append).mpr ⟨hrest, ?_, ?_⟩
    · apply List.pairwise_of_forall_mem_list
      intro a ha b hb
      rw [List.mem_map] at ha hb
      obtain ⟨c1, hc1, rfl⟩ := ha
      obtain ⟨c2, hc2, rfl⟩ := hb
      obtain ⟨i1, h1a, h1b, h1c, hp1, h1d, h1e⟩ := hchild c1 hc1
      obtain ⟨i2, h2a, h2b, h2c, hp2, h2d, h2e⟩ := hchild c2 hc2
      simp [hp1, hp2]
    · intro a ha b hb
      rw [List.mem_map] at ha hb
      obtain ⟨c1, hc1, rfl⟩ := ha
      obtain ⟨c2, hc2, rfl⟩ := hb
      obtain ⟨i2, h2a, h2b, h2c, hp2, h2d, h2e⟩ := hchild c2 hc2
      have h1 : c1.path.length ≤ e.path.length + 1 :=
        hinv.level c1 (List.mem_cons_of_mem _ hc1) e (List.mem_cons_self _ _)
      rw [hp2, List.length_append]
      simpa using h1
  · intro e1 he1 e2 he2
    have hlen_child : ∀ c ∈ expand m e, c.path.length = e.path.length + 1 := by
      intro c hc
      obtain ⟨i, h1a, h1b, h1c, hp, h1d, h1e⟩ := hchild c hc
      rw [hp, List.length_append, List.length_singleton]
    have hhead : ∀ e' ∈ rest, e.path.length ≤ e'.path.length := by
      have hs := hinv.sorted
      rw [List.map_cons, List.sorted_cons] at hs
      intro e' he'
      exact hs.1 _ (List.mem_map_of_mem _ he')
    rcases List.mem_append.mp he1 with h1 | h1 <;>
      rcases List.mem_append.mp he2 with h2 | h2
    · exact hinv.level e1 (List.mem_cons_of_mem _ h1) e2 (List.mem_cons_of_mem _ h2)
    · have := hinv.level e1 (List.mem_cons_of_mem _ h1) e (List.mem_cons_self _ _)
      rw [hlen_child e2 h2]
      omega
    · rw [hlen_child e1 h1]
      have := hhead e2 h2
      omega
    · rw [hlen_child e1 h1, hlen_child e2 h2]
      omega
  · obtain ⟨e', he', k, hk, hpath⟩ := hinv.prefix_ex
    rcases List.mem_cons.mp he' with rfl | hr
    · rcases Nat.lt_or_ge k P.length with hklt | hkge
      · obtain ⟨i, hdi, hok, hwk⟩ := isOpenPath_step hPv hklt
        have hwtk : walkEnd m.entry (P.take k) = (e'.x, e'.y) := by
          rw [← hpath]
          exact hwe
        rw [hwtk] at hok hwk
        have hnv : stepTarget (e'.x, e'.y) i ∉ e'.visited := by
          rw [hve, hpath]
          rw [← hwk]
          intro hmem
          exact shortest_no_revisit hPv hPmin hklt (List.mem_toFinset.mp hmem)
        have hsome := expandOne_mpr hok hnv
        refine ⟨_, List.mem_append_right _
          (mem_expand.mpr ⟨i, dirIndex_mem hdi, hsome⟩), k + 1, by omega, ?_⟩
        show e'.path ++ [dirNames.getD i ""] = P.take (k + 1)
        rw [hpath, dirNames_getD_dirIndex hdi]
        rw [List.take_succ]
        congr 1
        rw [List.getElem?_eq_getElem hklt, List.getD_eq_getElem P "" hklt]
        rfl
      · exfalso
        have hkeq : k = P.length := by omega
        have hpp : e'.path = P := by rw [hpath, hkeq, List.take_length]
        apply hnex
        rw [← hwe, hpp]
        exact isOpenPath_walkEnd hPv
    · exact ⟨e', List.mem_append_left _ hr, k, hk, hpath⟩

end MazePkg

namespace MazePkg

/-- With enough fuel, a BFS run whose queue satisfies the invariant
(relative to a shortest valid path `P`) returns exactly one path, which is
a valid open path from entry to exit of length at most `P`'s. -/
theorem solveLoop_run {m : Maze} {P : List String}
    (hPv : isOpenPath m m.entry P m.exit_ = true)
    (hPmin : ∀ q, isOpenPath m m.entry q m.exit_ = true → P.length ≤ q.length) :
    ∀ (fuel : Nat) (queue : List Entry),
      queueMeasure (m.width * m.height + 1) queue < fuel →
      BfsInv m P queue →
      ∃ r, solveLoop m 1 fuel queue [] = [r] ∧
        isOpenPath m m.entry r m.exit_ = true ∧ r.length ≤ P.length := by
  intro fuel
  induction fuel with
  | zero =>
      intro queue hm _
      omega
  | succ fuel ih =>
      intro queue hm hinv
      obtain ⟨e0, he0, k0, hk0, hp0⟩ := hinv.prefix_ex
      cases queue with
      | nil => exact absurd he0 (List.not_mem_nil _)
      | cons e rest =>
          simp only [solveLoop]
          rw [if_neg (by simp : ¬(1 ≤ ([] : List (List String)).length))]
          by_cases hex : (e.x, e.y) = m.exit_
          · rw [if_pos hex]
            have hpos : 0 < queueMeasure (m.width * m.height + 1) (e :: rest) := by
              rw [queueMeasure_cons]
              have := entryMeasure_pos (m.width * m.height + 1) e
              omega
            obtain ⟨fuel', rfl⟩ : ∃ f, fuel = f + 1 := ⟨fuel - 1, by omega⟩
            refine ⟨e.path, ?_, ?_, ?_⟩
            · show solveLoop m 1 (fuel' + 1) rest ([] ++ [e.path]) = [e.path]
              simp only [List.nil_append, solveLoop]
              rw [if_pos (by simp)]
            · have hs := hinv.sound e (List.mem_cons_self _ _)
              rw [hex] at hs
              exact hs
            · have hs := hinv.sorted
              rw [List.map_cons, List.sorted_cons] at hs
              have hle : e.path.length ≤ e0.path.length := by
                rcases List.mem_cons.mp he0 with rfl | hr
                · exact le_rfl
                · exact hs.1 _ (List.mem_map_of_mem _ hr)
              rw [hp0, List.length_take] at hle
              omega
          · rw [if_neg hex]
            have hinv2 := bfsInv_step hPv hPmin hinv hex
            have hcards : ∀ c ∈ expand m e,
                c.visited.card = e.visited.card + 1 ∧
                c.visited.card ≤ m.width * m.height + 1 := by
              intro c hc
              obtain ⟨i, hi4, hsome⟩ := mem_expand.mp hc
              obtain ⟨hok, hnv, hp, hv, hxy⟩ := expandOne_some hsome
              refine ⟨?_, visited_card_le
                (hinv2.vis_sub c (List.mem_append_right _ hc))⟩
              rw [hv]
              exact Finset.card_insert_of_not_mem hnv
            have hlt := queueMeasure_expand_lt (m.width * m.height + 1) m e hcards
            apply ih
            · rw [queueMeasure_append]
              rw [queueMeasure_cons] at hm
              omega
            · exact hinv2

end MazePkg

namespace MazePkg

/-- `solve(count=1)` on a connected maze: one result, valid, shortest. -/
theorem solve_shortest {m : Maze}
    (hconn : ∃ ds, isOpenPath m m.entry ds m.exit_ = true) :
    ∃ r, solve m 1 = [r] ∧ isOpenPath m m.entry r m.exit_ = true ∧
      (∀ q, isOpenPath m m.entry q m.exit_ = true → r.length ≤ q.length) ∧
      walkEnd m.entry r = m.exit_ := by
  obtain ⟨ds0, hds0⟩ := hconn
  have hne : {n | ∃ ds, isOpenPath m m.entry ds m.exit_ = true ∧
      ds.length = n}.Nonempty := ⟨ds0.length, ds0, hds0, rfl⟩
  obtain ⟨P, hPv, hPlen⟩ := Nat.sInf_mem hne
  have hPmin : ∀ q, isOpenPath m m.entry q m.exit_ = true →
      P.length ≤ q.length := by
    intro q hq
    rw [hPlen]
    exact Nat.sInf_le ⟨q, hq, rfl⟩
  have hinv0 : BfsInv m P [⟨m.entry.1, m.entry.2, [], {m.entry}⟩] := by
    refine ⟨?_, ?_, ?_, ?_, ?_, ?_⟩
    · intro e he
      rw [List.mem_singleton] at he
      subst he
      simp only [isOpenPath, decide_eq_true_eq]
    · intro e he
      rw [List.mem_singleton] at he
      subst he
      simp [walkPositions]
    · intro e he
      rw [List.mem_singleton] at he
      subst he
      exact Finset.singleton_subset_iff.mpr (Finset.mem_insert_self _ _)
    · simp
    · intro e1 he1 e2 he2
      rw [List.mem_singleton] at he1 he2
      subst he1
      subst he2
      simp
    · exact ⟨⟨m.entry.1, m.entry.2, [], {m.entry}⟩, List.mem_singleton_self _, 0,
        Nat.zero_le _, rfl⟩
  have hm0 : queueMeasure (m.width * m.height + 1)
      [⟨m.entry.1, m.entry.2, [], {m.entry}⟩] < solveFuel m := by
    unfold solveFuel
    simp only [queueMeasure, entryMeasure, List.map_cons, List.map_nil,
      List.sum_cons, List.sum_nil, Finset.card_singleton]
    rw [show m.width * m.height + 1 - 1 = m.width * m.height from by omega]
    omega
  obtain ⟨r, hr, hrv, hrlen⟩ := solveLoop_run hPv hPmin (solveFuel m) _ hm0 hinv0
  exact ⟨r, hr, hrv, fun q hq => le_trans hrlen (hPmin q hq),
    isOpenPath_walkEnd hrv⟩

end MazePkg

/-- C4: for every maze whose open walls connect the entry to the exit,
`MazeSolver.solve(count=1)` returns exactly one path; that path is an open
walk from entry to exit, its length is the true shortest-path distance
(minimal among all open entry-to-exit paths), and following its direction
symbols step by step from the entry ends exactly at the exit cell. -/
theorem solver_returns_shortest_path (m : MazePkg.Maze)
    (hconn : ∃ ds, MazePkg.isOpenPath m m.entry ds m.exit_ = true) :
    ∃ r, MazePkg.solve m 1 = [r] ∧
      MazePkg.isOpenPath m m.entry r m.exit_ = true ∧
      (∀ q, MazePkg.isOpenPath m m.entry q m.exit_ = true →
        r.length ≤ q.length) ∧
      MazePkg.walkEnd m.entry r = m.exit_ :=
  MazePkg.solve_shortest hconn

/-- Witness for C4 at a concrete 2×1 maze whose single internal wall is
open. -/
theorem solver_returns_shortest_path_witness :
    (∃ ds, MazePkg.isOpenPath
      (⟨2, 1, (0, 0), (1, 0), [[⟨13, true, false, false⟩, ⟨7, false, true, false⟩]]⟩ :
        MazePkg.Maze)
      (0, 0) ds (1, 0) = true) ∧
    ∃ r, MazePkg.solve
        (⟨2, 1, (0, 0), (1, 0), [[⟨13, true, false, false⟩, ⟨7, false, true, false⟩]]⟩ :
          MazePkg.Maze) 1 = [r] ∧
      MazePkg.isOpenPath
        (⟨2, 1, (0, 0), (1, 0), [[⟨13, true, false, false⟩, ⟨7, false, true, false⟩]]⟩ :
          MazePkg.Maze) (0, 0) r (1, 0) = true ∧
      (∀ q, MazePkg.isOpenPath
        (⟨2, 1, (0, 0), (1, 0), [[⟨13, true, false, false⟩, ⟨7, false, true, false⟩]]⟩ :
          MazePkg.Maze) (0, 0) q (1, 0) = true → r.length ≤ q.length) ∧
      MazePkg.walkEnd (0, 0) r = (1, 0) :=
  ⟨⟨["E"], by decide⟩,
    solver_returns_shortest_path
      (⟨2, 1, (0, 0), (1, 0), [[⟨13, true, false, false⟩, ⟨7, false, true, false⟩]]⟩ :
        MazePkg.Maze)
      ⟨["E"], by decide⟩⟩
